import Mathlib

/-!
Verification of the B-tree ordered-set container in `src/tree.h`.

The C++ class `Set<T, B>` stores unique elements in the leaves of a B-tree.
Every `Node` holds a vector of owned children, an optional element (`data`,
set exactly for leaves), and a cached subtree maximum (`mx`).  We embed the
tree shallowly: `Node` below carries the same three fields, with the element
type instantiated at `Int` (the class is generic over any type with a strict
total order `<`) and the cached maximum represented as `Option Int` (the C++
`mx` pointer, `none` standing for null).  Parent pointers exist in the C++
code purely so that the bottom-up rebalancing loops and the iterator walks
can navigate; in this functional embedding those loops become structural
recursion over the same tree, and an iterator is the list of child indices
from the root to the node the C++ iterator points at (the empty path is the
root itself, which the code uses as the `end` sentinel).
-/

namespace BT

/-- The `Node` struct of `tree.h`: children vector, owned element (null for
internal nodes and for the fresh root), cached subtree maximum pointer. -/
inductive Node : Type where
  | mk (children : List Node) (data : Option Int) (mx : Option Int) : Node

def Node.children : Node → List Node
  | .mk cs _ _ => cs

def Node.data : Node → Option Int
  | .mk _ d _ => d

def Node.mx : Node → Option Int
  | .mk _ _ m => m

@[simp] theorem Node.children_mk (cs : List Node) (d m : Option Int) :
    (Node.mk cs d m).children = cs := rfl

@[simp] theorem Node.data_mk (cs : List Node) (d m : Option Int) :
    (Node.mk cs d m).data = d := rfl

@[simp] theorem Node.mx_mk (cs : List Node) (d m : Option Int) :
    (Node.mk cs d m).mx = m := rfl

/-- The leaf constructor `Node(T elem, Node* par)`: no children, owns its
element, and its cached maximum is that element. -/
def Node.leaf (x : Int) : Node := .mk [] (some x) (some x)

/-- `recalc`: if the node has children, its cached maximum becomes the last
child's cached maximum.  (The C++ function also rewrites the children's
parent back-references, which have no counterpart in the functional tree.) -/
def recalc (n : Node) : Node :=
  match n.children.getLast? with
  | none => n
  | some c => .mk n.children n.data c.mx

/-- The multiset of elements stored in the subtree, in left-to-right order:
leaf data for leaves, concatenation over the children for internal nodes.
This is the abstraction function used by the specifications. -/
def elems : Node → List Int
  | .mk cs d _ =>
    if cs.isEmpty then d.toList
    else (cs.attach.map (fun c => elems c.1)).flatten
decreasing_by
  have := List.sizeOf_lt_of_mem c.2
  simp only [Node.mk.sizeOf_spec]
  omega

theorem elems_def (cs : List Node) (d m : Option Int) :
    elems (.mk cs d m) = if cs.isEmpty then d.toList else (cs.map elems).flatten := by
  rw [elems]
  congr 1
  rw [List.map_attach]
  simp [List.pmap_eq_map]

/-- Shorthand for the flattened element list of a children vector. -/
def flatE (cs : List Node) : List Int := (cs.map elems).flatten

theorem elems_mk_of_ne (cs : List Node) (d m : Option Int) (h : cs ≠ []) :
    elems (.mk cs d m) = flatE cs := by
  rw [elems_def, if_neg (by simpa using h)]
  rfl

@[simp] theorem elems_mk_nil (d m : Option Int) : elems (.mk [] d m) = d.toList := by
  rw [elems_def]
  rfl

@[simp] theorem elems_leaf (x : Int) : elems (Node.leaf x) = [x] := by
  rw [Node.leaf, elems_def]
  rfl

@[simp] theorem flatE_nil : flatE [] = [] := rfl

@[simp] theorem flatE_cons (c : Node) (cs : List Node) :
    flatE (c :: cs) = elems c ++ flatE cs := by
  simp [flatE]

@[simp] theorem flatE_append (cs ds : List Node) :
    flatE (cs ++ ds) = flatE cs ++ flatE ds := by
  simp [flatE]

/-- The comparison `*(c->mx) < x` used by every descent loop (`none` would be
a null dereference in the C++ code; all loops only ever compare against set
caches). -/
def mxLt (c : Node) (x : Int) : Bool := c.mx.any (· < x)

/-- The comparison `*(c->data) < x` used by `insert` to find the slot among
the leaves. -/
def dataLt (c : Node) (x : Int) : Bool := c.data.any (· < x)

/-- Descent index of `find`, `lower_bound` and `erase`:
`while (i < size && *(children[i]->mx) < elem) i++` — the first child whose
cached maximum is not below the target, or `children.size()` if none. -/
def firstGE (x : Int) (cs : List Node) : Nat := cs.findIdx (fun c => !(mxLt c x))

/-- Descent index of `insert`:
`while (*(children[i]->mx) < elem && i < size - 1) i++` — as `firstGE` but
capped at the last child. -/
def descIdx (x : Int) : List Node → Nat
  | [] => 0
  | [_] => 0
  | c :: c2 :: cs => if mxLt c x then descIdx x (c2 :: cs) + 1 else 0

/-- `find` (tree part): descend along `firstGE`; report the sentinel (`none`)
when every cached maximum is below the target; at the leaf, succeed exactly
when the element compares equal (`!(a<b) && !(b<a)`).  The returned value is
the path of child indices to the leaf the returned iterator points at. -/
def findGo (x : Int) : Node → Option (List Nat)
  | .mk cs d _ =>
    if cs.isEmpty then (if d = some x then some [] else none)
    else if h : firstGE x cs < cs.length then
      (findGo x cs[firstGE x cs]).map (fun p => firstGE x cs :: p)
    else none
decreasing_by
  have := List.sizeOf_lt_of_mem (List.getElem_mem h)
  simp only [Node.mk.sizeOf_spec]
  omega

/-- `lower_bound` (tree part): same descent as `findGo`, but the reached leaf
is returned without an equality check. -/
def lbGo (x : Int) : Node → Option (List Nat)
  | .mk cs _ _ =>
    if cs.isEmpty then some []
    else if h : firstGE x cs < cs.length then
      (lbGo x cs[firstGE x cs]).map (fun p => firstGE x cs :: p)
    else none
decreasing_by
  have := List.sizeOf_lt_of_mem (List.getElem_mem h)
  simp only [Node.mk.sizeOf_spec]
  omega

/-- One `split` of an overfull node into its two halves (the body of the
`split` loop: the new right sibling receives children `B..2B`, the node keeps
children `0..B`, both caches are refreshed).  Returns the replacement list
for the single overfull child inside its parent's children vector. -/
def insSplit (B : Nat) (c : Node) : List Node :=
  if c.children.length = 2 * B then
    [recalc (.mk (c.children.take B) c.data c.mx),
     recalc (.mk (c.children.drop B) none none)]
  else [c]

/-- Index where `insert` places the new leaf among its siblings:
`while (i != end && *(i->data) < elem) i++`. -/
def leafPos (x : Int) (cs : List Node) : Nat := cs.findIdx (fun c => !(dataLt c x))

/-- `insert` (tree part, element known to be absent): descend along `descIdx`
to the node whose children are leaves, emplace the new leaf at its sorted
slot, and on the way back up refresh each cache and run the `split` step on
any child that reached `2B` children.  This is the `insert` descent, the
`recalc` walk to the root, and the non-root iterations of the `split` loop of
the C++ code, fused into one structural recursion. -/
def insGo (B : Nat) (x : Int) : Node → Node
  | .mk cs d m =>
    if h : descIdx x cs < cs.length then
      if (cs[descIdx x cs]).children.isEmpty then
        recalc (.mk (cs.take (leafPos x cs) ++ Node.leaf x :: cs.drop (leafPos x cs)) d m)
      else
        recalc (.mk (cs.take (descIdx x cs)
          ++ insSplit B (insGo B x cs[descIdx x cs])
          ++ cs.drop (descIdx x cs + 1)) d m)
    else .mk cs d m
decreasing_by
  have := List.sizeOf_lt_of_mem (List.getElem_mem h)
  simp only [Node.mk.sizeOf_spec]
  omega

/-- One non-root iteration of the `merge` loop, acting at the parent: child
`i` has too few children; borrow from or fuse with the adjacent sibling (the
left one when `i != 0`, otherwise the right one).  The boolean is `true` when
the loop stops here (a borrow, which ends `merge` with a `return`) and
`false` when the parent lost a slot and the loop continues one level up. -/
def mergeStep (B : Nat) (n : Node) (i : Nat) : Node × Bool :=
  match n with
  | .mk cs d m =>
    if hi : i < cs.length then
      if i ≠ 0 then
        if hl : i - 1 < cs.length then
          if B < (cs.get ⟨i - 1, hl⟩).children.length then
            match (cs.get ⟨i - 1, hl⟩).children.getLast? with
            | some b =>
              (.mk (cs.take (i - 1)
                ++ recalc (.mk (cs.get ⟨i - 1, hl⟩).children.dropLast
                     (cs.get ⟨i - 1, hl⟩).data (cs.get ⟨i - 1, hl⟩).mx)
                :: recalc (.mk (b :: (cs.get ⟨i, hi⟩).children)
                     (cs.get ⟨i, hi⟩).data (cs.get ⟨i, hi⟩).mx)
                :: cs.drop (i + 1)) d m, true)
            | none => (.mk cs d m, true)
          else
            (.mk (cs.take (i - 1)
              ++ recalc (.mk ((cs.get ⟨i - 1, hl⟩).children ++ (cs.get ⟨i, hi⟩).children)
                   (cs.get ⟨i - 1, hl⟩).data (cs.get ⟨i - 1, hl⟩).mx)
              :: cs.drop (i + 1)) d m, false)
        else (.mk cs d m, true)
      else
        if hr : i + 1 < cs.length then
          if B < (cs.get ⟨i + 1, hr⟩).children.length then
            match (cs.get ⟨i + 1, hr⟩).children with
            | b :: rest =>
              (.mk (recalc (.mk ((cs.get ⟨i, hi⟩).children ++ [b])
                     (cs.get ⟨i, hi⟩).data (cs.get ⟨i, hi⟩).mx)
                :: recalc (.mk rest (cs.get ⟨i + 1, hr⟩).data (cs.get ⟨i + 1, hr⟩).mx)
                :: cs.drop (i + 2)) d m, true)
            | [] => (.mk cs d m, true)
          else
            (.mk (recalc (.mk ((cs.get ⟨i, hi⟩).children ++ (cs.get ⟨i + 1, hr⟩).children)
                   (cs.get ⟨i, hi⟩).data (cs.get ⟨i, hi⟩).mx)
              :: cs.drop (i + 2)) d m, false)
        else (.mk cs d m, true)
    else (.mk cs d m, true)

/-- `erase` (tree part, element known to be present): descend along `firstGE`
to the leaf found by `find`, remove it from its parent, and on the way back
up refresh each cache and run one `merge` iteration whenever the child lost
enough children to underflow.  The boolean mirrors the control flow of the
`merge` loop: `true` once the loop has terminated (the child did not
underflow, or a borrow repaired it), `false` while it is still propagating
(each fuse removes one slot from the current node). -/
def eraseGo (B : Nat) (x : Int) : Node → Node × Bool
  | .mk cs d m =>
    if h : firstGE x cs < cs.length then
      if (cs[firstGE x cs]).children.isEmpty then
        (recalc (.mk (cs.take (firstGE x cs) ++ cs.drop (firstGE x cs + 1)) d m), false)
      else
        let r := eraseGo B x cs[firstGE x cs]
        let n1 := recalc (.mk (cs.take (firstGE x cs) ++ r.1 :: cs.drop (firstGE x cs + 1)) d m)
        if r.2 then (n1, true)
        else if r.1.children.length < B then mergeStep B n1 (firstGE x cs)
        else (n1, true)
    else (.mk cs d m, true)
decreasing_by
  have := List.sizeOf_lt_of_mem (List.getElem_mem h)
  simp only [Node.mk.sizeOf_spec]
  omega

/-- The root case of the `merge` loop: a root with a single internal child is
replaced by that child (and the promoted child's cache refreshed). -/
def collapseRoot (h : Node) : Node :=
  match h.children with
  | [c] => if c.children.isEmpty then h else recalc c
  | _ => h

/-- Resolve an iterator path to the node it denotes. -/
def getNode : Node → List Nat → Option Node
  | n, [] => some n
  | n, i :: p =>
    match n.children[i]? with
    | some c => getNode c p
    | none => none

/-- Dereference an iterator (`*it` reads `ptr->data`). -/
def derefAt (t : Node) (p : List Nat) : Option Int := (getNode t p).bind Node.data

/-- The `recalc_iter` descent: follow `children[0]` to the leftmost leaf (the
empty path when the root is childless, in which case `begin == end`). -/
def leftmostPath : Node → List Nat
  | .mk [] _ _ => []
  | .mk (c :: _) _ _ => 0 :: leftmostPath c

/-- Descent through `children.back()` to the rightmost leaf, as performed by
`operator--` on the `end` sentinel. -/
def rightmostPath : Node → List Nat
  | .mk cs _ _ =>
    if h : cs.length - 1 < cs.length then
      (cs.length - 1) :: rightmostPath (cs.get ⟨cs.length - 1, h⟩)
    else []
decreasing_by
  have := List.sizeOf_lt_of_mem (List.get_mem cs _ h)
  simp only [Node.mk.sizeOf_spec]
  omega

/-- `iterator::operator++`: climb while the current node is its parent's last
child, then step to the next sibling and descend to its leftmost leaf.  In
path form: `none` is produced exactly when the position is rightmost in the
given subtree; the caller maps `none` at the root to the `end` sentinel,
matching the C++ loop running off the root (`ptr = head`). -/
def succGo : Node → List Nat → Option (List Nat)
  | _, [] => none
  | n, i :: p =>
    match n.children[i]? with
    | none => none
    | some c =>
      match succGo c p with
      | some q => some (i :: q)
      | none =>
        match n.children[i + 1]? with
        | some c2 => some ((i + 1) :: leftmostPath c2)
        | none => none

/-- `operator++` at the `Set` level: an exhausted climb lands on the root
sentinel, i.e. the empty path. -/
def succIter (t : Node) (p : List Nat) : List Nat := (succGo t p).getD []

/-- The climbing branch of `iterator::operator--`: climb while the current
node is its parent's first child, then step to the previous sibling and
descend to its rightmost leaf.  `none` at the root corresponds to the C++
null-parent dereference (decrementing `begin`), which is undefined
behaviour. -/
def predGo : Node → List Nat → Option (List Nat)
  | _, [] => none
  | n, i :: p =>
    match n.children[i]? with
    | none => none
    | some c =>
      match predGo c p with
      | some q => some (i :: q)
      | none =>
        if i = 0 then none
        else
          match n.children[i - 1]? with
          | some c2 => some ((i - 1) :: rightmostPath c2)
          | none => none

/-- `iterator::operator--`: from a node that has children (only the `end`
sentinel, in well-formed use) descend to the rightmost leaf below it;
from a leaf, run the climbing walk. -/
def predIter (t : Node) (p : List Nat) : Option (List Nat) :=
  match getNode t p with
  | none => none
  | some n => if n.children.isEmpty then predGo t p else some (p ++ rightmostPath n)

mutual

/-- All leaf positions of the tree in left-to-right order (the sequence of
iterator values from `begin`); `leafPathsL` prefixes each child's paths with
the child's index. -/
def leafPaths : Node → List (List Nat)
  | .mk [] _ _ => [[]]
  | .mk (c :: cs) _ _ => leafPathsL (c :: cs) 0

def leafPathsL : List Node → Nat → List (List Nat)
  | [], _ => []
  | c :: cs, k => (leafPaths c).map (fun p => k :: p) ++ leafPathsL cs (k + 1)

end

/-- Collect the values seen when stepping an iterator with `operator++` a
bounded number of times, stopping at the `end` sentinel. -/
def iterFrom (t : Node) : Nat → List Nat → List Int
  | 0, _ => []
  | fuel + 1, p => if p = [] then [] else (derefAt t p).toList ++ iterFrom t fuel (succIter t p)

/-- The `Set` object: owned root (`head`), element count (`sz`), and the
cached leftmost-leaf iterator (`begin_iter`), kept as a path. -/
structure BSet where
  head : Node
  sz : Nat
  beginPath : List Nat

/-- `Set()`: a childless root node, zero elements, `begin == end`. -/
def BSet.init : BSet := ⟨.mk [] none none, 0, []⟩

/-- `begin()` returns the cached leftmost-leaf iterator. -/
def BSet.begin (s : BSet) : List Nat := s.beginPath

/-- `end()` is the root sentinel, i.e. the empty path. -/
def BSet.endP (_ : BSet) : List Nat := []

/-- `find` at the `Set` level (`none` is the `end` sentinel). -/
def setFind (s : BSet) (x : Int) : Option (List Nat) :=
  if s.sz = 0 then none else findGo x s.head

/-- `lower_bound` at the `Set` level, including the fast path
`if (elem < *begin()) return begin();`. -/
def setLB (s : BSet) (x : Int) : Option (List Nat) :=
  if s.sz = 0 then none
  else if (derefAt s.head s.beginPath).any (fun mn => x < mn) then some s.beginPath
  else lbGo x s.head

/-- `insert`: empty-set special case; duplicate no-op via `find`; otherwise
the descent/split recursion `insGo` followed by the root case of the `split`
loop (wrap the root in a fresh node and split it; for the branching factors
`B ≥ 2` considered here the loop then stops, as the new root has two
children); finally `recalc_iter`. -/
def setInsert (B : Nat) (x : Int) (s : BSet) : BSet :=
  if s.sz = 0 then
    let h := recalc (.mk [Node.leaf x] s.head.data s.head.mx)
    ⟨h, s.sz + 1, leftmostPath h⟩
  else if (setFind s x).isSome then s
  else
    let h := insGo B x s.head
    let h2 := if h.children.length = 2 * B then recalc (.mk (insSplit B h) none h.mx) else h
    ⟨h2, s.sz + 1, leftmostPath h2⟩

/-- `erase`: no-op when `find` fails; otherwise remove the leaf and rebalance
(`eraseGo`), then, unless the set became empty or the `merge` loop already
returned, the root case of `merge` (`collapseRoot`) when the root underflows;
finally `recalc_iter`. -/
def setErase (B : Nat) (x : Int) (s : BSet) : BSet :=
  if (setFind s x).isSome then
    let r := eraseGo B x s.head
    let sz2 := s.sz - 1
    let h := if sz2 ≠ 0 ∧ r.2 = false ∧ r.1.children.length < B then collapseRoot r.1 else r.1
    ⟨h, sz2, leftmostPath h⟩
  else s

/-- The elements of a `Set`, via the abstraction function. -/
def setElems (s : BSet) : List Int := elems s.head

/-- A public mutating operation. -/
inductive Op : Type where
  | ins (x : Int) : Op
  | del (x : Int) : Op

def step (B : Nat) (s : BSet) : Op → BSet
  | .ins x => setInsert B x s
  | .del x => setErase B x s

/-- Run a sequence of public operations against a fresh `Set`. -/
def run (B : Nat) (ops : List Op) : BSet := ops.foldl (step B) BSet.init

/-- The element sequence produced by iterating from `begin()` to `end()`
(`sz` increments always suffice for a well-formed set). -/
def traverseList (s : BSet) : List Int := iterFrom s.head s.sz s.beginPath

/-- `Set(const Set&)`: a fresh set filled by inserting the source's elements
in iteration order. -/
def setCopy (B : Nat) (s : BSet) : BSet :=
  (traverseList s).foldl (fun t x => setInsert B x t) BSet.init

/-- `operator=`: build a complete temporary copy of the source, then replace
the target's root, size, and cached `begin` iterator with the copy's. -/
def setAssign (B : Nat) (_t s : BSet) : BSet :=
  let tmp := setCopy B s
  ⟨tmp.head, tmp.sz, leftmostPath tmp.head⟩

/-! ## The specification-level model: insertion into / deletion from a
strictly sorted list of elements. -/

/-- Insert into a sorted list without duplication (the set-theoretic model of
`insert`). -/
def sIns (x : Int) : List Int → List Int
  | [] => [x]
  | y :: l => if x < y then x :: y :: l else if x = y then y :: l else y :: sIns x l

/-- Remove the first occurrence (the set-theoretic model of `erase`). -/
def sDel (x : Int) : List Int → List Int
  | [] => []
  | y :: l => if y = x then l else y :: sDel x l

/-- One public operation on the model. -/
def applyM (l : List Int) : Op → List Int
  | .ins x => sIns x l
  | .del x => sDel x l

/-- The model state reached by a sequence of public operations. -/
def modelRun (ops : List Op) : List Int := ops.foldl applyM []

/-! ## Toolkit: the sorted-list model -/

theorem sIns_append_left {x : Int} {l1 l2 : List Int} (h : ∀ y ∈ l1, y < x) :
    sIns x (l1 ++ l2) = l1 ++ sIns x l2 := by
  induction l1 with
  | nil => simp
  | cons y l ih =>
    have hy : y < x := h y (by simp)
    have h1 : ¬ x < y := by omega
    have h2 : ¬ x = y := by omega
    simp only [List.cons_append, sIns, List.append_eq, if_neg h1, if_neg h2]
    rw [ih (fun z hz => h z (by simp [hz]))]

theorem sIns_append_right (x : Int) (l1 l2 : List Int) (h : ∀ y ∈ l2, x < y) :
    sIns x (l1 ++ l2) = sIns x l1 ++ l2 := by
  induction l1 with
  | nil =>
    cases l2 with
    | nil => simp [sIns]
    | cons y l =>
      have hy : x < y := h y (by simp)
      simp [sIns, if_pos hy]
  | cons y l ih =>
    by_cases hxy : x < y
    · simp [sIns, if_pos hxy]
    · by_cases hxe : x = y
      · simp [sIns, if_neg hxy, if_pos hxe]
      · simp only [List.cons_append, sIns, List.append_eq, if_neg hxy, if_neg hxe, ih,
          List.cons_append]

theorem sIns_all_gt {x : Int} {l : List Int} (h : ∀ y ∈ l, x < y) :
    sIns x l = x :: l := by
  cases l with
  | nil => rfl
  | cons y l => simp [sIns, if_pos (h y (by simp))]

theorem sIns_mem_sorted {x : Int} {l : List Int}
    (hs : List.Pairwise (· < ·) l) (hx : x ∈ l) : sIns x l = l := by
  induction l with
  | nil => cases hx
  | cons y l ih =>
    rcases List.mem_cons.mp hx with rfl | hx2
    · simp [sIns]
    · have hyx : y < x := (List.rel_of_pairwise_cons hs) hx2
      have h1 : ¬ x < y := by omega
      have h2 : ¬ x = y := by omega
      simp only [sIns, if_neg h1, if_neg h2]
      rw [ih hs.of_cons hx2]

theorem mem_sIns {x y : Int} {l : List Int} : y ∈ sIns x l ↔ y = x ∨ y ∈ l := by
  induction l with
  | nil => simp [sIns]
  | cons z l ih =>
    by_cases h1 : x < z
    · simp only [sIns, if_pos h1, List.mem_cons]
    · by_cases h2 : x = z
      · subst h2
        have he : sIns x (x :: l) = x :: l := by simp [sIns, if_neg h1]
        rw [he]
        simp only [List.mem_cons]
        tauto
      · simp only [sIns, if_neg h1, if_neg h2, List.mem_cons, ih]
        tauto

theorem sIns_pairwise {x : Int} {l : List Int} (hs : List.Pairwise (· < ·) l) :
    List.Pairwise (· < ·) (sIns x l) := by
  induction l with
  | nil => simp [sIns]
  | cons y l ih =>
    by_cases h1 : x < y
    · simp only [sIns, if_pos h1]
      refine List.Pairwise.cons ?_ hs
      intro z hz
      rcases List.mem_cons.mp hz with rfl | hz2
      · exact h1
      · exact lt_trans h1 ((List.rel_of_pairwise_cons hs) hz2)
    · by_cases h2 : x = y
      · simpa [sIns, if_neg h1, if_pos h2] using hs
      · simp only [sIns, if_neg h1, if_neg h2]
        refine List.Pairwise.cons ?_ (ih hs.of_cons)
        intro z hz
        rcases mem_sIns.mp hz with rfl | hz2
        · omega
        · exact (List.rel_of_pairwise_cons hs) hz2

theorem sIns_length {x : Int} {l : List Int} (hx : x ∉ l) :
    (sIns x l).length = l.length + 1 := by
  induction l with
  | nil => rfl
  | cons y l ih =>
    have hxy : x ≠ y := by intro he; exact hx (he ▸ List.mem_cons_self y l)
    by_cases h1 : x < y
    · simp [sIns, if_pos h1]
    · simp only [sIns, if_neg h1, if_neg hxy, List.length_cons]
      rw [ih (fun hm => hx (List.mem_cons_of_mem y hm))]

theorem sDel_append_left {x : Int} {l1 l2 : List Int} (h : ∀ y ∈ l1, y ≠ x) :
    sDel x (l1 ++ l2) = l1 ++ sDel x l2 := by
  induction l1 with
  | nil => simp
  | cons y l ih =>
    simp only [List.cons_append, sDel, List.append_eq, if_neg (h y (by simp))]
    rw [ih (fun z hz => h z (by simp [hz]))]

theorem sDel_cons_self (x : Int) (l : List Int) : sDel x (x :: l) = l := by
  simp [sDel]

theorem sDel_not_mem {x : Int} {l : List Int} (h : x ∉ l) : sDel x l = l := by
  induction l with
  | nil => rfl
  | cons y l ih =>
    have : y ≠ x := fun he => h (he ▸ List.mem_cons_self y l)
    simp only [sDel, if_neg this]
    rw [ih (fun hm => h (List.mem_cons_of_mem y hm))]

theorem sDel_sublist (x : Int) (l : List Int) : (sDel x l).Sublist l := by
  induction l with
  | nil => simp [sDel]
  | cons y l ih =>
    by_cases h : y = x
    · simp only [sDel, if_pos h]
      exact List.sublist_cons_self y l
    · simpa [sDel, if_neg h] using ih.cons₂ y

theorem sDel_pairwise {x : Int} {l : List Int} (hs : List.Pairwise (· < ·) l) :
    List.Pairwise (· < ·) (sDel x l) := hs.sublist (sDel_sublist x l)

theorem mem_sDel_of_ne {x y : Int} {l : List Int} (hne : y ≠ x) (hy : y ∈ l) :
    y ∈ sDel x l := by
  induction l with
  | nil => cases hy
  | cons z l ih =>
    by_cases h : z = x
    · subst h
      rcases List.mem_cons.mp hy with rfl | h2
      · exact absurd rfl hne
      · simpa [sDel] using h2
    · rcases List.mem_cons.mp hy with rfl | h2
      · simp [sDel, if_neg h]
      · simp [sDel, if_neg h, ih h2]

theorem not_mem_sDel {x : Int} {l : List Int} (hs : List.Pairwise (· < ·) l) :
    x ∉ sDel x l := by
  induction l with
  | nil => simp [sDel]
  | cons y l ih =>
    by_cases h : y = x
    · subst h
      simp only [sDel_cons_self]
      intro hm
      exact absurd ((List.rel_of_pairwise_cons hs) hm) (lt_irrefl y)
    · simp only [sDel, if_neg h, List.mem_cons]
      rintro (rfl | hm)
      · exact h rfl
      · exact ih hs.of_cons hm

theorem sDel_length_of_mem {x : Int} {l : List Int} (hx : x ∈ l) :
    (sDel x l).length + 1 = l.length := by
  induction l with
  | nil => cases hx
  | cons y l ih =>
    by_cases h : y = x
    · simp [sDel, if_pos h]
    · have hx2 : x ∈ l := by
        rcases List.mem_cons.mp hx with rfl | h2
        · exact absurd rfl h
        · exact h2
      simp only [sDel, if_neg h, List.length_cons]
      rw [← ih hx2]

/-! ## Toolkit: sorted flattened children lists -/

theorem pairwise_append_right {l1 l2 : List Int}
    (h : List.Pairwise (· < ·) (l1 ++ l2)) : List.Pairwise (· < ·) l2 :=
  (List.pairwise_append.mp h).2.1

theorem pairwise_append_left {l1 l2 : List Int}
    (h : List.Pairwise (· < ·) (l1 ++ l2)) : List.Pairwise (· < ·) l1 :=
  (List.pairwise_append.mp h).1

theorem pairwise_append_cross {l1 l2 : List Int}
    (h : List.Pairwise (· < ·) (l1 ++ l2)) : ∀ a ∈ l1, ∀ b ∈ l2, a < b :=
  (List.pairwise_append.mp h).2.2

/-- Every member of a strictly sorted list is at most its last element. -/
theorem le_getLast_of_pairwise : ∀ {l : List Int} {m : Int},
    List.Pairwise (· < ·) l → l.getLast? = some m → ∀ y ∈ l, y ≤ m := by
  intro l
  induction l with
  | nil =>
    intro m _ hm
    simp at hm
  | cons z l ih =>
    intro m hs hm y hy
    cases l with
    | nil =>
      simp at hm
      have hyz : y = z := List.mem_singleton.mp hy
      omega
    | cons w l2 =>
      rw [List.getLast?_cons_cons] at hm
      rcases List.mem_cons.mp hy with rfl | hy2
      · have hwm : w ≤ m := ih hs.of_cons hm w (by simp)
        have hzw : y < w := (List.rel_of_pairwise_cons hs) (by simp)
        omega
      · exact ih hs.of_cons hm y hy2

theorem mem_of_getLast?_eq {l : List Int} {m : Int} (hm : l.getLast? = some m) : m ∈ l :=
  List.mem_of_mem_getLast? (by simp [hm])

theorem getLast?_append_of_ne {l1 l2 : List Int} (h : l2 ≠ []) :
    (l1 ++ l2).getLast? = l2.getLast? := by
  rw [List.getLast?_append]
  cases hl : l2.getLast? with
  | none => exact absurd (List.getLast?_eq_none_iff.mp hl) h
  | some a => rfl

/-- Decompose a list at a valid index. -/
theorem list_decomp {α : Type} {cs : List α} {i : Nat} (h : i < cs.length) :
    cs = cs.take i ++ cs[i] :: cs.drop (i + 1) := by
  conv_lhs => rw [← List.take_append_drop i cs]
  rw [List.drop_eq_getElem_cons h]

theorem flatE_ne_nil_of_mem {cs : List Node} {c : Node} (hm : c ∈ cs)
    (hc : elems c ≠ []) : flatE cs ≠ [] := by
  intro h
  have hmem : elems c ∈ List.map elems cs := List.mem_map_of_mem elems hm
  exact hc (List.flatten_eq_nil_iff.mp h (elems c) hmem)

theorem flatE_take_getElem_drop {cs : List Node} {i : Nat} (h : i < cs.length) :
    flatE cs = flatE (cs.take i) ++ elems cs[i] ++ flatE (cs.drop (i + 1)) := by
  have hd := list_decomp h
  calc flatE cs = flatE (cs.take i ++ cs[i] :: cs.drop (i + 1)) := by rw [← hd]
  _ = flatE (cs.take i) ++ elems cs[i] ++ flatE (cs.drop (i + 1)) := by
      rw [flatE_append, flatE_cons, List.append_assoc]

/-- The flattened elements of a children vector end with the last child's
last element. -/
theorem flatE_getLast? {cs : List Node} {c : Node} (hlast : cs.getLast? = some c)
    (hc : elems c ≠ []) : (flatE cs).getLast? = (elems c).getLast? := by
  induction cs with
  | nil => simp at hlast
  | cons d cs ih =>
    cases cs with
    | nil =>
      simp at hlast
      subst hlast
      simp [flatE]
    | cons e cs2 =>
      rw [List.getLast?_cons_cons] at hlast
      rw [flatE_cons, getLast?_append_of_ne, ih hlast]
      have hmem : c ∈ e :: cs2 := List.mem_of_mem_getLast? (by simp [hlast])
      exact flatE_ne_nil_of_mem hmem hc

/-! ## Descent index specifications -/

theorem firstGE_le_length (x : Int) (cs : List Node) : firstGE x cs ≤ cs.length :=
  List.findIdx_le_length _

theorem mxLt_of_lt_firstGE {x : Int} {cs : List Node} {j : Nat}
    (hj : j < firstGE x cs) :
    mxLt (cs.get ⟨j, Nat.lt_of_lt_of_le hj (firstGE_le_length x cs)⟩) x = true := by
  have := List.not_of_lt_findIdx (p := fun c => !(mxLt c x)) hj
  simpa using this

theorem mxLt_at_firstGE {x : Int} {cs : List Node} (h : firstGE x cs < cs.length) :
    mxLt cs[firstGE x cs] x = false := by
  have := List.findIdx_getElem (p := fun c => !(mxLt c x)) (w := h)
  simpa using this

theorem firstGE_lt_of_not_mxLt {x : Int} {cs : List Node} {j : Nat} (hj : j < cs.length)
    (h : mxLt (cs.get ⟨j, hj⟩) x = false) : firstGE x cs ≤ j := by
  by_contra hc
  push_neg at hc
  have := @mxLt_of_lt_firstGE x cs j hc
  rw [h] at this
  cases this

theorem descIdx_lt_length {x : Int} {cs : List Node} (h : cs ≠ []) :
    descIdx x cs < cs.length := by
  induction cs with
  | nil => exact absurd rfl h
  | cons c cs ih =>
    cases cs with
    | nil => simp [descIdx]
    | cons c2 cs2 =>
      by_cases hm : mxLt c x
      · have hlt := ih (by simp)
        simp only [List.length_cons] at hlt
        simp only [descIdx, if_pos hm, List.length_cons]
        omega
      · simp [descIdx, if_neg hm]

theorem descIdx_spec {x : Int} {cs : List Node} (h : cs ≠ []) :
    (firstGE x cs < cs.length → descIdx x cs = firstGE x cs) ∧
    (firstGE x cs = cs.length → descIdx x cs = cs.length - 1) := by
  induction cs with
  | nil => exact absurd rfl h
  | cons c cs ih =>
    cases cs with
    | nil =>
      constructor
      · intro h1
        simp only [List.length_cons, List.length_nil] at h1
        have h0 : firstGE x [c] = 0 := by omega
        simp [descIdx, h0]
      · intro _
        simp [descIdx]
    | cons c2 cs2 =>
      by_cases hm : mxLt c x
      · have hf : firstGE x (c :: c2 :: cs2) = firstGE x (c2 :: cs2) + 1 := by
          simp [firstGE, List.findIdx_cons, hm]
        have hrec := ih (by simp)
        constructor
        · intro h1
          rw [hf] at h1
          simp only [List.length_cons] at h1
          have h2 : firstGE x (c2 :: cs2) < (c2 :: cs2).length := by
            simp only [List.length_cons]
            omega
          simp only [descIdx, if_pos hm, hrec.1 h2, hf]
        · intro h1
          rw [hf] at h1
          simp only [List.length_cons] at h1
          have h2 : firstGE x (c2 :: cs2) = (c2 :: cs2).length := by
            simp only [List.length_cons]
            omega
          simp only [descIdx, if_pos hm, hrec.2 h2, List.length_cons]
          omega
      · have hf : firstGE x (c :: c2 :: cs2) = 0 := by
          simp [firstGE, List.findIdx_cons, hm]
        constructor
        · intro _
          simp [descIdx, if_neg hm, hf]
        · intro h1
          rw [hf] at h1
          simp at h1

/-! ## The structural invariant

`Sub B n h` is the well-formedness of a non-root subtree of uniform height
`h`: leaves carry their element twice (data and cache); internal nodes have
between `B` and `2B - 1` children (after every public operation the split
loop has already reduced any node that reached `2B`, so `2B - 1` is the
tight post-operation bound; `2B` occurs only transiently inside `insert`),
carry no data, and cache the last element of their strictly sorted flattened
element list.  `RootOK` is the root variant: the arity lower bound drops to
one, and a single-child root must have a leaf child (the no-bamboo rule). -/

inductive Sub (B : Nat) : Node → Nat → Prop where
  | leaf (x : Int) : Sub B (.mk [] (some x) (some x)) 0
  | node {cs : List Node} {m : Int} {h : Nat}
      (hne : cs ≠ [])
      (hlo : B ≤ cs.length) (hhi : cs.length ≤ 2 * B - 1)
      (hall : ∀ c ∈ cs, Sub B c h)
      (hsort : List.Pairwise (· < ·) (flatE cs))
      (hmx : (flatE cs).getLast? = some m) :
      Sub B (.mk cs none (some m)) (h + 1)

inductive RootOK (B : Nat) : Node → Nat → Prop where
  | empty (m : Option Int) : RootOK B (.mk [] none m) 0
  | root {cs : List Node} {m : Int} {h : Nat}
      (hne : cs ≠ [])
      (hhi : cs.length ≤ 2 * B - 1)
      (hone : cs.length = 1 → h = 0)
      (hall : ∀ c ∈ cs, Sub B c h)
      (hsort : List.Pairwise (· < ·) (flatE cs))
      (hmx : (flatE cs).getLast? = some m) :
      RootOK B (.mk cs none (some m)) (h + 1)

/-- The whole-`Set` invariant: a well-formed root, the size field counting
the stored elements, and the cached `begin` iterator pointing at the
leftmost leaf. -/
def Inv (B : Nat) (s : BSet) : Prop :=
  (∃ hh, RootOK B s.head hh) ∧ s.sz = (setElems s).length ∧
    s.beginPath = leftmostPath s.head

theorem Sub.elems_eq_flatE {B : Nat} {n : Node} {h : Nat} (hn : Sub B n h) :
    ∀ {cs d m}, n = .mk cs d m → cs ≠ [] → elems n = flatE cs := by
  intro cs d m hn2 hne
  subst hn2
  exact elems_mk_of_ne cs d m hne

theorem Sub.elems_ne_nil {B : Nat} {n : Node} {h : Nat} (hn : Sub B n h) :
    elems n ≠ [] := by
  cases hn with
  | leaf x => simp
  | node hne hlo hhi hall hsort hmx =>
    rw [elems_mk_of_ne _ _ _ hne]
    intro hnil
    rw [hnil] at hmx
    simp at hmx

theorem Sub.sorted {B : Nat} {n : Node} {h : Nat} (hn : Sub B n h) :
    List.Pairwise (· < ·) (elems n) := by
  cases hn with
  | leaf x => simp
  | node hne hlo hhi hall hsort hmx => rwa [elems_mk_of_ne _ _ _ hne]

theorem Sub.mx_getLast {B : Nat} {n : Node} {h : Nat} (hn : Sub B n h) :
    n.mx = (elems n).getLast? := by
  cases hn with
  | leaf x => simp
  | node hne hlo hhi hall hsort hmx =>
    rw [elems_mk_of_ne _ _ _ hne]
    simp [hmx]

theorem Sub.mx_some {B : Nat} {n : Node} {h : Nat} (hn : Sub B n h) :
    ∃ m, n.mx = some m ∧ (elems n).getLast? = some m := by
  cases hn with
  | leaf x => exact ⟨x, rfl, by simp⟩
  | node hne hlo hhi hall hsort hmx =>
    refine ⟨_, rfl, ?_⟩
    rw [elems_mk_of_ne _ _ _ hne]
    exact hmx

theorem Sub.le_mx {B : Nat} {n : Node} {h : Nat} {mv : Int} (hn : Sub B n h)
    (hm : n.mx = some mv) : ∀ y ∈ elems n, y ≤ mv := by
  obtain ⟨m2, hm2, hg⟩ := hn.mx_some
  rw [hm2] at hm
  injection hm with hm
  subst hm
  exact le_getLast_of_pairwise hn.sorted hg

theorem Sub.mx_mem {B : Nat} {n : Node} {h : Nat} {mv : Int} (hn : Sub B n h)
    (hm : n.mx = some mv) : mv ∈ elems n := by
  obtain ⟨m2, hm2, hg⟩ := hn.mx_some
  rw [hm2] at hm
  injection hm with hm
  subst hm
  exact mem_of_getLast?_eq hg

/-- `recalc` on a nonempty children vector whose members are well-formed
subtrees produces exactly the cache required by the invariant. -/
theorem recalc_spec {B h : Nat} {cs : List Node} (d m : Option Int)
    (hne : cs ≠ []) (hall : ∀ c ∈ cs, Sub B c h) :
    ∃ m2, recalc (.mk cs d m) = .mk cs d (some m2) ∧
      (flatE cs).getLast? = some m2 := by
  have hex : ∃ c, cs.getLast? = some c := by
    cases hcl : cs.getLast? with
    | none => exact absurd (List.getLast?_eq_none_iff.mp hcl) hne
    | some c => exact ⟨c, rfl⟩
  obtain ⟨c, hc⟩ := hex
  have hcm : c ∈ cs := List.mem_of_mem_getLast? (by simp [hc])
  obtain ⟨m2, hm2, hg⟩ := (hall c hcm).mx_some
  refine ⟨m2, ?_, ?_⟩
  · simp only [recalc, Node.children_mk, Node.data_mk, hc, hm2]
  · rw [flatE_getLast? hc (hall c hcm).elems_ne_nil]
    exact hg

theorem Sub.zero_leaf {B : Nat} {c : Node} (hc : Sub B c 0) :
    ∃ y, c = .mk [] (some y) (some y) := by
  cases hc with
  | leaf y => exact ⟨y, rfl⟩

theorem Sub.succ_node {B : Nat} {c : Node} {h : Nat} (hc : Sub B c (h + 1)) :
    ∃ cs m, c = .mk cs none (some m) ∧ cs ≠ [] ∧ B ≤ cs.length ∧
      cs.length ≤ 2 * B - 1 ∧ (∀ e ∈ cs, Sub B e h) ∧
      List.Pairwise (· < ·) (flatE cs) ∧ (flatE cs).getLast? = some m := by
  cases hc with
  | node hne hlo hhi hall hsort hmx =>
    exact ⟨_, _, rfl, hne, hlo, hhi, hall, hsort, hmx⟩

theorem mxLt_true_iff {c : Node} {x : Int} :
    mxLt c x = true ↔ ∃ mj, c.mx = some mj ∧ mj < x := by
  cases c with
  | mk cs d m =>
    cases m with
    | none => simp [mxLt]
    | some mv => simp [mxLt]

theorem mxLt_false_sub {B h : Nat} {c : Node} {x : Int} (hc : Sub B c h)
    (hm : mxLt c x = false) : ∃ mi, c.mx = some mi ∧ x ≤ mi := by
  obtain ⟨mi, hmi, _⟩ := hc.mx_some
  refine ⟨mi, hmi, ?_⟩
  by_contra hlt
  push_neg at hlt
  have : mxLt c x = true := mxLt_true_iff.mpr ⟨mi, hmi, hlt⟩
  rw [hm] at this
  cases this

/-- Children strictly before the `firstGE` descent index hold only elements
below the target. -/
theorem flatE_take_firstGE_lt {B h : Nat} {x : Int} : ∀ {cs : List Node},
    (∀ c ∈ cs, Sub B c h) → ∀ y ∈ flatE (cs.take (firstGE x cs)), y < x := by
  intro cs
  induction cs with
  | nil =>
    intro _ y hy
    simp [flatE] at hy
  | cons c cs ih =>
    intro hall y hy
    by_cases hm : mxLt c x
    · have hf : firstGE x (c :: cs) = firstGE x cs + 1 := by
        simp [firstGE, List.findIdx_cons, hm]
      rw [hf, List.take_succ_cons, flatE_cons, List.mem_append] at hy
      rcases hy with hy1 | hy2
      · obtain ⟨mj, hmj, hlt⟩ := mxLt_true_iff.mp hm
        exact lt_of_le_of_lt ((hall c (by simp)).le_mx hmj y hy1) hlt
      · exact ih (fun e he => hall e (by simp [he])) y hy2
    · have hf : firstGE x (c :: cs) = 0 := by
        simp [firstGE, List.findIdx_cons, hm]
      rw [hf] at hy
      simp [flatE] at hy

/-- When every child's cached maximum is below the target, the target is
absent from the subtree. -/
theorem not_mem_of_firstGE_eq_length {B h : Nat} {x : Int} {cs : List Node}
    (hall : ∀ c ∈ cs, Sub B c h) (he : firstGE x cs = cs.length) :
    x ∉ flatE cs := by
  intro hx
  have := flatE_take_firstGE_lt (x := x) hall x (by rwa [he, List.take_length])
  exact lt_irrefl x this

/-- At a valid `firstGE` index, membership in the whole flattened list is
membership in the chosen child. -/
theorem mem_flatE_iff_firstGE {B h : Nat} {x : Int} {cs : List Node}
    (hall : ∀ c ∈ cs, Sub B c h) (hsort : List.Pairwise (· < ·) (flatE cs))
    (hi : firstGE x cs < cs.length) :
    x ∈ flatE cs ↔ x ∈ elems cs[firstGE x cs] := by
  have hdec := flatE_take_getElem_drop hi
  constructor
  · intro hx
    rw [hdec, List.mem_append, List.mem_append] at hx
    rcases hx with (hx1 | hx2) | hx3
    · exfalso
      exact lt_irrefl x (flatE_take_firstGE_lt hall x hx1)
    · exact hx2
    · exfalso
      obtain ⟨mi, hmi, hxmi⟩ :=
        mxLt_false_sub (hall _ (List.getElem_mem hi)) (mxLt_at_firstGE hi)
      have hmem : mi ∈ elems cs[firstGE x cs] :=
        (hall _ (List.getElem_mem hi)).mx_mem hmi
      have hsort2 := hdec ▸ hsort
      have hcross := pairwise_append_cross hsort2
      have : mi < x := hcross mi (List.mem_append.mpr (Or.inr hmem)) x hx3
      omega
  · intro hx
    rw [hdec]
    simp only [List.mem_append]
    left
    right
    exact hx

/-- Every element of the chosen child's right siblings is strictly above the
target (used to locate the least upper bound). -/
theorem flatE_drop_firstGE_gt {B h : Nat} {x : Int} {cs : List Node}
    (hall : ∀ c ∈ cs, Sub B c h) (hsort : List.Pairwise (· < ·) (flatE cs))
    (hi : firstGE x cs < cs.length) :
    ∀ y ∈ flatE (cs.drop (firstGE x cs + 1)), x < y := by
  intro y hy
  have hdec := flatE_take_getElem_drop hi
  obtain ⟨mi, hmi, hxmi⟩ :=
    mxLt_false_sub (hall _ (List.getElem_mem hi)) (mxLt_at_firstGE hi)
  have hmem : mi ∈ elems cs[firstGE x cs] :=
    (hall _ (List.getElem_mem hi)).mx_mem hmi
  have hsort2 := hdec ▸ hsort
  have hcross := pairwise_append_cross hsort2
  exact lt_of_le_of_lt hxmi (hcross mi (List.mem_append.mpr (Or.inr hmem)) y hy)

theorem derefAt_cons {cs : List Node} {d m : Option Int} {i : Nat} {p : List Nat}
    (h : i < cs.length) :
    derefAt (.mk cs d m) (i :: p) = derefAt cs[i] p := by
  simp [derefAt, getNode, List.getElem?_eq_getElem h]

theorem findGo_unfold (x : Int) (cs : List Node) (d m : Option Int) :
    findGo x (.mk cs d m) =
      if cs.isEmpty then (if d = some x then some [] else none)
      else if hlt : firstGE x cs < cs.length then
        (findGo x cs[firstGE x cs]).map (fun p => firstGE x cs :: p)
      else none := by
  conv_lhs => unfold findGo

/-- Correctness of the `find` descent at a node with well-formed children:
present elements are found (and the returned iterator dereferences to the
element), absent ones yield the sentinel. -/
theorem findGo_core {B : Nat} {x : Int} : ∀ (h : Nat) {cs : List Node} (d m : Option Int),
    cs ≠ [] → (∀ c ∈ cs, Sub B c h) → List.Pairwise (· < ·) (flatE cs) →
    (x ∈ flatE cs → ∃ p, findGo x (.mk cs d m) = some p ∧
      derefAt (.mk cs d m) p = some x) ∧
    (x ∉ flatE cs → findGo x (.mk cs d m) = none) := by
  intro h
  induction h with
  | zero =>
    intro cs d m hne hall hsort
    rw [findGo_unfold, if_neg (by simpa using hne)]
    by_cases hlt : firstGE x cs < cs.length
    · rw [dif_pos hlt]
      obtain ⟨y, hy⟩ := (hall _ (List.getElem_mem hlt)).zero_leaf
      have hmem := mem_flatE_iff_firstGE hall hsort hlt
      rw [hy] at hmem
      simp only [elems_mk_nil, Option.toList_some, List.mem_singleton] at hmem
      constructor
      · intro hx
        have hxy : x = y := hmem.mp hx
        subst hxy
        refine ⟨[firstGE x cs], ?_, ?_⟩
        · rw [hy, findGo_unfold]
          simp
        · rw [derefAt_cons hlt, hy]
          simp [derefAt, getNode]
      · intro hx
        have hxy : ¬ x = y := fun he => hx (hmem.mpr he)
        have hyx : y ≠ x := fun h2 => hxy h2.symm
        rw [hy, findGo_unfold]
        simp [hyx]
    · rw [dif_neg hlt]
      have he : firstGE x cs = cs.length := by
        have := firstGE_le_length x cs
        omega
      exact ⟨fun hx => absurd hx (not_mem_of_firstGE_eq_length hall he),
        fun _ => rfl⟩
  | succ h ih =>
    intro cs d m hne hall hsort
    rw [findGo_unfold, if_neg (by simpa using hne)]
    by_cases hlt : firstGE x cs < cs.length
    · rw [dif_pos hlt]
      obtain ⟨ccs, cm, hcc, hcne, _, _, hcall, hcsort, _⟩ :=
        (hall _ (List.getElem_mem hlt)).succ_node
      have hmem := mem_flatE_iff_firstGE hall hsort hlt
      have hrec := ih none (some cm) hcne hcall hcsort
      rw [hcc] at hmem
      rw [elems_mk_of_ne _ _ _ hcne] at hmem
      constructor
      · intro hx
        obtain ⟨p, hp, hd⟩ := hrec.1 (hmem.mp hx)
        refine ⟨firstGE x cs :: p, ?_, ?_⟩
        · rw [hcc, hp]
          rfl
        · rw [derefAt_cons hlt, hcc]
          exact hd
      · intro hx
        have hn2 := hrec.2 (fun hm2 => hx (hmem.mpr hm2))
        rw [hcc, hn2]
        rfl
    · rw [dif_neg hlt]
      have he : firstGE x cs = cs.length := by
        have := firstGE_le_length x cs
        omega
      exact ⟨fun hx => absurd hx (not_mem_of_firstGE_eq_length hall he),
        fun _ => rfl⟩

theorem lbGo_unfold (x : Int) (cs : List Node) (d m : Option Int) :
    lbGo x (.mk cs d m) =
      if cs.isEmpty then some []
      else if hlt : firstGE x cs < cs.length then
        (lbGo x cs[firstGE x cs]).map (fun p => firstGE x cs :: p)
      else none := by
  conv_lhs => unfold lbGo

/-- The first element `≥ x` of the whole flattened list lives in the child
selected by `firstGE`, and such an element exists there. -/
theorem find?_flatE_firstGE {B h : Nat} {x : Int} {cs : List Node}
    (hall : ∀ c ∈ cs, Sub B c h) (hsort : List.Pairwise (· < ·) (flatE cs))
    (hi : firstGE x cs < cs.length) :
    (flatE cs).find? (fun y => decide (x ≤ y)) =
      (elems cs[firstGE x cs]).find? (fun y => decide (x ≤ y)) ∧
    ∃ y0, (elems cs[firstGE x cs]).find? (fun y => decide (x ≤ y)) = some y0 := by
  have hdec := flatE_take_getElem_drop hi
  have hA : (flatE (cs.take (firstGE x cs))).find? (fun y => decide (x ≤ y)) = none := by
    rw [List.find?_eq_none]
    intro z hz
    have := flatE_take_firstGE_lt hall z hz
    simp
    omega
  obtain ⟨mi, hmi, hxmi⟩ :=
    mxLt_false_sub (hall _ (List.getElem_mem hi)) (mxLt_at_firstGE hi)
  have hmem : mi ∈ elems cs[firstGE x cs] :=
    (hall _ (List.getElem_mem hi)).mx_mem hmi
  have hsome : ∃ y0, (elems cs[firstGE x cs]).find? (fun y => decide (x ≤ y)) = some y0 := by
    have hex : ∃ z ∈ elems cs[firstGE x cs], (fun y => decide (x ≤ y)) z = true :=
      ⟨mi, hmem, by simpa using hxmi⟩
    cases hf : (elems cs[firstGE x cs]).find? (fun y => decide (x ≤ y)) with
    | none =>
      rw [List.find?_eq_none] at hf
      obtain ⟨z, hz1, hz2⟩ := hex
      exact absurd hz2 (by simpa using hf z hz1)
    | some y0 => exact ⟨y0, rfl⟩
  refine ⟨?_, hsome⟩
  obtain ⟨y0, hy0⟩ := hsome
  rw [hdec, List.find?_append, List.find?_append, hA, hy0]
  rfl

/-- Correctness of the `lower_bound` descent: it returns an iterator to the
first stored element `≥ x` (the sentinel when every element is below `x`). -/
theorem lbGo_core {B : Nat} {x : Int} : ∀ (h : Nat) {cs : List Node} (d m : Option Int),
    cs ≠ [] → (∀ c ∈ cs, Sub B c h) → List.Pairwise (· < ·) (flatE cs) →
    ((flatE cs).find? (fun y => decide (x ≤ y)) = none → lbGo x (.mk cs d m) = none) ∧
    (∀ y, (flatE cs).find? (fun y => decide (x ≤ y)) = some y →
      ∃ p, lbGo x (.mk cs d m) = some p ∧ derefAt (.mk cs d m) p = some y) := by
  intro h
  induction h with
  | zero =>
    intro cs d m hne hall hsort
    rw [lbGo_unfold, if_neg (by simpa using hne)]
    by_cases hlt : firstGE x cs < cs.length
    · rw [dif_pos hlt]
      obtain ⟨heq, y0, hy0⟩ := find?_flatE_firstGE hall hsort hlt
      obtain ⟨z, hz⟩ := (hall _ (List.getElem_mem hlt)).zero_leaf
      constructor
      · intro hnone
        rw [heq, hy0] at hnone
        cases hnone
      · intro y hy
        rw [heq, hy0] at hy
        injection hy with hy
        subst hy
        rw [hz] at hy0
        simp only [elems_mk_nil, Option.toList_some] at hy0
        have hzy : y0 = z := by
          have hm2 := List.mem_of_find?_eq_some hy0
          simpa using hm2
        refine ⟨[firstGE x cs], ?_, ?_⟩
        · rw [hz, lbGo_unfold]
          simp
        · rw [derefAt_cons hlt, hz]
          simp [derefAt, getNode, hzy]
    · rw [dif_neg hlt]
      have he : firstGE x cs = cs.length := by
        have := firstGE_le_length x cs
        omega
      have hnone : (flatE cs).find? (fun y => decide (x ≤ y)) = none := by
        rw [List.find?_eq_none]
        intro z hz
        have : z < x := by
          have := flatE_take_firstGE_lt (x := x) hall z (by rwa [he, List.take_length])
          exact this
        simp
        omega
      refine ⟨fun _ => rfl, fun y hy => ?_⟩
      rw [hnone] at hy
      cases hy
  | succ h ih =>
    intro cs d m hne hall hsort
    rw [lbGo_unfold, if_neg (by simpa using hne)]
    by_cases hlt : firstGE x cs < cs.length
    · rw [dif_pos hlt]
      obtain ⟨heq, y0, hy0⟩ := find?_flatE_firstGE hall hsort hlt
      obtain ⟨ccs, cm, hcc, hcne, _, _, hcall, hcsort, _⟩ :=
        (hall _ (List.getElem_mem hlt)).succ_node
      have hrec := ih none (some cm) hcne hcall hcsort
      constructor
      · intro hnone
        rw [heq, hy0] at hnone
        cases hnone
      · intro y hy
        rw [heq, hy0] at hy
        injection hy with hy
        subst hy
        have hy2 : (flatE ccs).find? (fun y => decide (x ≤ y)) = some y0 := by
          rw [hcc] at hy0
          rwa [elems_mk_of_ne _ _ _ hcne] at hy0
        obtain ⟨p, hp, hd⟩ := hrec.2 y0 hy2
        refine ⟨firstGE x cs :: p, ?_, ?_⟩
        · rw [hcc, hp]
          rfl
        · rw [derefAt_cons hlt, hcc]
          exact hd
    · rw [dif_neg hlt]
      have he : firstGE x cs = cs.length := by
        have := firstGE_le_length x cs
        omega
      have hnone : (flatE cs).find? (fun y => decide (x ≤ y)) = none := by
        rw [List.find?_eq_none]
        intro z hz
        have hlt2 : z < x := flatE_take_firstGE_lt (x := x) hall z (by rwa [he, List.take_length])
        simp
        omega
      refine ⟨fun _ => rfl, fun y hy => ?_⟩
      rw [hnone] at hy
      cases hy

/-! ## Insertion -/

theorem mem_flatE {y : Int} {cs : List Node} :
    y ∈ flatE cs ↔ ∃ c ∈ cs, y ∈ elems c := by
  simp [flatE, List.mem_flatten]

theorem flatE_take_lt_of_le {B h : Nat} {x : Int} {cs : List Node} {k : Nat}
    (hall : ∀ c ∈ cs, Sub B c h) (hk : k ≤ firstGE x cs) :
    ∀ y ∈ flatE (cs.take k), y < x := by
  intro y hy
  obtain ⟨c, hc, hyc⟩ := mem_flatE.mp hy
  have hc2 : c ∈ cs.take (firstGE x cs) := by
    have : cs.take k = (cs.take (firstGE x cs)).take k := by
      rw [List.take_take]
      congr 1
      omega
    rw [this] at hc
    exact List.mem_of_mem_take hc
  exact flatE_take_firstGE_lt hall y (mem_flatE.mpr ⟨c, hc2, hyc⟩)

theorem pairwise_insert_middle {A C : List Int} {x : Int}
    (hs : List.Pairwise (· < ·) (A ++ C))
    (hA : ∀ a ∈ A, a < x) (hC : ∀ c ∈ C, x < c) :
    List.Pairwise (· < ·) (A ++ x :: C) := by
  rw [List.pairwise_append] at hs ⊢
  refine ⟨hs.1, ?_, ?_⟩
  · exact List.Pairwise.cons hC hs.2.1
  · intro a ha b hb
    rcases List.mem_cons.mp hb with rfl | hb2
    · exact hA a ha
    · exact hs.2.2 a ha b hb2

theorem insSplit_id {B : Nat} {c : Node} (h : c.children.length ≠ 2 * B) :
    insSplit B c = [c] := by
  rw [insSplit, if_neg h]

/-- Splitting a node that has reached `2B` children yields two well-formed
siblings holding the lower and upper halves. -/
theorem insSplit_spec {B h : Nat} (hB : 2 ≤ B) {rcs : List Node} {rm : Int}
    (hall : ∀ c ∈ rcs, Sub B c h) (hsort : List.Pairwise (· < ·) (flatE rcs))
    (hlen : rcs.length = 2 * B) :
    ∃ n1 n2, insSplit B (.mk rcs none (some rm)) = [n1, n2] ∧
      Sub B n1 (h + 1) ∧ Sub B n2 (h + 1) ∧ elems n1 ++ elems n2 = flatE rcs := by
  have htd : rcs.take B ++ rcs.drop B = rcs := List.take_append_drop B rcs
  have hlt : flatE (rcs.take B) ++ flatE (rcs.drop B) = flatE rcs := by
    rw [← flatE_append, htd]
  have htlen : (rcs.take B).length = B := by
    rw [List.length_take]
    omega
  have hdlen : (rcs.drop B).length = B := by
    rw [List.length_drop]
    omega
  have htne : rcs.take B ≠ [] := by
    intro hnil
    rw [hnil] at htlen
    simp at htlen
    omega
  have hdne : rcs.drop B ≠ [] := by
    intro hnil
    rw [hnil] at hdlen
    simp at hdlen
    omega
  have htall : ∀ c ∈ rcs.take B, Sub B c h := fun c hc => hall c (List.mem_of_mem_take hc)
  have hdall : ∀ c ∈ rcs.drop B, Sub B c h := fun c hc => hall c (List.mem_of_mem_drop hc)
  have htsort : List.Pairwise (· < ·) (flatE (rcs.take B)) :=
    pairwise_append_left (hlt ▸ hsort)
  have hdsort : List.Pairwise (· < ·) (flatE (rcs.drop B)) :=
    pairwise_append_right (hlt ▸ hsort)
  obtain ⟨m1, hm1, hg1⟩ := recalc_spec (B := B) (h := h) none (some rm) htne htall
  obtain ⟨m2, hm2, hg2⟩ := recalc_spec (B := B) (h := h) none none hdne hdall
  refine ⟨.mk (rcs.take B) none (some m1), .mk (rcs.drop B) none (some m2), ?_, ?_, ?_, ?_⟩
  · rw [insSplit, if_pos (by simpa using hlen)]
    simp only [Node.children_mk, Node.data_mk, Node.mx_mk]
    rw [hm1, hm2]
  · exact Sub.node htne (by omega) (by omega) htall htsort hg1
  · exact Sub.node hdne (by omega) (by omega) hdall hdsort hg2
  · rw [elems_mk_of_ne _ _ _ htne, elems_mk_of_ne _ _ _ hdne]
    exact hlt

theorem insGo_unfold (B : Nat) (x : Int) (cs : List Node) (d m : Option Int) :
    insGo B x (.mk cs d m) =
      if h : descIdx x cs < cs.length then
        if (cs[descIdx x cs]).children.isEmpty then
          recalc (.mk (cs.take (leafPos x cs) ++ Node.leaf x :: cs.drop (leafPos x cs)) d m)
        else
          recalc (.mk (cs.take (descIdx x cs)
            ++ insSplit B (insGo B x cs[descIdx x cs])
            ++ cs.drop (descIdx x cs + 1)) d m)
      else .mk cs d m := by
  conv_lhs => unfold insGo

theorem flatE_take_leafPos_lt {B : Nat} {x : Int} : ∀ {cs : List Node},
    (∀ c ∈ cs, Sub B c 0) → ∀ y ∈ flatE (cs.take (leafPos x cs)), y < x := by
  intro cs
  induction cs with
  | nil =>
    intro _ y hy
    simp [flatE] at hy
  | cons c cs ih =>
    intro hall y hy
    by_cases hm : dataLt c x
    · have hf : leafPos x (c :: cs) = leafPos x cs + 1 := by
        simp [leafPos, List.findIdx_cons, hm]
      rw [hf, List.take_succ_cons, flatE_cons, List.mem_append] at hy
      rcases hy with hy1 | hy2
      · obtain ⟨z, hz⟩ := (hall c (by simp)).zero_leaf
        rw [hz] at hy1 hm
        simp at hy1
        simp [dataLt] at hm
        omega
      · exact ih (fun e he => hall e (by simp [he])) y hy2
    · have hf : leafPos x (c :: cs) = 0 := by
        simp [leafPos, List.findIdx_cons, hm]
      rw [hf] at hy
      simp [flatE] at hy

/-- The `insert` splice at the level above the leaves: the new leaf lands at
the position found by the data scan, and the flattened result is the sorted
insertion. -/
theorem leaf_insert_spec {B : Nat} {x : Int} {cs : List Node}
    (hall : ∀ c ∈ cs, Sub B c 0) (hsort : List.Pairwise (· < ·) (flatE cs))
    (hx : x ∉ flatE cs) :
    flatE (cs.take (leafPos x cs) ++ Node.leaf x :: cs.drop (leafPos x cs)) =
      sIns x (flatE cs) ∧
    (∀ c ∈ cs.take (leafPos x cs) ++ Node.leaf x :: cs.drop (leafPos x cs), Sub B c 0) := by
  have hA : ∀ y ∈ flatE (cs.take (leafPos x cs)), y < x := flatE_take_leafPos_lt hall
  have hC : ∀ y ∈ flatE (cs.drop (leafPos x cs)), x < y := by
    intro y hy
    by_cases hlt : leafPos x cs < cs.length
    · have hdec : cs.drop (leafPos x cs) = cs[leafPos x cs] :: cs.drop (leafPos x cs + 1) :=
        List.drop_eq_getElem_cons hlt
      obtain ⟨z, hz⟩ := (hall _ (List.getElem_mem hlt)).zero_leaf
      have hdz : dataLt cs[leafPos x cs] x = false := by
        have := List.findIdx_getElem (p := fun c => !(dataLt c x)) (w := hlt)
        simpa using this
      rw [hz] at hdz
      simp [dataLt] at hdz
      have hxz : x ≠ z := by
        intro he
        apply hx
        rw [flatE_take_getElem_drop hlt, hz]
        simp [he]
      have hxz2 : x < z := by omega
      rw [hdec, flatE_cons, List.mem_append] at hy
      rcases hy with hy1 | hy2
      · rw [hz] at hy1
        simp at hy1
        omega
      · have hdec2 := flatE_take_getElem_drop hlt
        have hsort2 := hdec2 ▸ hsort
        have hcross := pairwise_append_cross hsort2
        have hzmem : z ∈ elems cs[leafPos x cs] := by
          rw [hz]
          simp
        have : z < y := hcross z (List.mem_append.mpr (Or.inr hzmem)) y hy2
        omega
    · have hle : leafPos x cs ≤ cs.length := List.findIdx_le_length _
      have he : leafPos x cs = cs.length := by omega
      rw [he, List.drop_length] at hy
      simp [flatE] at hy
  have htd : flatE (cs.take (leafPos x cs)) ++ flatE (cs.drop (leafPos x cs)) = flatE cs := by
    rw [← flatE_append, List.take_append_drop]
  constructor
  · rw [flatE_append, flatE_cons, elems_leaf]
    rw [← htd]
    rw [sIns_append_left hA, sIns_all_gt hC]
    rfl
  · intro c hc
    rcases List.mem_append.mp hc with hc1 | hc2
    · exact hall c (List.mem_of_mem_take hc1)
    · rcases List.mem_cons.mp hc2 with rfl | hc3
      · exact Sub.leaf x
      · exact hall c (List.mem_of_mem_drop hc3)

theorem descIdx_le_firstGE {x : Int} {cs : List Node} (hne : cs ≠ []) :
    descIdx x cs ≤ firstGE x cs := by
  rcases Nat.lt_or_ge (firstGE x cs) cs.length with hlt | hge
  · rw [(descIdx_spec hne).1 hlt]
  · have hle := firstGE_le_length x cs
    have he : firstGE x cs = cs.length := by omega
    rw [(descIdx_spec hne).2 he, he]
    omega

/-- The `insert` recursion: a well-formed children vector with the target
absent gains exactly the new element, stays well formed at the same height,
and grows by at most one slot. -/
theorem insGo_core {B : Nat} (hB : 2 ≤ B) {x : Int} :
    ∀ (h : Nat) {cs : List Node} (d m : Option Int),
    cs ≠ [] → (∀ c ∈ cs, Sub B c h) → List.Pairwise (· < ·) (flatE cs) →
    x ∉ flatE cs →
    ∃ cs2 m2, insGo B x (.mk cs d m) = .mk cs2 d (some m2) ∧
      (∀ c ∈ cs2, Sub B c h) ∧
      List.Pairwise (· < ·) (flatE cs2) ∧
      (flatE cs2).getLast? = some m2 ∧
      flatE cs2 = sIns x (flatE cs) ∧
      cs.length ≤ cs2.length ∧ cs2.length ≤ cs.length + 1 := by
  intro h
  induction h with
  | zero =>
    intro cs d m hne hall hsort hx
    have hdlt : descIdx x cs < cs.length := descIdx_lt_length hne
    obtain ⟨z, hz⟩ := (hall _ (List.getElem_mem hdlt)).zero_leaf
    have hleaf : (cs[descIdx x cs]).children.isEmpty := by
      rw [hz]
      rfl
    rw [insGo_unfold, dif_pos hdlt, if_pos hleaf]
    obtain ⟨hflat, hall2⟩ := leaf_insert_spec hall hsort hx
    have hne2 : cs.take (leafPos x cs) ++ Node.leaf x :: cs.drop (leafPos x cs) ≠ [] := by
      simp
    obtain ⟨m2, hm2, hg2⟩ := recalc_spec (B := B) (h := 0) d m hne2 hall2
    have hple : leafPos x cs ≤ cs.length := List.findIdx_le_length _
    have hlen2 : (cs.take (leafPos x cs) ++ Node.leaf x :: cs.drop (leafPos x cs)).length
        = cs.length + 1 := by
      simp only [List.length_append, List.length_cons, List.length_take, List.length_drop]
      omega
    refine ⟨_, m2, hm2, hall2, ?_, hg2, hflat, ?_, ?_⟩
    · rw [hflat]
      exact sIns_pairwise hsort
    · omega
    · omega
  | succ h ih =>
    intro cs d m hne hall hsort hx
    have hdlt : descIdx x cs < cs.length := descIdx_lt_length hne
    obtain ⟨ccs, cm, hcc, hcne, hclo, hchi, hcall, hcsort, hcmx⟩ :=
      (hall _ (List.getElem_mem hdlt)).succ_node
    have hnleaf : ¬ (cs[descIdx x cs]).children.isEmpty := by
      rw [hcc]
      simpa using hcne
    rw [insGo_unfold, dif_pos hdlt, if_neg hnleaf]
    have hxc : x ∉ flatE ccs := by
      intro hxc
      apply hx
      have hmm : x ∈ elems cs[descIdx x cs] := by
        rw [hcc, elems_mk_of_ne _ _ _ hcne]
        exact hxc
      exact mem_flatE.mpr ⟨_, List.getElem_mem hdlt, hmm⟩
    obtain ⟨rcs, rm, hr, hrall, hrsort, hrg, hrflat, hrlo, hrhi⟩ :=
      ih none (some cm) hcne hcall hcsort hxc
    rw [hcc, hr]
    -- decomposition of the original vector and the sorted-insert shuffle
    have hdec := flatE_take_getElem_drop hdlt
    have hAlt : ∀ y ∈ flatE (cs.take (descIdx x cs)), y < x :=
      flatE_take_lt_of_le hall (descIdx_le_firstGE hne)
    have hCgt : ∀ y ∈ flatE (cs.drop (descIdx x cs + 1)), x < y := by
      rcases Nat.lt_or_ge (firstGE x cs) cs.length with hflt | hfge
      · rw [(descIdx_spec hne).1 hflt]
        exact flatE_drop_firstGE_gt hall hsort hflt
      · have hle := firstGE_le_length x cs
        have he : firstGE x cs = cs.length := by omega
        rw [(descIdx_spec hne).2 he]
        have hdl : cs.length - 1 + 1 = cs.length := by omega
        rw [hdl, List.drop_length]
        intro y hy
        simp [flatE] at hy
    have hshuffle : sIns x (flatE cs) =
        flatE (cs.take (descIdx x cs)) ++ sIns x (elems cs[descIdx x cs])
          ++ flatE (cs.drop (descIdx x cs + 1)) := by
      rw [hdec, sIns_append_right x _ _ hCgt, sIns_append_left hAlt]
    have hcielems : elems cs[descIdx x cs] = flatE ccs := by
      rw [hcc, elems_mk_of_ne _ _ _ hcne]
    by_cases hsp : rcs.length = 2 * B
    · obtain ⟨n1, n2, hspl, hs1, hs2, helems⟩ := insSplit_spec hB hrall hrsort hsp
      rw [hspl]
      have hall2 : ∀ c ∈ cs.take (descIdx x cs) ++ [n1, n2] ++ cs.drop (descIdx x cs + 1),
          Sub B c (h + 1) := by
        intro c hc
        rcases List.mem_append.mp hc with hc1 | hc2
        · rcases List.mem_append.mp hc1 with hc3 | hc4
          · exact hall c (List.mem_of_mem_take hc3)
          · rcases List.mem_cons.mp hc4 with rfl | hc5
            · exact hs1
            · rcases List.mem_cons.mp hc5 with rfl | hc6
              · exact hs2
              · cases hc6
        · exact hall c (List.mem_of_mem_drop hc2)
      have hflat2 : flatE (cs.take (descIdx x cs) ++ [n1, n2] ++ cs.drop (descIdx x cs + 1))
          = sIns x (flatE cs) := by
        rw [hshuffle]
        rw [flatE_append, flatE_append]
        have h12 : flatE [n1, n2] = elems n1 ++ elems n2 := by
          simp [flatE]
        rw [h12, helems, hrflat, hcielems]
      have hne2 : cs.take (descIdx x cs) ++ [n1, n2] ++ cs.drop (descIdx x cs + 1) ≠ [] := by
        simp
      obtain ⟨m2, hm2, hg2⟩ := recalc_spec (B := B) (h := h + 1) d m hne2 hall2
      have hlen2 : (cs.take (descIdx x cs) ++ [n1, n2]
          ++ cs.drop (descIdx x cs + 1)).length = cs.length + 1 := by
        simp only [List.length_append, List.length_cons, List.length_nil,
          List.length_take, List.length_drop]
        omega
      refine ⟨_, m2, hm2, hall2, ?_, hg2, hflat2, ?_, ?_⟩
      · rw [hflat2]
        exact sIns_pairwise hsort
      · omega
      · omega
    · rw [insSplit_id (by simpa using hsp)]
      have hrnode : Sub B (.mk rcs none (some rm)) (h + 1) := by
        refine Sub.node ?_ (by omega) (by omega) hrall hrsort hrg
        intro hnil
        rw [hnil] at hrlo
        simp at hrlo
        exact hcne hrlo
      have hall2 : ∀ c ∈ cs.take (descIdx x cs) ++ [Node.mk rcs none (some rm)]
          ++ cs.drop (descIdx x cs + 1), Sub B c (h + 1) := by
        intro c hc
        rcases List.mem_append.mp hc with hc1 | hc2
        · rcases List.mem_append.mp hc1 with hc3 | hc4
          · exact hall c (List.mem_of_mem_take hc3)
          · have hce := List.mem_singleton.mp hc4
            subst hce
            exact hrnode
        · exact hall c (List.mem_of_mem_drop hc2)
      have hflat2 : flatE (cs.take (descIdx x cs) ++ [Node.mk rcs none (some rm)]
          ++ cs.drop (descIdx x cs + 1)) = sIns x (flatE cs) := by
        rw [hshuffle]
        rw [flatE_append, flatE_append]
        have h1 : flatE [Node.mk rcs none (some rm)] = flatE rcs := by
          simp [flatE, elems_mk_of_ne _ _ _ (by
            intro hnil
            rw [hnil] at hrlo
            simp at hrlo
            exact hcne hrlo : rcs ≠ [])]
        rw [h1, hrflat, hcielems]
      have hne2 : cs.take (descIdx x cs) ++ [Node.mk rcs none (some rm)]
          ++ cs.drop (descIdx x cs + 1) ≠ [] := by
        simp
      obtain ⟨m2, hm2, hg2⟩ := recalc_spec (B := B) (h := h + 1) d m hne2 hall2
      have hlen2 : (cs.take (descIdx x cs) ++ [Node.mk rcs none (some rm)]
          ++ cs.drop (descIdx x cs + 1)).length = cs.length := by
        simp only [List.length_append, List.length_cons, List.length_nil,
          List.length_take, List.length_drop]
        omega
      refine ⟨_, m2, hm2, hall2, ?_, hg2, hflat2, ?_, ?_⟩
      · rw [hflat2]
        exact sIns_pairwise hsort
      · omega
      · omega

/-! ## The `Set`-level operations -/

theorem RootOK.elim_cases {B : Nat} {n : Node} {hh : Nat} (hr : RootOK B n hh) :
    (∃ m, n = .mk [] none m ∧ hh = 0) ∨
    (∃ cs m h, n = .mk cs none (some m) ∧ hh = h + 1 ∧ cs ≠ [] ∧
      cs.length ≤ 2 * B - 1 ∧ (cs.length = 1 → h = 0) ∧ (∀ c ∈ cs, Sub B c h) ∧
      List.Pairwise (· < ·) (flatE cs) ∧ (flatE cs).getLast? = some m) := by
  cases hr with
  | empty m => exact Or.inl ⟨m, rfl, rfl⟩
  | root hne hhi hone hall hsort hmx =>
    exact Or.inr ⟨_, _, _, rfl, rfl, hne, hhi, hone, hall, hsort, hmx⟩

theorem RootOK.elems_eq {B : Nat} {n : Node} {hh : Nat} (hr : RootOK B n hh) :
    (∀ m, n = .mk [] none m → elems n = []) := by
  intro m he
  rw [he]
  simp

theorem RootOK.sorted_elems {B : Nat} {n : Node} {hh : Nat} (hr : RootOK B n hh) :
    List.Pairwise (· < ·) (elems n) := by
  rcases hr.elim_cases with ⟨m, he, _⟩ | ⟨cs, m, h, he, _, hne, _, _, _, hsort, _⟩
  · rw [he]
    simp
  · rw [he, elems_mk_of_ne _ _ _ hne]
    exact hsort

theorem exists_mem_of_ne_nil {α : Type} {l : List α} (h : l ≠ []) : ∃ a, a ∈ l := by
  cases l with
  | nil => exact absurd rfl h
  | cons a l => exact ⟨a, by simp⟩

theorem flatE_ne_nil_sub {B h : Nat} {cs : List Node} (hne : cs ≠ [])
    (hall : ∀ c ∈ cs, Sub B c h) : flatE cs ≠ [] := by
  obtain ⟨c, hcm⟩ := exists_mem_of_ne_nil hne
  exact flatE_ne_nil_of_mem hcm (hall c hcm).elems_ne_nil

theorem RootOK.elems_ne_nil_of_children {B : Nat} {n : Node} {hh : Nat}
    (hr : RootOK B n hh) (hc : n.children ≠ []) : elems n ≠ [] := by
  rcases hr.elim_cases with ⟨m, he, _⟩ | ⟨cs, m, h, he, _, hne, _, _, hall, hsort, _⟩
  · rw [he] at hc
    simp at hc
  · rw [he, elems_mk_of_ne _ _ _ hne]
    exact flatE_ne_nil_sub hne hall

/-- `find` at the `Set` level, under the invariant: success is exactly
membership, and a successful iterator dereferences to the element. -/
theorem setFind_spec {B : Nat} {s : BSet} (hs : Inv B s) (x : Int) :
    ((setFind s x).isSome ↔ x ∈ setElems s) ∧
    (∀ p, setFind s x = some p → derefAt s.head p = some x) := by
  obtain ⟨⟨hh, hroot⟩, hsz, hbp⟩ := hs
  rcases hroot.elim_cases with ⟨m0, he, _⟩ | ⟨cs, m, h, he, _, hne, _, _, hall, hsort, hmx⟩
  · have hel : setElems s = [] := by
      unfold setElems
      rw [he]
      simp
    have hsz0 : s.sz = 0 := by rw [hsz, hel]; rfl
    rw [setFind, if_pos hsz0, hel]
    simp
  · have hel : setElems s = flatE cs := by
      unfold setElems
      rw [he, elems_mk_of_ne _ _ _ hne]
    have hszne : s.sz ≠ 0 := by
      rw [hsz, hel]
      intro h0
      exact flatE_ne_nil_sub hne hall (List.length_eq_zero.mp h0)
    rw [setFind, if_neg hszne, he]
    have hcore := findGo_core (B := B) (x := x) h none (some m) hne hall hsort
    constructor
    · constructor
      · intro hfsome
        by_contra hxnot
        rw [hel] at hxnot
        rw [hcore.2 hxnot] at hfsome
        simp at hfsome
      · intro hxm
        rw [hel] at hxm
        obtain ⟨p, hp, _⟩ := hcore.1 hxm
        rw [hp]
        rfl
    · intro p hp
      by_cases hxm : x ∈ flatE cs
      · obtain ⟨p2, hp2, hd2⟩ := hcore.1 hxm
        rw [hp2] at hp
        injection hp with hp
        subst hp
        exact hd2
      · rw [hcore.2 hxm] at hp
        cases hp

/-- `insert` preserves the invariant and inserts exactly the element into the
abstract sorted set. -/
theorem setInsert_spec {B : Nat} (hB : 2 ≤ B) {s : BSet} (hs : Inv B s) (x : Int) :
    Inv B (setInsert B x s) ∧ setElems (setInsert B x s) = sIns x (setElems s) := by
  obtain ⟨⟨hh, hroot⟩, hsz, hbp⟩ := hs
  rcases hroot.elim_cases with ⟨m0, he, _⟩ | ⟨cs, m, h, he, _, hne, hhi, hone, hall, hsort, hmx⟩
  · -- empty set: the new leaf becomes the root's only child
    have hel : setElems s = [] := by
      unfold setElems
      rw [he]
      simp
    have hsz0 : s.sz = 0 := by rw [hsz, hel]; rfl
    rw [setInsert, if_pos hsz0]
    have hrec : recalc (.mk [Node.leaf x] s.head.data s.head.mx)
        = .mk [Node.leaf x] s.head.data (some x) := by
      simp [recalc, Node.leaf]
    rw [hrec]
    have hdd : s.head.data = none := by
      rw [he]
      rfl
    rw [hdd]
    have hroot2 : RootOK B (.mk [Node.leaf x] none (some x)) 1 := by
      refine RootOK.root (by simp)
        (by simp only [List.length_cons, List.length_nil]; omega) (fun _ => rfl) ?_ ?_ ?_
      · intro c hc
        have hce := List.mem_singleton.mp hc
        subst hce
        exact Sub.leaf x
      · simp [flatE]
      · simp [flatE]
    refine ⟨⟨⟨1, hroot2⟩, ?_, rfl⟩, ?_⟩
    · show s.sz + 1 = (elems (.mk [Node.leaf x] none (some x))).length
      rw [hsz0, elems_mk_of_ne _ _ _ (by simp)]
      simp [flatE]
    · show elems (.mk [Node.leaf x] none (some x)) = sIns x (setElems s)
      rw [hel, elems_mk_of_ne _ _ _ (by simp)]
      simp [flatE, sIns]
  · have hel : setElems s = flatE cs := by
      unfold setElems
      rw [he, elems_mk_of_ne _ _ _ hne]
    have hszne : s.sz ≠ 0 := by
      rw [hsz, hel]
      intro h0
      exact flatE_ne_nil_sub hne hall (List.length_eq_zero.mp h0)
    rw [setInsert, if_neg hszne]
    have hfind := setFind_spec (B := B) ⟨⟨hh, hroot⟩, hsz, hbp⟩ x
    by_cases hxm : x ∈ setElems s
    · rw [if_pos (hfind.1.mpr hxm)]
      refine ⟨⟨⟨hh, hroot⟩, hsz, hbp⟩, ?_⟩
      have hsorted : List.Pairwise (· < ·) (setElems s) := hroot.sorted_elems
      rw [sIns_mem_sorted hsorted hxm]
    · rw [if_neg (by simpa using fun hsome => hxm (hfind.1.mp hsome))]
      have hxm2 : x ∉ flatE cs := by rwa [hel] at hxm
      obtain ⟨cs2, m2, hins, hall2, hsort2, hg2, hflat2, hlo2, hhi2⟩ :=
        insGo_core hB h none (some m) hne hall hsort hxm2
      rw [he, hins]
      have hlen1 : 1 ≤ cs.length := by
        cases cs with
        | nil => exact absurd rfl hne
        | cons a l => simp
      have hne2 : cs2 ≠ [] := by
        intro hnil
        rw [hnil] at hlo2
        simp at hlo2
        exact hne hlo2
      have hlensIns : (sIns x (setElems s)).length = s.sz + 1 := by
        rw [sIns_length hxm, ← hsz]
      simp only [Node.children_mk, Node.mx_mk]
      by_cases hsp : cs2.length = 2 * B
      · rw [if_pos hsp]
        obtain ⟨n1, n2, hspl, hs1, hs2, helems⟩ := insSplit_spec hB hall2 hsort2 hsp
        rw [hspl]
        have hall3 : ∀ c ∈ [n1, n2], Sub B c (h + 1) := by
          intro c hc
          rcases List.mem_cons.mp hc with rfl | hc2
          · exact hs1
          · rcases List.mem_cons.mp hc2 with rfl | hc3
            · exact hs2
            · cases hc3
        obtain ⟨m3, hm3, hg3⟩ := recalc_spec (B := B) (h := h + 1) none (some m2)
          (by simp) hall3
        rw [hm3]
        have hfl : flatE [n1, n2] = sIns x (flatE cs) := by
          rw [← hflat2, ← helems]
          simp [flatE]
        have hroot2 : RootOK B (.mk [n1, n2] none (some m3)) (h + 1 + 1) := by
          refine RootOK.root (by simp)
            (by simp only [List.length_cons, List.length_nil]; omega) ?_ hall3 ?_ hg3
          · intro h1
            simp at h1
          · rw [hfl, ← hel]
            exact sIns_pairwise hroot.sorted_elems
        refine ⟨⟨⟨h + 1 + 1, hroot2⟩, ?_, rfl⟩, ?_⟩
        · show s.sz + 1 = (elems (.mk [n1, n2] none (some m3))).length
          rw [elems_mk_of_ne _ _ _ (by simp), hfl, ← hel, hlensIns]
        · show elems (.mk [n1, n2] none (some m3)) = sIns x (setElems s)
          rw [elems_mk_of_ne _ _ _ (by simp), hfl, hel]
      · rw [if_neg hsp]
        have hroot2 : RootOK B (.mk cs2 none (some m2)) (h + 1) := by
          refine RootOK.root hne2 (by omega) ?_ hall2 hsort2 hg2
          intro h1
          have : cs.length = 1 := by omega
          exact hone this
        refine ⟨⟨⟨h + 1, hroot2⟩, ?_, rfl⟩, ?_⟩
        · show s.sz + 1 = (elems (.mk cs2 none (some m2))).length
          rw [elems_mk_of_ne _ _ _ hne2, hflat2, ← hel, hlensIns]
        · show elems (.mk cs2 none (some m2)) = sIns x (setElems s)
          rw [elems_mk_of_ne _ _ _ hne2, hflat2, hel]

/-! ## Deletion -/

theorem getElem_append_mid {α : Type} (A : List α) (c : α) (D : List α)
    (h : A.length < (A ++ c :: D).length) : (A ++ c :: D)[A.length] = c := by
  rw [List.getElem_append_right (by omega)]
  simp

theorem drop_append_mid {α : Type} (A : List α) (c : α) (D : List α) :
    (A ++ c :: D).drop (A.length + 1) = D := by
  rw [show A ++ c :: D = (A ++ [c]) ++ D by simp]
  exact List.drop_left' (by simp)

theorem getElem_of_getElem? {α : Type} {l : List α} {n : Nat} {a : α} (h : n < l.length)
    (he : l[n]? = some a) : l.get ⟨n, h⟩ = a := by
  rw [List.get_eq_getElem]
  rw [List.getElem?_eq_getElem h] at he
  exact Option.some.inj he

/-- Evaluation of one `merge` iteration when the current node is not the
leftmost child: the left sibling is used. -/
theorem mergeStep_eval_left {B : Nat} (A2 : List Node) (nb c : Node) (D : List Node)
    (d m : Option Int) :
    mergeStep B (.mk ((A2 ++ [nb]) ++ c :: D) d m) (A2.length + 1) =
      (if B < nb.children.length then
        match nb.children.getLast? with
        | some b =>
          (.mk (A2 ++ recalc (.mk nb.children.dropLast nb.data nb.mx)
            :: recalc (.mk (b :: c.children) c.data c.mx) :: D) d m, true)
        | none => (.mk ((A2 ++ [nb]) ++ c :: D) d m, true)
      else
        (.mk (A2 ++ recalc (.mk (nb.children ++ c.children) nb.data nb.mx) :: D) d m,
          false)) := by
  have hassoc : (A2 ++ [nb]) ++ c :: D = A2 ++ nb :: c :: D := by simp
  have hlen : ((A2 ++ [nb]) ++ c :: D).length = A2.length + 2 + D.length := by
    simp
    omega
  have hi : A2.length + 1 < ((A2 ++ [nb]) ++ c :: D).length := by omega
  have hl : A2.length + 1 - 1 < ((A2 ++ [nb]) ++ c :: D).length := by omega
  have hgc : ((A2 ++ [nb]) ++ c :: D).get ⟨A2.length + 1, hi⟩ = c := by
    refine getElem_of_getElem? hi ?_
    rw [List.getElem?_append_right (by simp)]
    simp
  have hgn : ((A2 ++ [nb]) ++ c :: D).get ⟨A2.length + 1 - 1, hl⟩ = nb := by
    refine getElem_of_getElem? hl ?_
    rw [hassoc, List.getElem?_append_right (by omega)]
    simp
  have htake : ((A2 ++ [nb]) ++ c :: D).take (A2.length + 1 - 1) = A2 := by
    have h2 : A2.length + 1 - 1 = A2.length := by omega
    rw [h2, hassoc]
    exact List.take_left' rfl
  have hdrop : ((A2 ++ [nb]) ++ c :: D).drop (A2.length + 1 + 1) = D := by
    rw [show A2.length + 1 + 1 = ((A2 ++ [nb]) ++ [c]).length by simp]
    rw [show (A2 ++ [nb]) ++ c :: D = ((A2 ++ [nb]) ++ [c]) ++ D by simp]
    exact List.drop_left _ _
  rw [mergeStep]
  rw [dif_pos hi, if_pos (by omega : A2.length + 1 ≠ 0), dif_pos hl]
  rw [hgc, hgn, htake, hdrop]

/-- Evaluation of one `merge` iteration when the current node is the leftmost
child: the right sibling is used. -/
theorem mergeStep_eval_right {B : Nat} (c nb : Node) (D : List Node) (d m : Option Int) :
    mergeStep B (.mk (c :: nb :: D) d m) 0 =
      (if B < nb.children.length then
        match nb.children with
        | b :: rest =>
          (.mk (recalc (.mk (c.children ++ [b]) c.data c.mx)
            :: recalc (.mk rest nb.data nb.mx) :: D) d m, true)
        | [] => (.mk (c :: nb :: D) d m, true)
      else
        (.mk (recalc (.mk (c.children ++ nb.children) c.data c.mx) :: D) d m, false)) := by
  rw [mergeStep]
  have hi : 0 < (c :: nb :: D).length := by simp
  have hr : 0 + 1 < (c :: nb :: D).length := by simp
  rw [dif_pos hi, if_neg (by simp), dif_pos hr]
  rfl

theorem pairwise_sub_append_left {l1 l2 l3 : List Int}
    (hs : List.Pairwise (· < ·) (l1 ++ (l2 ++ l3))) :
    List.Pairwise (· < ·) (l1 ++ l2) :=
  hs.sublist ((List.sublist_append_left l2 l3).append_left l1)

theorem mergeStep_left_borrow {B : Nat} (A2 : List Node) (nb c : Node) (D : List Node)
    (d m : Option Int) {b : Node} (hlt : B < nb.children.length)
    (hb : nb.children.getLast? = some b) :
    mergeStep B (.mk ((A2 ++ [nb]) ++ c :: D) d m) (A2.length + 1) =
      (.mk (A2 ++ recalc (.mk nb.children.dropLast nb.data nb.mx)
        :: recalc (.mk (b :: c.children) c.data c.mx) :: D) d m, true) := by
  rw [mergeStep_eval_left, if_pos hlt, hb]

theorem mergeStep_left_fuse {B : Nat} (A2 : List Node) (nb c : Node) (D : List Node)
    (d m : Option Int) (hle : ¬ B < nb.children.length) :
    mergeStep B (.mk ((A2 ++ [nb]) ++ c :: D) d m) (A2.length + 1) =
      (.mk (A2 ++ recalc (.mk (nb.children ++ c.children) nb.data nb.mx) :: D) d m,
        false) := by
  rw [mergeStep_eval_left, if_neg hle]

theorem mergeStep_right_borrow {B : Nat} (c nb : Node) (D : List Node) (d m : Option Int)
    {b : Node} {rest : List Node} (hlt : B < nb.children.length)
    (hb : nb.children = b :: rest) :
    mergeStep B (.mk (c :: nb :: D) d m) 0 =
      (.mk (recalc (.mk (c.children ++ [b]) c.data c.mx)
        :: recalc (.mk rest nb.data nb.mx) :: D) d m, true) := by
  rw [mergeStep_eval_right, if_pos hlt, hb]

theorem mergeStep_right_fuse {B : Nat} (c nb : Node) (D : List Node) (d m : Option Int)
    (hle : ¬ B < nb.children.length) :
    mergeStep B (.mk (c :: nb :: D) d m) 0 =
      (.mk (recalc (.mk (c.children ++ nb.children) c.data c.mx) :: D) d m, false) := by
  rw [mergeStep_eval_right, if_neg hle]

/-- One non-root `merge` iteration, in full: the deficient child (exactly
`B - 1` children after the recursive repair) is mended by a borrow or a fuse
with the adjacent sibling; the parent keeps the same flattened elements, all
its children are well formed again, and its child count drops by one exactly
when the returned flag says the loop continues. -/
theorem mergeStep_core {B : Nat} (hB : 2 ≤ B) {h : Nat} {A D : List Node}
    {ccs : List Node} {cm : Int} (d m : Option Int)
    (hA : ∀ e ∈ A, Sub B e (h + 1)) (hD : ∀ e ∈ D, Sub B e (h + 1))
    (hAD : A ≠ [] ∨ D ≠ [])
    (hclen : ccs.length = B - 1)
    (hcall : ∀ e ∈ ccs, Sub B e h)
    (hcg : (flatE ccs).getLast? = some cm)
    (hsort : List.Pairwise (· < ·) (flatE (A ++ Node.mk ccs none (some cm) :: D))) :
    ∃ cs2 st,
      mergeStep B (.mk (A ++ Node.mk ccs none (some cm) :: D) d m) A.length
        = (.mk cs2 d m, st) ∧
      (∀ e ∈ cs2, Sub B e (h + 1)) ∧
      flatE cs2 = flatE (A ++ Node.mk ccs none (some cm) :: D) ∧
      (st = true → cs2.length = A.length + 1 + D.length) ∧
      (st = false → cs2.length + 1 = A.length + 1 + D.length) := by
  have hccs_ne : ccs ≠ [] := by
    intro hnil
    rw [hnil] at hclen
    simp at hclen
    omega
  have hbc_ne : ∀ z : Node, z :: ccs ≠ [] := fun z => by simp
  by_cases hAne : A ≠ []
  · -- the current node has a left sibling
    obtain ⟨A2, nb, hA2⟩ : ∃ A2 nb, A = A2 ++ [nb] :=
      ⟨A.dropLast, A.getLast hAne, (List.dropLast_append_getLast hAne).symm⟩
    have hnbA : nb ∈ A := by
      rw [hA2]
      simp
    obtain ⟨ncs, nm, hnb, hnne, hnlo, hnhi, hnall, hnsort, hng⟩ := (hA nb hnbA).succ_node
    have hA2sub : ∀ e ∈ A2, Sub B e (h + 1) := by
      intro e he2
      exact hA e (by rw [hA2]; simp [he2])
    have hAlen : A.length = A2.length + 1 := by
      rw [hA2]
      simp
    -- canonical right-nested form of the flattened elements
    have htotal2 : flatE (A ++ Node.mk ccs none (some cm) :: D)
        = flatE A2 ++ (flatE ncs ++ (flatE ccs ++ flatE D)) := by
      rw [hA2, hnb]
      simp only [flatE_append, flatE_cons, elems_mk_of_ne _ _ _ hnne,
        elems_mk_of_ne _ _ _ hccs_ne, flatE_nil, List.append_assoc, List.append_nil]
    have hsort2 := htotal2 ▸ hsort
    by_cases hborrow : B < ncs.length
    · -- borrow: the left sibling's last child moves to the front of the node
      obtain ⟨nrest, b, hnr⟩ : ∃ nrest b, ncs = nrest ++ [b] :=
        ⟨ncs.dropLast, ncs.getLast hnne, (List.dropLast_append_getLast hnne).symm⟩
      have hbmem : b ∈ ncs := by
        rw [hnr]
        simp
      have hnrlen : nrest.length + 1 = ncs.length := by
        rw [hnr]
        simp
      have hnrne : nrest ≠ [] := by
        intro hnil
        rw [hnil] at hnrlen
        simp at hnrlen
        omega
      have hfncs : flatE ncs = flatE nrest ++ elems b := by
        rw [hnr]
        simp [flatE]
      have hnrall : ∀ e ∈ nrest, Sub B e h := fun e he =>
        hnall e (by rw [hnr]; exact List.mem_append_left _ he)
      obtain ⟨nm2, hnm2eq, hnm2g⟩ := recalc_spec (B := B) (h := h) none (some nm) hnrne hnrall
      have hnrsort : List.Pairwise (· < ·) (flatE nrest) :=
        pairwise_append_left (hfncs ▸ hnsort)
      have hsub_neigh : Sub B (.mk nrest none (some nm2)) (h + 1) :=
        Sub.node hnrne (by omega) (by omega) hnrall hnrsort hnm2g
      have hcurall : ∀ e ∈ b :: ccs, Sub B e h := by
        intro e he
        rcases List.mem_cons.mp he with he2 | h2
        · subst he2
          exact hnall _ hbmem
        · exact hcall e h2
      obtain ⟨cm2, hcm2eq, hcm2g⟩ :=
        recalc_spec (B := B) (h := h) none (some cm) (hbc_ne b) hcurall
      -- sortedness of the borrowed-to node, as a slice of the whole
      have htotal : flatE (A ++ Node.mk ccs none (some cm) :: D)
          = flatE A2 ++ (flatE nrest ++ (elems b ++ (flatE ccs ++ flatE D))) := by
        rw [htotal2, hfncs]
        simp [List.append_assoc]
      have hsortN := htotal ▸ hsort
      have hcursort : List.Pairwise (· < ·) (flatE (b :: ccs)) := by
        have p2 := pairwise_append_right (pairwise_append_right hsortN)
        have p3 := pairwise_sub_append_left p2
        simpa [flatE] using p3
      have hsub_cur : Sub B (.mk (b :: ccs) none (some cm2)) (h + 1) :=
        Sub.node (hbc_ne b) (by simp [hclen]; omega)
          (by simp [hclen]; omega) hcurall hcursort hcm2g
      have hdropl : ncs.dropLast = nrest := by
        rw [hnr]
        simp
      have heval : mergeStep B (.mk (A ++ Node.mk ccs none (some cm) :: D) d m) A.length
          = (.mk (A2 ++ (Node.mk nrest none (some nm2))
              :: (Node.mk (b :: ccs) none (some cm2)) :: D) d m, true) := by
        rw [hA2, hnb]
        rw [show (A2 ++ [Node.mk ncs none (some nm)]).length = A2.length + 1 by simp]
        rw [mergeStep_left_borrow A2 _ _ D d m
          (by simpa using hborrow)
          (by simpa using (by rw [hnr]; exact List.getLast?_concat _ : ncs.getLast? = some b))]
        simp only [Node.children_mk, Node.data_mk, Node.mx_mk]
        rw [hdropl, hnm2eq, hcm2eq]
      refine ⟨_, _, heval, ?_, ?_, ?_, ?_⟩
      · intro e he
        rcases List.mem_append.mp he with h1 | h2
        · exact hA2sub e h1
        · rcases List.mem_cons.mp h2 with rfl | h3
          · exact hsub_neigh
          · rcases List.mem_cons.mp h3 with rfl | h4
            · exact hsub_cur
            · exact hD e h4
      · rw [htotal]
        simp only [flatE_append, flatE_cons, elems_mk_of_ne _ _ _ hnrne,
          elems_mk_of_ne _ _ _ (hbc_ne b), List.append_assoc]
      · intro _
        simp only [List.length_append, List.length_cons, hAlen]
        omega
      · intro hco
        simp at hco
    · -- fuse: all children of the current node move into the left sibling
      have hfuseB : ncs.length = B := by omega
      have hfall : ∀ e ∈ ncs ++ ccs, Sub B e h := by
        intro e he
        rcases List.mem_append.mp he with h1 | h2
        · exact hnall e h1
        · exact hcall e h2
      have hfne : ncs ++ ccs ≠ [] := by
        intro hnil
        rw [List.append_eq_nil] at hnil
        exact hnne hnil.1
      obtain ⟨fm, hfeq, hfg⟩ := recalc_spec (B := B) (h := h) none (some nm) hfne hfall
      have hfsort : List.Pairwise (· < ·) (flatE (ncs ++ ccs)) := by
        have p1 := pairwise_append_right hsort2
        have p2 := pairwise_sub_append_left p1
        simpa [flatE_append] using p2
      have hsub_fused : Sub B (.mk (ncs ++ ccs) none (some fm)) (h + 1) := by
        refine Sub.node hfne ?_ ?_ hfall hfsort hfg
        · simp only [List.length_append]
          omega
        · simp only [List.length_append]
          omega
      have heval : mergeStep B (.mk (A ++ Node.mk ccs none (some cm) :: D) d m) A.length
          = (.mk (A2 ++ (Node.mk (ncs ++ ccs) none (some fm)) :: D) d m, false) := by
        rw [hA2, hnb]
        rw [show (A2 ++ [Node.mk ncs none (some nm)]).length = A2.length + 1 by simp]
        rw [mergeStep_left_fuse A2 _ _ D d m (by simpa using hborrow)]
        simp only [Node.children_mk, Node.data_mk, Node.mx_mk]
        rw [hfeq]
      refine ⟨_, _, heval, ?_, ?_, ?_, ?_⟩
      · intro e he
        rcases List.mem_append.mp he with h1 | h2
        · exact hA2sub e h1
        · rcases List.mem_cons.mp h2 with rfl | h3
          · exact hsub_fused
          · exact hD e h3
      · rw [htotal2]
        simp only [flatE_append, flatE_cons, elems_mk_of_ne _ _ _ hfne, List.append_assoc]
      · intro hco
        simp at hco
      · intro _
        simp only [List.length_append, List.length_cons, hAlen]
        omega
  · -- the current node is the leftmost child; use the right sibling
    push_neg at hAne
    subst hAne
    have hDne : D ≠ [] := by
      rcases hAD with h1 | h1
      · exact absurd rfl h1
      · exact h1
    obtain ⟨nb, D2, hD2⟩ : ∃ nb D2, D = nb :: D2 := by
      cases D with
      | nil => exact absurd rfl hDne
      | cons nb D2 => exact ⟨nb, D2, rfl⟩
    have hnbD : nb ∈ D := by
      rw [hD2]
      simp
    obtain ⟨ncs, nm, hnb, hnne, hnlo, hnhi, hnall, hnsort, hng⟩ := (hD nb hnbD).succ_node
    have hD2sub : ∀ e ∈ D2, Sub B e (h + 1) := by
      intro e he2
      exact hD e (by rw [hD2]; simp [he2])
    have htotal2 : flatE (([] : List Node) ++ Node.mk ccs none (some cm) :: D)
        = flatE ccs ++ (flatE ncs ++ flatE D2) := by
      rw [hD2, hnb]
      simp only [List.nil_append, flatE_cons, elems_mk_of_ne _ _ _ hnne,
        elems_mk_of_ne _ _ _ hccs_ne, List.append_assoc]
    have hsort2 := htotal2 ▸ hsort
    by_cases hborrow : B < ncs.length
    · -- borrow: the right sibling's first child is appended to the node
      obtain ⟨b, nrest, hnr⟩ : ∃ b nrest, ncs = b :: nrest := by
        cases ncs with
        | nil => exact absurd rfl hnne
        | cons b nrest => exact ⟨b, nrest, rfl⟩
      have hbmem : b ∈ ncs := by
        rw [hnr]
        simp
      have hnrlen : nrest.length + 1 = ncs.length := by
        rw [hnr]
        simp
      have hnrne : nrest ≠ [] := by
        intro hnil
        rw [hnil] at hnrlen
        simp at hnrlen
        omega
      have hfncs : flatE ncs = elems b ++ flatE nrest := by
        rw [hnr]
        simp [flatE]
      have hnrall : ∀ e ∈ nrest, Sub B e h := fun e he =>
        hnall e (by rw [hnr]; simp [he])
      obtain ⟨nm2, hnm2eq, hnm2g⟩ := recalc_spec (B := B) (h := h) none (some nm) hnrne hnrall
      have hnrsort : List.Pairwise (· < ·) (flatE nrest) :=
        pairwise_append_right (hfncs ▸ hnsort)
      have hsub_neigh : Sub B (.mk nrest none (some nm2)) (h + 1) :=
        Sub.node hnrne (by omega) (by omega) hnrall hnrsort hnm2g
      have hcurall : ∀ e ∈ ccs ++ [b], Sub B e h := by
        intro e he
        rcases List.mem_append.mp he with h1 | h2
        · exact hcall e h1
        · have he2 := List.mem_singleton.mp h2
          subst he2
          exact hnall _ hbmem
      have hcurne : ccs ++ [b] ≠ [] := by simp
      obtain ⟨cm2, hcm2eq, hcm2g⟩ :=
        recalc_spec (B := B) (h := h) none (some cm) hcurne hcurall
      have htotal : flatE (([] : List Node) ++ Node.mk ccs none (some cm) :: D)
          = flatE ccs ++ (elems b ++ (flatE nrest ++ flatE D2)) := by
        rw [htotal2, hfncs]
        simp [List.append_assoc]
      have hsortN := htotal ▸ hsort
      have hcursort : List.Pairwise (· < ·) (flatE (ccs ++ [b])) := by
        have p3 := pairwise_sub_append_left hsortN
        simpa [flatE_append, flatE] using p3
      have hsub_cur : Sub B (.mk (ccs ++ [b]) none (some cm2)) (h + 1) := by
        refine Sub.node hcurne ?_ ?_ hcurall hcursort hcm2g
        · simp only [List.length_append, List.length_cons, List.length_nil]
          omega
        · simp only [List.length_append, List.length_cons, List.length_nil]
          omega
      have heval : mergeStep B (.mk (([] : List Node)
            ++ Node.mk ccs none (some cm) :: D) d m) ([] : List Node).length
          = (.mk ((Node.mk (ccs ++ [b]) none (some cm2))
              :: (Node.mk nrest none (some nm2)) :: D2) d m, true) := by
        rw [hD2, hnb]
        show mergeStep B (.mk (Node.mk ccs none (some cm)
          :: Node.mk ncs none (some nm) :: D2) d m) 0 = _
        rw [mergeStep_right_borrow _ _ D2 d m (by simpa using hborrow)
          (by simpa using hnr)]
        simp only [Node.children_mk, Node.data_mk, Node.mx_mk]
        rw [hcm2eq, hnm2eq]
      refine ⟨_, _, heval, ?_, ?_, ?_, ?_⟩
      · intro e he
        rcases List.mem_cons.mp he with rfl | h2
        · exact hsub_cur
        · rcases List.mem_cons.mp h2 with rfl | h3
          · exact hsub_neigh
          · exact hD2sub e h3
      · rw [htotal]
        simp only [flatE_cons, elems_mk_of_ne _ _ _ hcurne,
          elems_mk_of_ne _ _ _ hnrne, List.append_assoc]
        simp [flatE_append, flatE, List.append_assoc]
      · intro _
        rw [hD2]
        simp only [List.length_cons, List.length_nil]
        omega
      · intro hco
        simp at hco
    · -- fuse: the right sibling's children are appended to the node
      have hfuseB : ncs.length = B := by omega
      have hfall : ∀ e ∈ ccs ++ ncs, Sub B e h := by
        intro e he
        rcases List.mem_append.mp he with h1 | h2
        · exact hcall e h1
        · exact hnall e h2
      have hfne : ccs ++ ncs ≠ [] := by
        intro hnil
        rw [List.append_eq_nil] at hnil
        exact hnne hnil.2
      obtain ⟨fm, hfeq, hfg⟩ := recalc_spec (B := B) (h := h) none (some cm) hfne hfall
      have hfsort : List.Pairwise (· < ·) (flatE (ccs ++ ncs)) := by
        have p2 := pairwise_sub_append_left hsort2
        simpa [flatE_append] using p2
      have hsub_fused : Sub B (.mk (ccs ++ ncs) none (some fm)) (h + 1) := by
        refine Sub.node hfne ?_ ?_ hfall hfsort hfg
        · simp only [List.length_append]
          omega
        · simp only [List.length_append]
          omega
      have heval : mergeStep B (.mk (([] : List Node)
            ++ Node.mk ccs none (some cm) :: D) d m) ([] : List Node).length
          = (.mk ((Node.mk (ccs ++ ncs) none (some fm)) :: D2) d m, false) := by
        rw [hD2, hnb]
        show mergeStep B (.mk (Node.mk ccs none (some cm)
          :: Node.mk ncs none (some nm) :: D2) d m) 0 = _
        rw [mergeStep_right_fuse _ _ D2 d m (by simpa using hborrow)]
        simp only [Node.children_mk, Node.data_mk, Node.mx_mk]
        rw [hfeq]
      refine ⟨_, _, heval, ?_, ?_, ?_, ?_⟩
      · intro e he
        rcases List.mem_cons.mp he with rfl | h2
        · exact hsub_fused
        · exact hD2sub e h2
      · rw [htotal2]
        simp only [flatE_cons, elems_mk_of_ne _ _ _ hfne, List.append_assoc]
        simp [flatE_append, List.append_assoc]
      · intro hco
        simp at hco
      · intro _
        rw [hD2]
        simp only [List.length_cons, List.length_nil]
        omega

theorem sDel_append_mem {x : Int} {l1 l2 : List Int} (hx : x ∈ l1) :
    sDel x (l1 ++ l2) = sDel x l1 ++ l2 := by
  induction l1 with
  | nil => cases hx
  | cons y l ih =>
    by_cases hyx : y = x
    · simp [sDel, if_pos hyx]
    · have hx2 : x ∈ l := by
        rcases List.mem_cons.mp hx with rfl | h2
        · exact absurd rfl hyx
        · exact h2
      simp only [List.cons_append, sDel, List.append_eq, if_neg hyx, ih hx2]

theorem firstGE_lt_of_mem {B h : Nat} {x : Int} {cs : List Node}
    (hall : ∀ c ∈ cs, Sub B c h) (hx : x ∈ flatE cs) : firstGE x cs < cs.length := by
  have hle := firstGE_le_length x cs
  by_contra hc
  have he : firstGE x cs = cs.length := by omega
  exact not_mem_of_firstGE_eq_length hall he hx

theorem getLast?_append_of_ne_generic {α : Type} {l1 l2 : List α} (h : l2 ≠ []) :
    (l1 ++ l2).getLast? = l2.getLast? := by
  rw [List.getLast?_append]
  cases hl : l2.getLast? with
  | none => exact absurd (List.getLast?_eq_none_iff.mp hl) h
  | some a => rfl

/-- A `recalc` evaluation that only needs the last child to carry a coherent
cache (the other children may be mid-repair). -/
theorem recalc_specMX {cs : List Node} (d m : Option Int) (hne : cs ≠ [])
    (hlast : ∀ c, cs.getLast? = some c → elems c ≠ [] ∧ c.mx = (elems c).getLast?) :
    ∃ m2, recalc (.mk cs d m) = .mk cs d (some m2) ∧ (flatE cs).getLast? = some m2 := by
  have hex : ∃ c, cs.getLast? = some c := by
    cases hcl : cs.getLast? with
    | none => exact absurd (List.getLast?_eq_none_iff.mp hcl) hne
    | some c => exact ⟨c, rfl⟩
  obtain ⟨c, hc⟩ := hex
  obtain ⟨hcne, hcmx⟩ := hlast c hc
  have hex2 : ∃ mv, (elems c).getLast? = some mv := by
    cases he2 : (elems c).getLast? with
    | none => exact absurd (List.getLast?_eq_none_iff.mp he2) hcne
    | some mv => exact ⟨mv, rfl⟩
  obtain ⟨mv, hmv⟩ := hex2
  refine ⟨mv, ?_, ?_⟩
  · simp only [recalc, Node.children_mk, Node.data_mk, hc, hcmx, hmv]
  · rw [flatE_getLast? hc hcne]
    exact hmv

theorem eraseGo_unfold (B : Nat) (x : Int) (cs : List Node) (d m : Option Int) :
    eraseGo B x (.mk cs d m) =
      if h : firstGE x cs < cs.length then
        if (cs[firstGE x cs]).children.isEmpty then
          (recalc (.mk (cs.take (firstGE x cs) ++ cs.drop (firstGE x cs + 1)) d m), false)
        else
          if (eraseGo B x cs[firstGE x cs]).2 then
            (recalc (.mk (cs.take (firstGE x cs)
              ++ (eraseGo B x cs[firstGE x cs]).1 :: cs.drop (firstGE x cs + 1)) d m), true)
          else if (eraseGo B x cs[firstGE x cs]).1.children.length < B then
            mergeStep B (recalc (.mk (cs.take (firstGE x cs)
              ++ (eraseGo B x cs[firstGE x cs]).1 :: cs.drop (firstGE x cs + 1)) d m))
              (firstGE x cs)
          else
            (recalc (.mk (cs.take (firstGE x cs)
              ++ (eraseGo B x cs[firstGE x cs]).1 :: cs.drop (firstGE x cs + 1)) d m), true)
      else (.mk cs d m, true) := by
  conv_lhs => unfold eraseGo

/-- The full `erase` recursion below the root: removing a present element
keeps the children well formed, removes exactly that element from the
flattened list, and shrinks the child count by one exactly while the `merge`
loop is still running. -/
theorem eraseGo_core {B : Nat} (hB : 2 ≤ B) {x : Int} :
    ∀ (h : Nat) {cs : List Node} (d m : Option Int),
    2 ≤ cs.length → (∀ c ∈ cs, Sub B c h) → List.Pairwise (· < ·) (flatE cs) →
    x ∈ flatE cs →
    ∃ cs2 m2 st, eraseGo B x (.mk cs d m) = (.mk cs2 d (some m2), st) ∧
      (∀ c ∈ cs2, Sub B c h) ∧
      List.Pairwise (· < ·) (flatE cs2) ∧
      (flatE cs2).getLast? = some m2 ∧
      flatE cs2 = sDel x (flatE cs) ∧
      (st = true → cs2.length = cs.length) ∧
      (st = false → cs2.length + 1 = cs.length) := by
  intro h
  induction h with
  | zero =>
    intro cs d m hlen2 hall hsort hx
    have hi : firstGE x cs < cs.length := firstGE_lt_of_mem hall hx
    obtain ⟨z, hz⟩ := (hall _ (List.getElem_mem hi)).zero_leaf
    have hmemz : x = z := by
      have hmem := (mem_flatE_iff_firstGE hall hsort hi).mp hx
      rw [hz] at hmem
      simpa using hmem
    rw [eraseGo_unfold, dif_pos hi, if_pos (by rw [hz]; rfl)]
    have hdec := flatE_take_getElem_drop hi
    rw [hz] at hdec
    simp only [elems_mk_nil, Option.toList_some] at hdec
    rw [← hmemz] at hdec
    have hA : ∀ y ∈ flatE (cs.take (firstGE x cs)), y < x :=
      flatE_take_firstGE_lt hall
    have htdne : cs.take (firstGE x cs) ++ cs.drop (firstGE x cs + 1) ≠ [] := by
      intro hnil
      have hlnil := congrArg List.length hnil
      simp only [List.length_append, List.length_take, List.length_drop,
        List.length_nil] at hlnil
      omega
    have hall2 : ∀ c ∈ cs.take (firstGE x cs) ++ cs.drop (firstGE x cs + 1), Sub B c 0 := by
      intro c hc
      rcases List.mem_append.mp hc with h1 | h2
      · exact hall c (List.mem_of_mem_take h1)
      · exact hall c (List.mem_of_mem_drop h2)
    obtain ⟨m2, hm2, hg2⟩ := recalc_spec (B := B) (h := 0) d m htdne hall2
    rw [hm2]
    have hfl : flatE (cs.take (firstGE x cs) ++ cs.drop (firstGE x cs + 1))
        = sDel x (flatE cs) := by
      rw [flatE_append, hdec, List.append_assoc,
        sDel_append_left (fun y hy => ne_of_lt (hA y hy))]
      congr 1
      simp [sDel]
    refine ⟨_, m2, false, rfl, hall2, ?_, hg2, hfl, ?_, ?_⟩
    · rw [hfl]
      exact sDel_pairwise hsort
    · intro hco
      simp at hco
    · intro _
      simp only [List.length_append, List.length_take, List.length_drop]
      omega
  | succ h ih =>
    intro cs d m hlen2 hall hsort hx
    have hi : firstGE x cs < cs.length := firstGE_lt_of_mem hall hx
    obtain ⟨ccs, cm, hcc, hcne, hclo, hchi, hcall, hcsort, hcmx⟩ :=
      (hall _ (List.getElem_mem hi)).succ_node
    have hnleaf : ¬ (cs[firstGE x cs]).children.isEmpty := by
      rw [hcc]
      simpa using hcne
    have hxc : x ∈ flatE ccs := by
      have hmem := (mem_flatE_iff_firstGE hall hsort hi).mp hx
      rw [hcc, elems_mk_of_ne _ _ _ hcne] at hmem
      exact hmem
    have hclen2 : 2 ≤ ccs.length := by omega
    obtain ⟨rcs, rm2, rst, hr, hrall, hrsort, hrg, hrflat, hrt, hrf⟩ :=
      ih none (some cm) hclen2 hcall hcsort hxc
    rw [eraseGo_unfold, dif_pos hi, if_neg hnleaf, hcc, hr]
    have hrlen1 : ccs.length - 1 ≤ rcs.length := by
      cases rst
      · have := hrf rfl
        omega
      · have := hrt rfl
        omega
    have hrne : rcs ≠ [] := by
      intro hnil
      rw [hnil] at hrlen1
      simp at hrlen1
      omega
    -- the parent after splicing in the repaired child
    have htdne : cs.take (firstGE x cs)
        ++ (Node.mk rcs none (some rm2)) :: cs.drop (firstGE x cs + 1) ≠ [] := by
      simp
    have hlast : ∀ c, (cs.take (firstGE x cs)
        ++ (Node.mk rcs none (some rm2)) :: cs.drop (firstGE x cs + 1)).getLast? = some c →
        elems c ≠ [] ∧ c.mx = (elems c).getLast? := by
      intro c hc
      rw [getLast?_append_of_ne_generic (by simp)] at hc
      cases hD : cs.drop (firstGE x cs + 1) with
      | nil =>
        rw [hD] at hc
        simp at hc
        rw [← hc]
        constructor
        · rw [elems_mk_of_ne _ _ _ hrne]
          exact flatE_ne_nil_sub hrne hrall
        · rw [elems_mk_of_ne _ _ _ hrne]
          simp [hrg]
      | cons e D2 =>
        rw [hD] at hc
        rw [show (Node.mk rcs none (some rm2)) :: e :: D2
          = [Node.mk rcs none (some rm2)] ++ (e :: D2) from rfl,
          getLast?_append_of_ne_generic (by simp)] at hc
        have hcm : c ∈ e :: D2 := List.mem_of_mem_getLast? (by simp [hc])
        have hsub : Sub B c (h + 1) := hall c (List.mem_of_mem_drop (hD ▸ hcm))
        exact ⟨hsub.elems_ne_nil, hsub.mx_getLast⟩
    obtain ⟨m2, hm2, hg2⟩ := recalc_specMX d m htdne hlast
    have hdec := flatE_take_getElem_drop hi
    rw [hcc, elems_mk_of_ne _ _ _ hcne] at hdec
    have hAlt : ∀ y ∈ flatE (cs.take (firstGE x cs)), y < x :=
      flatE_take_firstGE_lt hall
    have hflSpl : flatE (cs.take (firstGE x cs)
        ++ (Node.mk rcs none (some rm2)) :: cs.drop (firstGE x cs + 1))
        = sDel x (flatE cs) := by
      rw [flatE_append, flatE_cons, elems_mk_of_ne _ _ _ hrne, hrflat]
      rw [hdec, List.append_assoc,
        sDel_append_left (fun y hy => ne_of_lt (hAlt y hy)),
        sDel_append_mem hxc]
    have hsortSpl : List.Pairwise (· < ·) (flatE (cs.take (firstGE x cs)
        ++ (Node.mk rcs none (some rm2)) :: cs.drop (firstGE x cs + 1))) := by
      rw [hflSpl]
      exact sDel_pairwise hsort
    have hlenSpl : (cs.take (firstGE x cs)
        ++ (Node.mk rcs none (some rm2)) :: cs.drop (firstGE x cs + 1)).length
        = cs.length := by
      simp only [List.length_append, List.length_cons, List.length_take, List.length_drop]
      omega
    cases rst with
    | true =>
      rw [if_pos rfl, hm2]
      have hrsub : Sub B (.mk rcs none (some rm2)) (h + 1) := by
        refine Sub.node hrne ?_ ?_ hrall hrsort hrg
        · have := hrt rfl
          omega
        · have := hrt rfl
          omega
      refine ⟨_, m2, true, rfl, ?_, hsortSpl, hg2, hflSpl, ?_, ?_⟩
      · intro c hc
        rcases List.mem_append.mp hc with h1 | h2
        · exact hall c (List.mem_of_mem_take h1)
        · rcases List.mem_cons.mp h2 with rfl | h3
          · exact hrsub
          · exact hall c (List.mem_of_mem_drop h3)
      · intro _
        exact hlenSpl
      · intro hco
        simp at hco
    | false =>
      rw [if_neg (by simp), hm2]
      have hrlen2 : rcs.length + 1 = ccs.length := hrf rfl
      by_cases hud : rcs.length < B
      · -- the repaired child underflowed: one merge iteration at this node
        rw [if_pos (by simpa using hud)]
        have hrexact : rcs.length = B - 1 := by omega
        have htlen : (cs.take (firstGE x cs)).length = firstGE x cs := by
          rw [List.length_take]
          omega
        have hADne : cs.take (firstGE x cs) ≠ [] ∨ cs.drop (firstGE x cs + 1) ≠ [] := by
          by_cases h0 : firstGE x cs = 0
          · right
            intro hnil
            have hlnil := congrArg List.length hnil
            simp only [List.length_drop, List.length_nil] at hlnil
            omega
          · left
            intro hnil
            have hlnil := congrArg List.length hnil
            rw [htlen] at hlnil
            simp at hlnil
            omega
        obtain ⟨cs3, st3, heval3, hall3, hflat3, hlen3t, hlen3f⟩ :=
          mergeStep_core hB d (some m2)
            (fun e he => hall e (List.mem_of_mem_take he))
            (fun e he => hall e (List.mem_of_mem_drop he))
            hADne hrexact hrall hrg hsortSpl
        rw [htlen] at heval3
        rw [heval3]
        refine ⟨cs3, m2, st3, rfl, hall3, ?_, ?_, ?_, ?_, ?_⟩
        · rw [hflat3]
          exact hsortSpl
        · rw [hflat3]
          exact hg2
        · rw [hflat3]
          exact hflSpl
        · intro h3
          have := hlen3t h3
          rw [this, ← hlenSpl]
          simp only [List.length_append, List.length_cons]
          omega
        · intro h3
          have := hlen3f h3
          rw [← hlenSpl]
          simp only [List.length_append, List.length_cons] at this ⊢
          omega
      · -- the repaired child still has at least B children: the loop stops
        rw [if_neg (by simpa using hud)]
        have hrsub : Sub B (.mk rcs none (some rm2)) (h + 1) := by
          refine Sub.node hrne (by omega) (by omega) hrall hrsort hrg
        refine ⟨_, m2, true, rfl, ?_, hsortSpl, hg2, hflSpl, ?_, ?_⟩
        · intro c hc
          rcases List.mem_append.mp hc with h1 | h2
          · exact hall c (List.mem_of_mem_take h1)
          · rcases List.mem_cons.mp h2 with rfl | h3
            · exact hrsub
            · exact hall c (List.mem_of_mem_drop h3)
        · intro _
          exact hlenSpl
        · intro hco
          simp at hco

theorem collapseRoot_single (c : Node) (d m : Option Int) :
    collapseRoot (.mk [c] d m) = if c.children.isEmpty then .mk [c] d m else recalc c := by
  rfl

theorem collapseRoot_of_ne_one {cs : List Node} (d m : Option Int)
    (h : cs.length ≠ 1) : collapseRoot (.mk cs d m) = .mk cs d m := by
  match cs with
  | [] => rfl
  | [c] => exact absurd rfl h
  | c1 :: c2 :: rest => rfl

/-- `erase` preserves the invariant and removes exactly the element from the
abstract sorted set. -/
theorem setErase_spec {B : Nat} (hB : 2 ≤ B) {s : BSet} (hs : Inv B s) (x : Int) :
    Inv B (setErase B x s) ∧ setElems (setErase B x s) = sDel x (setElems s) := by
  obtain ⟨⟨hh, hroot⟩, hsz, hbp⟩ := hs
  have hfind := setFind_spec (B := B) ⟨⟨hh, hroot⟩, hsz, hbp⟩ x
  by_cases hxm : x ∈ setElems s
  · rcases hroot.elim_cases with ⟨m0, he, _⟩ |
      ⟨cs, m, h, he, _, hne, hhi, hone, hall, hsort, hmx⟩
    · -- empty root cannot contain the element
      exfalso
      have hel : setElems s = [] := by
        unfold setElems
        rw [he]
        simp
      rw [hel] at hxm
      cases hxm
    · have hel : setElems s = flatE cs := by
        unfold setElems
        rw [he, elems_mk_of_ne _ _ _ hne]
      have hxm2 : x ∈ flatE cs := by rwa [hel] at hxm
      have hszval : s.sz = (flatE cs).length := by rw [hsz, hel]
      rw [setErase, if_pos (hfind.1.mpr hxm)]
      by_cases hcs1 : cs.length = 1
      · -- the set had a single element: the root loses its only child
        have hzero : h = 0 := hone hcs1
        subst hzero
        obtain ⟨c0, hc0⟩ : ∃ c0, cs = [c0] := by
          cases cs with
          | nil => simp at hcs1
          | cons c0 rest =>
            cases rest with
            | nil => exact ⟨c0, rfl⟩
            | cons c1 r2 => simp at hcs1
        obtain ⟨z, hz⟩ := (hall c0 (by rw [hc0]; simp)).zero_leaf
        have hflz : flatE cs = [z] := by
          rw [hc0, hz]
          simp [flatE]
        have hxz : x = z := by
          rw [hflz] at hxm2
          simpa using hxm2
        subst hxz
        have her : eraseGo B x (.mk cs none (some m)) = (.mk [] none (some m), false) := by
          rw [hc0, hz]
          rw [eraseGo_unfold]
          have hfg : firstGE x [Node.mk [] (some x) (some x)] = 0 := by
            simp [firstGE, List.findIdx_cons, mxLt]
          rw [hfg]
          rw [dif_pos (by simp)]
          rw [if_pos (by rfl)]
          rfl
        rw [he, her]
        have hsz1 : s.sz = 1 := by
          rw [hszval, hflz]
          rfl
        have hgate : ¬ (s.sz - 1 ≠ 0 ∧ (false = false) ∧
            ((Node.mk ([] : List Node) none (some m)).children.length < B)) := by
          rw [hsz1]
          simp
        simp only [Node.children_mk]
        rw [if_neg (by simpa using hgate)]
        refine ⟨⟨⟨0, RootOK.empty (some m)⟩, ?_, rfl⟩, ?_⟩
        · show s.sz - 1 = (elems (.mk ([] : List Node) none (some m))).length
          rw [hsz1]
          simp
        · show elems (.mk ([] : List Node) none (some m)) = sDel x (setElems s)
          rw [hel, hflz]
          simp [sDel]
      · -- at least two elements: the erase recursion, then maybe a collapse
        have hlen2 : 2 ≤ cs.length := by
          cases cs with
          | nil => exact absurd rfl hne
          | cons a l =>
            cases l with
            | nil => simp at hcs1
            | cons b l2 => simp
        obtain ⟨cs2, m2, st, her, hall2, hsort2, hg2, hflat2, hst, hsf⟩ :=
          eraseGo_core hB h none (some m) hlen2 hall hsort hxm2
        rw [he, her]
        have hcs2ne : cs2 ≠ [] := by
          intro hnil
          rw [hnil] at hst hsf
          cases st
          · have := hsf rfl
            simp at this
            omega
          · have := hst rfl
            simp at this
            omega
        have hdelLen : (sDel x (flatE cs)).length + 1 = (flatE cs).length :=
          sDel_length_of_mem hxm2
        have hsz2 : s.sz - 1 = (flatE cs2).length := by
          rw [hszval, hflat2]
          omega
        have hsz2ne : s.sz - 1 ≠ 0 := by
          rw [hsz2]
          intro h0
          exact flatE_ne_nil_sub hcs2ne hall2 (List.length_eq_zero.mp h0)
        simp only [Node.children_mk]
        by_cases hgate : st = false ∧ cs2.length < B
        · rw [if_pos ⟨hsz2ne, hgate.1, hgate.2⟩]
          have hlen2b : cs2.length + 1 = cs.length := hsf hgate.1
          by_cases hcs2one : cs2.length = 1
          · obtain ⟨c0, hc0⟩ : ∃ c0, cs2 = [c0] := by
              cases cs2 with
              | nil => simp at hcs2one
              | cons c0 rest =>
                cases rest with
                | nil => exact ⟨c0, rfl⟩
                | cons c1 r2 => simp at hcs2one
            have hc0sub : Sub B c0 h := hall2 c0 (by rw [hc0]; simp)
            have hfl0 : flatE cs2 = elems c0 := by
              rw [hc0]
              simp [flatE]
            cases hhc : h with
            | zero =>
              -- single leaf child: no collapse (the child is not internal)
              obtain ⟨z, hz⟩ := (hhc ▸ hc0sub).zero_leaf
              rw [hc0, collapseRoot_single, if_pos (by rw [hz]; rfl)]
              have hroot2 : RootOK B (.mk [c0] none (some m2)) (h + 1) := by
                refine RootOK.root (by simp) (by simp; omega)
                  (fun _ => hhc) ?_ ?_ ?_
                · intro e hee
                  have hc := List.mem_singleton.mp hee
                  subst hc
                  exact hc0sub
                · rw [← hc0]
                  exact hsort2
                · rw [← hc0]
                  exact hg2
              refine ⟨⟨⟨h + 1, hroot2⟩, ?_, rfl⟩, ?_⟩
              · show s.sz - 1 = (elems (.mk [c0] none (some m2))).length
                rw [elems_mk_of_ne _ _ _ (by simp), ← hc0, ← hsz2]
              · show elems (.mk [c0] none (some m2)) = sDel x (setElems s)
                rw [elems_mk_of_ne _ _ _ (by simp), ← hc0, hflat2, hel]
            | succ h2 =>
              -- single internal child: it is promoted to be the root
              obtain ⟨ccs, cm2, hcc, hcne2, hclo2, hchi2, hcall2, hcsort2, hcg2⟩ :=
                (hhc ▸ hc0sub).succ_node
              rw [hc0, collapseRoot_single, if_neg (by rw [hcc]; simpa using hcne2)]
              obtain ⟨cm3, hcm3, hcg3⟩ :=
                recalc_spec (B := B) (h := h2) none (some cm2) hcne2 hcall2
              rw [hcc, hcm3]
              have hroot2 : RootOK B (.mk ccs none (some cm3)) (h2 + 1) := by
                refine RootOK.root hcne2 hchi2 ?_ hcall2 hcsort2 hcg3
                intro h1
                omega
              refine ⟨⟨⟨h2 + 1, hroot2⟩, ?_, rfl⟩, ?_⟩
              · show s.sz - 1 = (elems (.mk ccs none (some cm3))).length
                rw [elems_mk_of_ne _ _ _ hcne2, hsz2, hfl0, hcc,
                  elems_mk_of_ne _ _ _ hcne2]
              · show elems (.mk ccs none (some cm3)) = sDel x (setElems s)
                have : flatE ccs = flatE cs2 := by
                  rw [hfl0, hcc, elems_mk_of_ne _ _ _ hcne2]
                rw [elems_mk_of_ne _ _ _ hcne2, this, hflat2, hel]
          · -- root keeps several children: the collapse test fails
            rw [collapseRoot_of_ne_one _ _ hcs2one]
            have hroot2 : RootOK B (.mk cs2 none (some m2)) (h + 1) := by
              refine RootOK.root hcs2ne (by omega) (fun h1 => absurd h1 hcs2one) hall2
                hsort2 hg2
            refine ⟨⟨⟨h + 1, hroot2⟩, ?_, rfl⟩, ?_⟩
            · show s.sz - 1 = (elems (.mk cs2 none (some m2))).length
              rw [elems_mk_of_ne _ _ _ hcs2ne, ← hsz2]
            · show elems (.mk cs2 none (some m2)) = sDel x (setElems s)
              rw [elems_mk_of_ne _ _ _ hcs2ne, hflat2, hel]
        · -- no underflow at the root: no collapse at all
          rw [if_neg (by
            intro hco
            exact hgate ⟨hco.2.1, hco.2.2⟩)]
          have hone2 : cs2.length = 1 → False := by
            intro h1
            cases st
            · exact hgate ⟨rfl, by omega⟩
            · have := hst rfl
              omega
          have hroot2 : RootOK B (.mk cs2 none (some m2)) (h + 1) := by
            refine RootOK.root hcs2ne ?_ (fun h1 => absurd h1 hone2) hall2 hsort2 hg2
            cases st
            · have := hsf rfl
              omega
            · have := hst rfl
              omega
          refine ⟨⟨⟨h + 1, hroot2⟩, ?_, rfl⟩, ?_⟩
          · show s.sz - 1 = (elems (.mk cs2 none (some m2))).length
            rw [elems_mk_of_ne _ _ _ hcs2ne, ← hsz2]
          · show elems (.mk cs2 none (some m2)) = sDel x (setElems s)
            rw [elems_mk_of_ne _ _ _ hcs2ne, hflat2, hel]
  · -- absent element: `erase` is a no-op
    rw [setErase, if_neg (by simpa using fun hsome => hxm (hfind.1.mp hsome))]
    refine ⟨⟨⟨hh, hroot⟩, hsz, hbp⟩, ?_⟩
    have hsorted : List.Pairwise (· < ·) (setElems s) := hroot.sorted_elems
    rw [sDel_not_mem hxm]

theorem setElems_init : setElems BSet.init = [] := by
  show elems (.mk [] none none) = []
  simp

theorem Inv_init (B : Nat) : Inv B BSet.init := by
  refine ⟨⟨0, RootOK.empty none⟩, ?_, rfl⟩
  rw [setElems_init]
  rfl

/-- A single public mutating operation preserves the invariant and acts on
the element list as the model operation does. -/
theorem step_inv {B : Nat} (hB : 2 ≤ B) {s : BSet} (hs : Inv B s) (op : Op) :
    Inv B (step B s op) ∧ setElems (step B s op) = applyM (setElems s) op := by
  cases op with
  | ins x => exact setInsert_spec hB hs x
  | del x => exact setErase_spec hB hs x

theorem foldl_inv {B : Nat} (hB : 2 ≤ B) (ops : List Op) :
    ∀ {s : BSet}, Inv B s → Inv B (ops.foldl (step B) s) ∧
      setElems (ops.foldl (step B) s) = ops.foldl applyM (setElems s) := by
  induction ops with
  | nil =>
    intro s hs
    exact ⟨hs, rfl⟩
  | cons op rest ih =>
    intro s hs
    obtain ⟨h1, h2⟩ := step_inv hB hs op
    obtain ⟨h3, h4⟩ := ih h1
    simp only [List.foldl_cons]
    exact ⟨h3, by rw [h4, h2]⟩

/-- Any run of public operations leaves the set well-formed and with exactly
the model's elements. -/
theorem run_inv {B : Nat} (hB : 2 ≤ B) (ops : List Op) :
    Inv B (run B ops) ∧ setElems (run B ops) = modelRun ops := by
  obtain ⟨h1, h2⟩ := foldl_inv hB ops (Inv_init B)
  exact ⟨h1, by rw [run, h2, setElems_init, modelRun]⟩

theorem run_sorted {B : Nat} (hB : 2 ≤ B) (ops : List Op) :
    List.Pairwise (· < ·) (setElems (run B ops)) := by
  obtain ⟨⟨hh, hr⟩, _, _⟩ := (run_inv hB ops).1
  exact hr.sorted_elems

/-! ## Toolkit: iterator traversal (`operator++` / `operator--`) -/

theorem leafPaths_nil (d m : Option Int) : leafPaths (.mk [] d m) = [[]] := by
  conv_lhs => unfold leafPaths

theorem leafPaths_cons (c : Node) (cs : List Node) (d m : Option Int) :
    leafPaths (.mk (c :: cs) d m) = leafPathsL (c :: cs) 0 := by
  conv_lhs => unfold leafPaths

theorem leafPathsL_nil (k : Nat) : leafPathsL [] k = [] := by
  conv_lhs => unfold leafPathsL

theorem leafPathsL_cons (c : Node) (cs : List Node) (k : Nat) :
    leafPathsL (c :: cs) k = (leafPaths c).map (fun p => k :: p) ++ leafPathsL cs (k + 1) := by
  conv_lhs => unfold leafPathsL

theorem rightmostPath_unfold (cs : List Node) (d m : Option Int) :
    rightmostPath (.mk cs d m) =
      if h : cs.length - 1 < cs.length then
        (cs.length - 1) :: rightmostPath (cs.get ⟨cs.length - 1, h⟩)
      else [] := by
  conv_lhs => unfold rightmostPath

theorem succGo_nil (n : Node) : succGo n [] = none := rfl

theorem succGo_cons (cs : List Node) (d m : Option Int) (i : Nat) (p : List Nat) :
    succGo (.mk cs d m) (i :: p) =
      match cs[i]? with
      | none => none
      | some c =>
        match succGo c p with
        | some q => some (i :: q)
        | none =>
          match cs[i + 1]? with
          | some c2 => some ((i + 1) :: leftmostPath c2)
          | none => none := rfl

theorem predGo_nil (n : Node) : predGo n [] = none := rfl

theorem predGo_cons (cs : List Node) (d m : Option Int) (i : Nat) (p : List Nat) :
    predGo (.mk cs d m) (i :: p) =
      match cs[i]? with
      | none => none
      | some c =>
        match predGo c p with
        | some q => some (i :: q)
        | none =>
          if i = 0 then none
          else
            match cs[i - 1]? with
            | some c2 => some ((i - 1) :: rightmostPath c2)
            | none => none := rfl

theorem getNode_cons (cs : List Node) (d m : Option Int) (i : Nat) (p : List Nat) :
    getNode (.mk cs d m) (i :: p) =
      match cs[i]? with
      | some c => getNode c p
      | none => none := rfl

/-- The facts about the leaf-path list of a subtree that make the `++` / `--`
loops traverse it in order: its ends are the extreme descents, dereferencing
it yields the subtree's elements, and `succGo` / `predGo` step along it. -/
def IterOK (n : Node) : Prop :=
  (leafPaths n).head? = some (leftmostPath n) ∧
  (leafPaths n).getLast? = some (rightmostPath n) ∧
  (leafPaths n).map (fun p => derefAt n p) = (elems n).map some ∧
  List.Chain' (fun p q => succGo n p = some q) (leafPaths n) ∧
  (∀ p, (leafPaths n).getLast? = some p → succGo n p = none) ∧
  List.Chain' (fun p q => predGo n q = some p) (leafPaths n) ∧
  (∀ p, (leafPaths n).head? = some p → predGo n p = none) ∧
  (∀ p ∈ leafPaths n, ∃ x, getNode n p = some (Node.leaf x))

theorem iterOK_leaf (x : Int) : IterOK (Node.leaf x) := by
  have hlp : leafPaths (Node.leaf x) = [[]] := leafPaths_nil _ _
  refine ⟨?_, ?_, ?_, ?_, ?_, ?_, ?_, ?_⟩
  · rw [hlp]
    rfl
  · rw [hlp, Node.leaf, rightmostPath_unfold]
    simp
  · rw [hlp]
    simp [derefAt, getNode, Node.leaf]
  · rw [hlp]
    simp
  · intro p hp
    rw [hlp] at hp
    simp at hp
    subst hp
    rfl
  · rw [hlp]
    simp
  · intro p hp
    rw [hlp] at hp
    simp at hp
    subst hp
    rfl
  · intro p hp
    rw [hlp] at hp
    simp at hp
    subst hp
    exact ⟨x, rfl⟩

theorem leafPathsL_facts {cs : List Node} (d m : Option Int)
    (hall : ∀ c ∈ cs, IterOK c) :
    ∀ (suf : List Node) (k : Nat), cs.drop k = suf →
      ((leafPathsL suf k).map (fun p => derefAt (Node.mk cs d m) p) =
        (flatE suf).map some) ∧
      (∀ c rest, suf = c :: rest →
        (leafPathsL suf k).head? = some (k :: leftmostPath c)) ∧
      (suf ≠ [] → ∃ cl, suf.getLast? = some cl ∧
        (leafPathsL suf k).getLast? = some ((k + suf.length - 1) :: rightmostPath cl)) ∧
      List.Chain' (fun p q => succGo (Node.mk cs d m) p = some q) (leafPathsL suf k) ∧
      (∀ p, (leafPathsL suf k).getLast? = some p →
        succGo (Node.mk cs d m) p = none) ∧
      List.Chain' (fun p q => predGo (Node.mk cs d m) q = some p) (leafPathsL suf k) ∧
      (∀ p ∈ leafPathsL suf k, ∃ j p2, p = j :: p2 ∧ k ≤ j) ∧
      (∀ p ∈ leafPathsL suf k, ∃ y, getNode (Node.mk cs d m) p = some (Node.leaf y)) := by
  intro suf
  induction suf with
  | nil =>
    intro k hk
    rw [leafPathsL_nil]
    refine ⟨by simp [flatE], ?_, ?_, ?_, ?_, ?_, ?_, ?_⟩
    · intro c rest h
      cases h
    · intro h
      exact absurd rfl h
    · simp
    · intro p hp
      cases hp
    · simp
    · intro p hp
      cases hp
    · intro p hp
      cases hp
  | cons c rest ih =>
    intro k hsuf
    have hlen := congrArg List.length hsuf
    simp only [List.length_drop, List.length_cons] at hlen
    have hk : k < cs.length := by omega
    have hdecomp := List.drop_eq_getElem_cons hk
    rw [hsuf] at hdecomp
    injection hdecomp with hc hrest
    obtain ⟨ihA, ihB, ihC, ihD, ihE, ihF, ihG, ihH⟩ := ih (k + 1) hrest.symm
    have hcm : c ∈ cs := by
      rw [hc]
      exact List.getElem_mem hk
    obtain ⟨c1, c2, c3, c4, c5, c6, c7, c8⟩ := hall c hcm
    have hkq : cs[k]? = some c := by
      rw [List.getElem?_eq_getElem hk, hc]
    have hne1 : leafPaths c ≠ [] := by
      intro h0
      rw [h0] at c1
      cases c1
    have hsuccIn : ∀ p q, succGo c p = some q →
        succGo (Node.mk cs d m) (k :: p) = some (k :: q) := by
      intro p q h
      simp only [succGo_cons, hkq, h]
    have hpredIn : ∀ p q, predGo c q = some p →
        predGo (Node.mk cs d m) (k :: q) = some (k :: p) := by
      intro p q h
      simp only [predGo_cons, hkq, h]
    have hsuccLast : succGo (Node.mk cs d m) (k :: rightmostPath c) =
        match cs[k + 1]? with
        | some c2 => some ((k + 1) :: leftmostPath c2)
        | none => none := by
      have hsn := c5 _ c2
      simp only [succGo_cons, hkq, hsn]
    have hpredHead : predGo (Node.mk cs d m) (k :: leftmostPath c) =
        (if k = 0 then none
         else match cs[k - 1]? with
           | some c2 => some ((k - 1) :: rightmostPath c2)
           | none => none) := by
      have hpn := c7 _ c1
      simp only [predGo_cons, hkq, hpn]
    rw [leafPathsL_cons]
    have hlast1 : ((leafPaths c).map (fun p => k :: p)).getLast? =
        some (k :: rightmostPath c) := by
      rw [List.getLast?_map, c2]
      rfl
    have hhead1 : ((leafPaths c).map (fun p => k :: p)).head? =
        some (k :: leftmostPath c) := by
      rw [List.head?_map, c1]
      rfl
    have hne1m : (leafPaths c).map (fun p => k :: p) ≠ [] := by
      simpa using hne1
    refine ⟨?_, ?_, ?_, ?_, ?_, ?_, ?_, ?_⟩
    · -- dereferencing the paths yields the elements, in order
      rw [List.map_append, List.map_map, flatE_cons, List.map_append, ihA]
      congr 1
      rw [← c3]
      apply List.map_congr_left
      intro p hp
      simp only [Function.comp_apply]
      rw [derefAt_cons hk, ← hc]
    · -- the head is the leftmost descent into the first child
      intro c0 rest0 h0
      injection h0 with h1 h2
      subst h1
      rw [List.head?_append_of_ne_nil _ hne1m]
      exact hhead1
    · -- the last is the rightmost descent into the last child
      intro _
      cases rest with
      | nil =>
        rw [leafPathsL_nil, List.append_nil]
        refine ⟨c, rfl, ?_⟩
        rw [hlast1]
        simp
      | cons r1 rest2 =>
        obtain ⟨cl, hcl1, hcl2⟩ := ihC (by simp)
        refine ⟨cl, ?_, ?_⟩
        · rw [List.getLast?_cons_cons]
          exact hcl1
        · rw [getLast?_append_of_ne_generic (by
            intro h0
            rw [h0] at hcl2
            cases hcl2), hcl2]
          congr 2
          simp only [List.length_cons]
          omega
    · -- `succGo` chains along the whole list
      refine List.Chain'.append ?_ ihD ?_
      · rw [List.chain'_map]
        exact c4.imp hsuccIn
      · intro p hp q hq
        rw [hlast1] at hp
        cases hp
        cases rest with
        | nil =>
          rw [leafPathsL_nil] at hq
          cases hq
        | cons r1 rest2 =>
          have hq2 := ihB r1 rest2 rfl
          rw [hq2] at hq
          cases hq
          rw [hsuccLast]
          have hr1 : cs[k + 1]? = some r1 := by
            have hk2 : k + 1 < cs.length := by
              simp only [List.length_cons] at hlen
              omega
            rw [List.getElem?_eq_getElem hk2]
            have := List.drop_eq_getElem_cons hk2
            rw [← hrest] at this
            injection this with h1 h2
            rw [h1]
          rw [hr1]
    · -- after the very last leaf, `succGo` reports the end
      intro p hp
      cases rest with
      | nil =>
        rw [leafPathsL_nil, List.append_nil, hlast1] at hp
        cases hp
        rw [hsuccLast]
        have hk1 : cs[k + 1]? = none := by
          rw [List.getElem?_eq_none]
          simp at hlen
          omega
        rw [hk1]
      | cons r1 rest2 =>
        rw [getLast?_append_of_ne_generic (by
          intro h0
          have := ihB r1 rest2 rfl
          rw [h0] at this
          cases this)] at hp
        exact ihE p hp
    · -- `predGo` chains backwards along the whole list
      refine List.Chain'.append ?_ ihF ?_
      · rw [List.chain'_map]
        exact c6.imp hpredIn
      · intro p hp q hq
        rw [hlast1] at hp
        cases hp
        cases rest with
        | nil =>
          rw [leafPathsL_nil] at hq
          cases hq
        | cons r1 rest2 =>
          have hq2 := ihB r1 rest2 rfl
          rw [hq2] at hq
          cases hq
          have hk2 : k + 1 < cs.length := by
            simp only [List.length_cons] at hlen
            omega
          have hds := List.drop_eq_getElem_cons hk2
          rw [← hrest] at hds
          injection hds with h1 h2
          have hr1m : r1 ∈ cs := by
            rw [h1]
            exact List.getElem_mem hk2
          obtain ⟨cr1h, cr2h, cr3h, cr4h, cr5h, cr6h, cr7h, cr8h⟩ := hall r1 hr1m
          have hr1q : cs[k + 1]? = some r1 := by
            rw [List.getElem?_eq_getElem hk2, ← h1]
          have hpn2 := cr7h _ cr1h
          simp only [predGo_cons, hr1q, hpn2]
          rw [if_neg (by omega : ¬ k + 1 = 0)]
          have hkk : k + 1 - 1 = k := by omega
          rw [hkk, hkq]
    · -- every produced path starts with its child's index
      intro p hp
      rcases List.mem_append.mp hp with hp1 | hp2
      · obtain ⟨p0, _, hpeq⟩ := List.mem_map.mp hp1
        exact ⟨k, p0, hpeq.symm, le_refl k⟩
      · obtain ⟨j, p2, hje, hjk⟩ := ihG p hp2
        exact ⟨j, p2, hje, by omega⟩
    · -- every produced path reaches a leaf node
      intro p hp
      rcases List.mem_append.mp hp with hp1 | hp2
      · obtain ⟨p0, hp0, hpeq⟩ := List.mem_map.mp hp1
        obtain ⟨y, hy⟩ := c8 p0 hp0
        refine ⟨y, ?_⟩
        rw [← hpeq]
        simp only [getNode_cons, hkq]
        exact hy
      · exact ihH p hp2

theorem iterOK_node {cs : List Node} (d m : Option Int) (hne : cs ≠ [])
    (hall : ∀ c ∈ cs, IterOK c) : IterOK (.mk cs d m) := by
  cases cs with
  | nil => exact absurd rfl hne
  | cons c0 cs2 =>
    obtain ⟨fA, fB, fC, fD, fE, fF, fG, fH⟩ :=
      leafPathsL_facts d m hall (c0 :: cs2) 0 (by simp)
    have hlp : leafPaths (.mk (c0 :: cs2) d m) = leafPathsL (c0 :: cs2) 0 :=
      leafPaths_cons _ _ _ _
    have h0q : (c0 :: cs2)[0]? = some c0 := by simp
    refine ⟨?_, ?_, ?_, ?_, ?_, ?_, ?_, ?_⟩
    · rw [hlp, fB c0 cs2 rfl]
      rfl
    · rw [hlp]
      obtain ⟨cl, hcl, hlast⟩ := fC (by simp)
      rw [hlast]
      have hlt : (c0 :: cs2).length - 1 < (c0 :: cs2).length := by
        simp
      have hgl : (c0 :: cs2).get ⟨(c0 :: cs2).length - 1, hlt⟩ = cl := by
        refine getElem_of_getElem? hlt ?_
        rw [← List.getLast?_eq_getElem?]
        exact hcl
      rw [rightmostPath_unfold, dif_pos hlt, hgl]
      simp
    · rw [hlp, elems_mk_of_ne _ _ _ (by simp)]
      exact fA
    · rw [hlp]
      exact fD
    · intro p hp
      rw [hlp] at hp
      exact fE p hp
    · rw [hlp]
      exact fF
    · intro p hp
      rw [hlp, fB c0 cs2 rfl] at hp
      cases hp
      obtain ⟨c1, _, _, _, _, _, c7, _⟩ := hall c0 (by simp)
      have hpn := c7 _ c1
      simp only [predGo_cons, h0q, hpn]
      rfl
    · intro p hp
      rw [hlp] at hp
      exact fH p hp

theorem iterOK_sub {B : Nat} : ∀ (h : Nat) {n : Node}, Sub B n h → IterOK n := by
  intro h
  induction h with
  | zero =>
    intro n hn
    obtain ⟨y, hy⟩ := hn.zero_leaf
    rw [hy]
    exact iterOK_leaf y
  | succ h2 ih =>
    intro n hn
    obtain ⟨cs, m, he, hne, _, _, hcall, _, _⟩ := hn.succ_node
    rw [he]
    exact iterOK_node none (some m) hne (fun c hc => ih (hcall c hc))

theorem iterOK_root {B : Nat} {n : Node} {hh : Nat} (hr : RootOK B n hh)
    (hne : n.children ≠ []) : IterOK n := by
  rcases hr.elim_cases with ⟨m, he, _⟩ | ⟨cs, m, h, he, _, hcne, _, _, hall, _, _⟩
  · rw [he] at hne
    simp at hne
  · rw [he]
    exact iterOK_node none (some m) hcne (fun c hc => iterOK_sub h (hall c hc))

theorem iterFrom_succ (t : Node) (f : Nat) (p : List Nat) :
    iterFrom t (f + 1) p =
      if p = [] then [] else (derefAt t p).toList ++ iterFrom t f (succIter t p) := rfl

/-- Repeatedly applying `operator++` from the head of a `succGo`-chained path
list whose dereferences are exactly `es` collects `es`, given enough fuel. -/
theorem iterFrom_chain (t : Node) :
    ∀ (ps : List (List Nat)) (es : List Int) (p0 : List Nat),
      ps.map (fun p => derefAt t p) = es.map some →
      List.Chain' (fun p q => succGo t p = some q) ps →
      (∀ p, ps.getLast? = some p → succGo t p = none) →
      (∀ p ∈ ps, p ≠ []) →
      ps.head? = some p0 →
      ∀ fuel, es.length ≤ fuel → iterFrom t fuel p0 = es := by
  intro ps
  induction ps with
  | nil =>
    intro es p0 hmap hchain hlast hnn hhead fuel hfuel
    cases hhead
  | cons p ps2 ih =>
    intro es p0 hmap hchain hlast hnn hhead fuel hfuel
    simp only [List.head?_cons] at hhead
    injection hhead with hp0
    subst hp0
    cases es with
    | nil => simp at hmap
    | cons e es2 =>
      simp only [List.map_cons] at hmap
      injection hmap with h1 h2
      cases fuel with
      | zero =>
        simp at hfuel
      | succ f =>
        rw [iterFrom_succ, if_neg (hnn p (by simp))]
        rw [h1]
        simp only [Option.toList_some]
        cases ps2 with
        | nil =>
          have hnone := hlast p (by simp)
          have hsi : succIter t p = [] := by
            rw [succIter, hnone]
            rfl
          rw [hsi]
          have hz : iterFrom t f [] = [] := by
            cases f with
            | zero => rfl
            | succ f2 => rw [iterFrom_succ, if_pos rfl]
          rw [hz]
          cases es2 with
          | nil => rfl
          | cons a b => simp at h2
        | cons q ps3 =>
          have hsq : succGo t p = some q := List.chain'_cons.mp hchain |>.1
          have hsi : succIter t p = q := by
            rw [succIter, hsq]
            rfl
          rw [hsi]
          rw [ih es2 q h2 hchain.tail
            (by
              intro p2 hp2
              apply hlast
              rw [List.getLast?_cons_cons]
              exact hp2)
            (fun p2 hp2 => hnn p2 (by simp [hp2]))
            (by simp) f (by
              simp only [List.length_cons] at hfuel
              omega)]
          rfl

/-- Iterating from `begin()` for `sz` steps enumerates exactly the stored
elements of a well-formed set. -/
theorem traverseList_eq {B : Nat} {s : BSet} (hs : Inv B s) :
    traverseList s = setElems s := by
  obtain ⟨⟨hh, hr⟩, hsz, hbp⟩ := hs
  rcases hr.elim_cases with ⟨m, he, _⟩ | ⟨cs, m, h, he, _, hcne, _, _, hall, _, _⟩
  · have hel : setElems s = [] := by
      unfold setElems
      rw [he]
      simp
    rw [traverseList, hsz, hel]
    rfl
  · have hio := iterOK_root hr (by rw [he]; simpa using hcne)
    obtain ⟨i1, i2, i3, i4, i5, i6, i7, i8⟩ := hio
    rw [traverseList, hsz]
    refine iterFrom_chain s.head (leafPaths s.head) (setElems s) s.beginPath i3 i4 i5
      ?_ ?_ _ (le_refl _)
    · intro p hp hpn
      subst hpn
      obtain ⟨y, hy⟩ := i8 [] hp
      have : getNode s.head [] = some s.head := rfl
      rw [this] at hy
      injection hy with hy
      rw [he] at hy
      rw [Node.leaf] at hy
      injection hy with hcs2 _
      exact hcne hcs2
    · rw [hbp]
      exact i1

theorem mem_getElem_of_mem {α : Type} {l : List α} {a : α} (h : a ∈ l) :
    ∃ i, ∃ hi : i < l.length, l[i] = a := by
  obtain ⟨i, hi, he⟩ := List.getElem_of_mem h
  exact ⟨i, hi, he⟩

/-- Incrementing any reachable iterator that has a successor, then
decrementing, returns to the original position. -/
theorem iter_succ_pred {t : Node} (hio : IterOK t) :
    ∀ p q, p ∈ leafPaths t → succGo t p = some q →
      q ∈ leafPaths t ∧ predGo t q = some p := by
  obtain ⟨i1, i2, i3, i4, i5, i6, i7, i8⟩ := hio
  intro p q hp hsq
  obtain ⟨i, hi, hie⟩ := mem_getElem_of_mem hp
  by_cases hlt : i + 1 < (leafPaths t).length
  · have hch := List.chain'_iff_get.mp i4 i (by omega)
    simp only [List.get_eq_getElem] at hch
    rw [hie] at hch
    rw [hsq] at hch
    injection hch with hq
    have hqm : q ∈ leafPaths t := by
      rw [hq]
      exact List.getElem_mem hlt
    refine ⟨hqm, ?_⟩
    have hch2 := List.chain'_iff_get.mp i6 i (by omega)
    simp only [List.get_eq_getElem] at hch2
    rw [hie, ← hq] at hch2
    exact hch2
  · exfalso
    have hlasteq : (leafPaths t).getLast? = some p := by
      rw [List.getLast?_eq_getElem?]
      have hieq : (leafPaths t).length - 1 = i := by omega
      rw [hieq, List.getElem?_eq_getElem hi, hie]
    rw [i5 p hlasteq] at hsq
    cases hsq

/-- Decrementing any reachable iterator that has a predecessor, then
incrementing, returns to the original position. -/
theorem iter_pred_succ {t : Node} (hio : IterOK t) :
    ∀ p q, p ∈ leafPaths t → predGo t p = some q →
      q ∈ leafPaths t ∧ succGo t q = some p := by
  obtain ⟨i1, i2, i3, i4, i5, i6, i7, i8⟩ := hio
  intro p q hp hpq
  obtain ⟨i, hi, hie⟩ := mem_getElem_of_mem hp
  cases i with
  | zero =>
    exfalso
    have hheadeq : (leafPaths t).head? = some p := by
      rw [List.head?_eq_getElem?, List.getElem?_eq_getElem hi, hie]
    rw [i7 p hheadeq] at hpq
    cases hpq
  | succ j =>
    have hch2 := List.chain'_iff_get.mp i6 j (by omega)
    simp only [List.get_eq_getElem] at hch2
    rw [hie, hpq] at hch2
    injection hch2 with hq
    have hjlt : j < (leafPaths t).length := by omega
    have hqm : q ∈ leafPaths t := by
      rw [hq]
      exact List.getElem_mem hjlt
    refine ⟨hqm, ?_⟩
    have hch := List.chain'_iff_get.mp i4 j (by omega)
    simp only [List.get_eq_getElem] at hch
    rw [hie, ← hq] at hch
    exact hch

/-- On a leaf position, `operator--` takes the climbing branch. -/
theorem predIter_leaf {t : Node} {p : List Nat} {x : Int}
    (hx : getNode t p = some (Node.leaf x)) : predIter t p = predGo t p := by
  rw [predIter, hx]
  rfl

/-- `--end()`: from the root sentinel, `operator--` descends along the last
children to the rightmost leaf. -/
theorem predIter_end {cs : List Node} {d m : Option Int} (hne : cs ≠ []) :
    predIter (.mk cs d m) [] = some (rightmostPath (.mk cs d m)) := by
  rw [predIter]
  have : getNode (.mk cs d m) [] = some (.mk cs d m) := rfl
  rw [this]
  have hfalse : (Node.mk cs d m).children.isEmpty = false := by
    simp only [Node.children_mk]
    cases cs with
    | nil => exact absurd rfl hne
    | cons a l => rfl
  show (if (Node.mk cs d m).children.isEmpty = true then predGo (Node.mk cs d m) []
    else some ([] ++ rightmostPath (Node.mk cs d m))) = some (rightmostPath (Node.mk cs d m))
  rw [hfalse]
  simp

theorem iterOK_deref_rightmost {t : Node} (hio : IterOK t) :
    derefAt t (rightmostPath t) = (elems t).getLast? := by
  obtain ⟨_, i2, i3, _⟩ := hio
  have hlast := congrArg List.getLast? i3
  rw [List.getLast?_map, List.getLast?_map, i2] at hlast
  cases hel : (elems t).getLast? with
  | none =>
    rw [hel] at hlast
    simp at hlast
  | some y =>
    rw [hel] at hlast
    simpa using hlast

theorem iterOK_deref_leftmost {t : Node} (hio : IterOK t) :
    derefAt t (leftmostPath t) = (elems t).head? := by
  obtain ⟨i1, _, i3, _⟩ := hio
  have hhead := congrArg List.head? i3
  rw [List.head?_map, List.head?_map, i1] at hhead
  cases hel : (elems t).head? with
  | none =>
    rw [hel] at hhead
    simp at hhead
  | some y =>
    rw [hel] at hhead
    simpa using hhead

theorem sIns_ne_nil (x : Int) (l : List Int) : sIns x l ≠ [] := by
  cases l with
  | nil => simp [sIns]
  | cons y l2 =>
    rw [sIns]
    split
    · simp
    · split
      · simp
      · simp

theorem foldl_insert_sorted {B : Nat} (hB : 2 ≤ B) :
    ∀ (l pre : List Int) {t : BSet}, Inv B t → setElems t = pre →
      List.Pairwise (· < ·) (pre ++ l) →
      Inv B (l.foldl (fun t x => setInsert B x t) t) ∧
      setElems (l.foldl (fun t x => setInsert B x t) t) = pre ++ l := by
  intro l
  induction l with
  | nil =>
    intro pre t ht hel hsort
    refine ⟨ht, ?_⟩
    rw [List.foldl_nil, hel]
    simp
  | cons x l2 ih =>
    intro pre t ht hel hsort
    simp only [List.foldl_cons]
    have hx : ∀ y ∈ pre, y < x := by
      intro y hy
      have := (List.pairwise_append.mp hsort).2.2 y hy x (by simp)
      exact this
    obtain ⟨hI, hE⟩ := setInsert_spec hB ht x
    have hE2 : setElems (setInsert B x t) = pre ++ [x] := by
      rw [hE, hel, ← List.append_nil pre, sIns_append_left hx]
      simp [sIns]
    have hsort2 : List.Pairwise (· < ·) ((pre ++ [x]) ++ l2) := by
      rw [List.append_assoc]
      simpa using hsort
    obtain ⟨h1, h2⟩ := ih (pre ++ [x]) hI hE2 hsort2
    refine ⟨h1, ?_⟩
    rw [h2, List.append_assoc]
    simp

theorem setCopy_spec {B : Nat} (hB : 2 ≤ B) {s : BSet} (hs : Inv B s) :
    Inv B (setCopy B s) ∧ setElems (setCopy B s) = setElems s := by
  rw [setCopy, traverseList_eq hs]
  have hsort : List.Pairwise (· < ·) (setElems s) := by
    obtain ⟨⟨hh, hr⟩, _, _⟩ := hs
    exact hr.sorted_elems
  have := foldl_insert_sorted hB (setElems s) [] (Inv_init B) setElems_init
    (by simpa using hsort)
  simpa using this

theorem setAssign_spec {B : Nat} (hB : 2 ≤ B) {s : BSet} (hs : Inv B s) :
    Inv B (setAssign B s s) ∧ setElems (setAssign B s s) = setElems s ∧
      (setAssign B s s).sz = s.sz := by
  obtain ⟨hI, hE⟩ := setCopy_spec hB hs
  obtain ⟨hroot, hsz, hbp⟩ := hI
  refine ⟨⟨hroot, hsz, rfl⟩, hE, ?_⟩
  show (setCopy B s).sz = s.sz
  rw [hsz, hE]
  exact hs.2.1.symm

/-! ## Toolkit: "inserted and not subsequently erased", as a scan of the
operation history. -/

/-- Whether `x` is live after one more operation. -/
def aliveStep (x : Int) (b : Bool) : Op → Bool
  | .ins y => if y = x then true else b
  | .del y => if y = x then false else b

/-- `x` has been inserted and not subsequently erased. -/
def aliveIn (x : Int) (ops : List Op) : Bool := ops.foldl (aliveStep x) false

theorem alive_mem : ∀ (ops : List Op) (x : Int) (l : List Int) (b : Bool),
    List.Pairwise (· < ·) l → (x ∈ l ↔ b = true) →
    (x ∈ ops.foldl applyM l ↔ ops.foldl (aliveStep x) b = true) := by
  intro ops
  induction ops with
  | nil =>
    intro x l b hs hiff
    simpa using hiff
  | cons op rest ih =>
    intro x l b hs hiff
    simp only [List.foldl_cons]
    cases op with
    | ins y =>
      apply ih x (sIns y l) _ (sIns_pairwise hs)
      show x ∈ sIns y l ↔ (if y = x then true else b) = true
      by_cases hxy : y = x
      · subst hxy
        simp only [if_pos rfl]
        rw [mem_sIns]
        simp
      · rw [if_neg hxy, mem_sIns]
        constructor
        · intro h
          rcases h with h | h
          · exact absurd h.symm hxy
          · exact hiff.mp h
        · intro h
          exact Or.inr (hiff.mpr h)
    | del y =>
      apply ih x (sDel y l) _ (sDel_pairwise hs)
      show x ∈ sDel y l ↔ (if y = x then false else b) = true
      by_cases hxy : y = x
      · subst hxy
        simp only [if_pos rfl]
        constructor
        · intro h
          exact absurd h (not_mem_sDel hs)
        · intro h
          cases h
      · rw [if_neg hxy]
        constructor
        · intro h
          exact hiff.mp ((sDel_sublist y l).subset h)
        · intro h
          exact mem_sDel_of_ne (fun he => hxy he.symm) (hiff.mpr h)

theorem aliveIn_iff_mem (x : Int) (ops : List Op) :
    x ∈ modelRun ops ↔ aliveIn x ops = true :=
  alive_mem ops x [] false (by simp) (by simp)

/-- A duplicate `insert` falls through the `find` guard and changes nothing. -/
theorem setInsert_mem_noop {B : Nat} {x : Int} {s : BSet} (hs : Inv B s)
    (hx : x ∈ setElems s) : setInsert B x s = s := by
  have hsz : ¬ s.sz = 0 := by
    rw [hs.2.1]
    intro h0
    rw [List.length_eq_zero.mp h0] at hx
    cases hx
  rw [setInsert, if_neg hsz, if_pos ((setFind_spec hs x).1.mpr hx)]

/-- An `erase` of an absent element falls through the `find` guard and changes
nothing. -/
theorem setErase_not_mem_noop {B : Nat} {x : Int} {s : BSet} (hs : Inv B s)
    (hx : x ∉ setElems s) : setErase B x s = s := by
  rw [setErase, if_neg (by simpa using fun hsome => hx ((setFind_spec hs x).1.mp hsome))]

/-! ## The structural invariants in the specification's own wording, as
executable checkers (both the literal reading and the amended one). -/

/-- I1, literal reading, below the root: "every non-root node has between `B`
and `2B` children inclusive". -/
def arityLitSub (B : Nat) : Node → Bool
  | .mk cs _ _ =>
    (decide (B ≤ cs.length) && decide (cs.length ≤ 2 * B)) &&
      cs.attach.all (fun c => arityLitSub B c.1)
decreasing_by
  have := List.sizeOf_lt_of_mem c.2
  simp only [Node.mk.sizeOf_spec]
  omega

/-- I1 at the root: "the root has between `0` and `2B` children, and never
has exactly one internal child". -/
def rootArity (B : Nat) (cs : List Node) : Bool :=
  decide (cs.length ≤ 2 * B) &&
    (match cs with
     | [c] => c.children.isEmpty
     | _ => true)

def arityLit (B : Nat) (n : Node) : Bool :=
  rootArity B n.children && n.children.all (fun c => arityLitSub B c)

/-- I1, amended below the root: only internal non-root nodes are constrained
(leaves store an element and have no children at all). -/
def arityAmSub (B : Nat) : Node → Bool
  | .mk cs _ _ =>
    (cs.isEmpty || (decide (B ≤ cs.length) && decide (cs.length ≤ 2 * B))) &&
      cs.attach.all (fun c => arityAmSub B c.1)
decreasing_by
  have := List.sizeOf_lt_of_mem c.2
  simp only [Node.mk.sizeOf_spec]
  omega

def arityAm (B : Nat) (n : Node) : Bool :=
  rootArity B n.children && n.children.all (fun c => arityAmSub B c)

/-- I4, literal reading: "every node's cached maximum equals the true maximum
element of its subtree" (the last entry of the sorted element list). -/
def mxLit : Node → Bool
  | .mk cs d m =>
    decide (m = (elems (.mk cs d m)).getLast?) && cs.attach.all (fun c => mxLit c.1)
decreasing_by
  have := List.sizeOf_lt_of_mem c.2
  simp only [Node.mk.sizeOf_spec]
  omega

/-- I4, amended: nodes whose subtree holds no element are exempt (their cache
is a stale leftover, e.g. after the last element is erased). -/
def mxAm : Node → Bool
  | .mk cs d m =>
    ((elems (.mk cs d m)).isEmpty ||
      decide (m = (elems (.mk cs d m)).getLast?)) &&
      cs.attach.all (fun c => mxAm c.1)
decreasing_by
  have := List.sizeOf_lt_of_mem c.2
  simp only [Node.mk.sizeOf_spec]
  omega

/-- The depth of every leaf below a node. -/
def depths : Node → List Nat
  | .mk cs _ _ =>
    if cs.isEmpty then [0]
    else (cs.attach.map (fun c => (depths c.1).map (fun dd => dd + 1))).flatten
decreasing_by
  have := List.sizeOf_lt_of_mem c.2
  simp only [Node.mk.sizeOf_spec]
  omega

/-- I2: all leaves are at equal depth. -/
def depthsEq (n : Node) : Bool :=
  (depths n).all (fun a => a == (depths n).headD 0)

theorem all_attach_iff {α : Type} (l : List α) (f : α → Bool) :
    (l.attach.all fun c => f c.1) = true ↔ ∀ c ∈ l, f c = true := by
  rw [List.all_eq_true]
  constructor
  · intro h c hc
    exact h ⟨c, hc⟩ (List.mem_attach _ _)
  · intro h c _
    exact h c.1 c.2

theorem arityLitSub_unfold (B : Nat) (cs : List Node) (d m : Option Int) :
    arityLitSub B (.mk cs d m) =
      ((decide (B ≤ cs.length) && decide (cs.length ≤ 2 * B)) &&
        cs.attach.all (fun c => arityLitSub B c.1)) := by
  conv_lhs => unfold arityLitSub

theorem arityAmSub_unfold (B : Nat) (cs : List Node) (d m : Option Int) :
    arityAmSub B (.mk cs d m) =
      ((cs.isEmpty || (decide (B ≤ cs.length) && decide (cs.length ≤ 2 * B))) &&
        cs.attach.all (fun c => arityAmSub B c.1)) := by
  conv_lhs => unfold arityAmSub

theorem mxLit_unfold (cs : List Node) (d m : Option Int) :
    mxLit (.mk cs d m) =
      (decide (m = (elems (.mk cs d m)).getLast?) &&
        cs.attach.all (fun c => mxLit c.1)) := by
  conv_lhs => unfold mxLit

theorem mxAm_unfold (cs : List Node) (d m : Option Int) :
    mxAm (.mk cs d m) =
      (((elems (.mk cs d m)).isEmpty ||
        decide (m = (elems (.mk cs d m)).getLast?)) &&
        cs.attach.all (fun c => mxAm c.1)) := by
  conv_lhs => unfold mxAm

theorem depths_unfold (cs : List Node) (d m : Option Int) :
    depths (.mk cs d m) =
      (if cs.isEmpty then [0]
       else (cs.attach.map (fun c => (depths c.1).map (fun dd => dd + 1))).flatten) := by
  conv_lhs => unfold depths

theorem arityAmSub_of_sub {B : Nat} : ∀ (h : Nat) {n : Node}, Sub B n h →
    arityAmSub B n = true := by
  intro h
  induction h with
  | zero =>
    intro n hn
    obtain ⟨y, hy⟩ := hn.zero_leaf
    rw [hy, arityAmSub_unfold]
    simp
  | succ h2 ih =>
    intro n hn
    obtain ⟨cs, m, he, hne, hlo, hhi, hcall, _, _⟩ := hn.succ_node
    rw [he, arityAmSub_unfold]
    simp only [Bool.and_eq_true, Bool.or_eq_true, decide_eq_true_eq,
      List.isEmpty_iff]
    refine ⟨Or.inr ⟨hlo, by omega⟩, (all_attach_iff _ _).mpr ?_⟩
    intro c hc
    exact ih (hcall c hc)

theorem mxAm_of_sub {B : Nat} : ∀ (h : Nat) {n : Node}, Sub B n h →
    mxAm n = true := by
  intro h
  induction h with
  | zero =>
    intro n hn
    obtain ⟨y, hy⟩ := hn.zero_leaf
    rw [hy, mxAm_unfold]
    simp
  | succ h2 ih =>
    intro n hn
    obtain ⟨cs, m, he, hne, _, _, hcall, _, hmx⟩ := hn.succ_node
    rw [he, mxAm_unfold]
    simp only [Bool.and_eq_true, Bool.or_eq_true, decide_eq_true_eq]
    refine ⟨Or.inr ?_, (all_attach_iff _ _).mpr ?_⟩
    · rw [elems_mk_of_ne _ _ _ hne, hmx]
    · intro c hc
      exact ih (hcall c hc)

theorem depths_of_sub {B : Nat} : ∀ (h : Nat) {n : Node}, Sub B n h →
    ∀ dd ∈ depths n, dd = h := by
  intro h
  induction h with
  | zero =>
    intro n hn dd hdd
    obtain ⟨y, hy⟩ := hn.zero_leaf
    rw [hy, depths_unfold] at hdd
    simpa using hdd
  | succ h2 ih =>
    intro n hn dd hdd
    obtain ⟨cs, m, he, hne, _, _, hcall, _, _⟩ := hn.succ_node
    rw [he, depths_unfold, if_neg (by simpa using hne)] at hdd
    obtain ⟨l, hl, hdl⟩ := List.mem_flatten.mp hdd
    obtain ⟨c, hcm, hce⟩ := List.mem_map.mp hl
    rw [← hce] at hdl
    obtain ⟨dc, hdc, hdce⟩ := List.mem_map.mp hdl
    rw [← hdce, ih (hcall c.1 c.2) dc hdc]

theorem depthsEq_of_all_eq {n : Node} (v : Nat) (h : ∀ dd ∈ depths n, dd = v) :
    depthsEq n = true := by
  rw [depthsEq, List.all_eq_true]
  intro a ha
  cases hd : depths n with
  | nil =>
    rw [hd] at ha
    cases ha
  | cons d0 rest =>
    have h0 : d0 = v := h d0 (by rw [hd]; exact List.mem_cons_self _ _)
    have hav : a = v := h a ha
    rw [hav, h0]
    simp

theorem rootArity_nil (B : Nat) : rootArity B [] = true := by
  simp [rootArity]

theorem rootArity_single (B : Nat) (c : Node) :
    rootArity B [c] = (decide (1 ≤ 2 * B) && c.children.isEmpty) := rfl

theorem rootArity_multi (B : Nat) (c1 c2 : Node) (rest : List Node) :
    rootArity B (c1 :: c2 :: rest) =
      (decide ((c1 :: c2 :: rest).length ≤ 2 * B) && true) := rfl

/-- A well-formed root passes the amended I1 / I2 / I4 checkers. -/
theorem checkers_of_root {B : Nat} {n : Node} {hh : Nat} (hB : 2 ≤ B)
    (hr : RootOK B n hh) :
    arityAm B n = true ∧ depthsEq n = true ∧ mxAm n = true := by
  rcases hr.elim_cases with ⟨m, he, _⟩ | ⟨cs, m, h, he, _, hne, hhi, hone, hall, _, hmx⟩
  · subst he
    refine ⟨?_, ?_, ?_⟩
    · rw [arityAm, Node.children_mk, rootArity_nil]
      rfl
    · refine depthsEq_of_all_eq 0 ?_
      intro dd hdd
      rw [depths_unfold] at hdd
      simpa using hdd
    · rw [mxAm_unfold]
      simp
  · subst he
    refine ⟨?_, ?_, ?_⟩
    · rw [arityAm, Node.children_mk]
      simp only [Bool.and_eq_true]
      constructor
      · cases cs with
        | nil => exact absurd rfl hne
        | cons c1 rest =>
          cases rest with
          | nil =>
            rw [rootArity_single]
            have h0 : h = 0 := hone (by simp)
            subst h0
            obtain ⟨y, hy⟩ := (hall c1 (by simp)).zero_leaf
            rw [hy]
            simp only [Node.children_mk, Bool.and_eq_true, decide_eq_true_eq]
            exact ⟨by omega, rfl⟩
          | cons c2 rest2 =>
            rw [rootArity_multi]
            simp only [Bool.and_true, decide_eq_true_eq]
            simp only [List.length_cons] at hhi ⊢
            omega
      · rw [List.all_eq_true]
        intro c hc
        exact arityAmSub_of_sub h (hall c hc)
    · refine depthsEq_of_all_eq (h + 1) ?_
      intro dd hdd
      rw [depths_unfold, if_neg (by simpa using hne)] at hdd
      obtain ⟨l, hl, hdl⟩ := List.mem_flatten.mp hdd
      obtain ⟨c, hcm, hce⟩ := List.mem_map.mp hl
      rw [← hce] at hdl
      obtain ⟨dc, hdc, hdce⟩ := List.mem_map.mp hdl
      rw [← hdce, depths_of_sub h (hall c.1 c.2) dc hdc]
    · rw [mxAm_unfold]
      simp only [Bool.and_eq_true, Bool.or_eq_true, decide_eq_true_eq]
      refine ⟨Or.inr ?_, (all_attach_iff _ _).mpr ?_⟩
      · rw [elems_mk_of_ne _ _ _ hne, hmx]
      · intro c hc
        exact mxAm_of_sub h (hall c hc)

/-! ## Two concrete runs, for exercising the literal checkers -/

theorem step_ins (B : Nat) (s : BSet) (x : Int) : step B s (.ins x) = setInsert B x s := rfl

theorem step_del (B : Nat) (s : BSet) (x : Int) : step B s (.del x) = setErase B x s := rfl

theorem run_ins0 : run 2 [Op.ins 0] =
    ⟨.mk [Node.leaf 0] none (some 0), 1, [0]⟩ := rfl

theorem find_one_leaf0 :
    setFind (⟨.mk [Node.leaf 0] none (some 0), 1, [0]⟩ : BSet) 1 = none := by
  rw [setFind, if_neg (by decide), findGo_unfold]
  have hfg : firstGE 1 [Node.leaf 0] = 1 := by
    simp [firstGE, List.findIdx_cons, mxLt, Node.leaf]
  rw [hfg]
  simp

theorem insGo_one_leaf0 :
    insGo 2 1 (.mk [Node.leaf 0] none (some 0)) =
      .mk [Node.leaf 0, Node.leaf 1] none (some 1) := by
  rw [insGo_unfold]
  have hd : descIdx 1 [Node.leaf 0] = 0 := rfl
  rw [hd]
  rw [dif_pos (by simp)]
  rw [if_pos (by rfl)]
  have hlp : leafPos 1 [Node.leaf 0] = 1 := by
    simp [leafPos, List.findIdx_cons, dataLt, Node.leaf]
  rw [hlp]
  rfl

theorem run_ins0_ins1 : run 2 [Op.ins 0, Op.ins 1] =
    ⟨.mk [Node.leaf 0, Node.leaf 1] none (some 1), 2, [0]⟩ := by
  have h0 : run 2 [Op.ins 0, Op.ins 1] = step 2 (run 2 [Op.ins 0]) (Op.ins 1) := rfl
  rw [h0, run_ins0, step_ins]
  rw [setInsert, if_neg (by decide), if_neg (by rw [find_one_leaf0]; simp)]
  simp only [insGo_one_leaf0, Node.children_mk, Node.mx_mk]
  rw [if_neg (by decide : ¬ (([Node.leaf 0, Node.leaf 1] : List Node).length = 2 * 2))]
  rfl

theorem erase_zero :
    setErase 2 0 (⟨.mk [Node.leaf 0] none (some 0), 1, [0]⟩ : BSet) =
      ⟨.mk [] none (some 0), 0, []⟩ := by
  have hfg : firstGE 0 [Node.leaf 0] = 0 := by
    simp [firstGE, List.findIdx_cons, mxLt, Node.leaf]
  have hfind0 : setFind (⟨.mk [Node.leaf 0] none (some 0), 1, [0]⟩ : BSet) 0 =
      some [0] := by
    rw [setFind, if_neg (by decide), findGo_unfold]
    have hsub : findGo 0 (Node.leaf 0) = some [] := by
      rw [Node.leaf, findGo_unfold]
      simp
    rw [if_neg (by simp), dif_pos (by simp [hfg])]
    simp only [hfg, List.getElem_cons_zero, hsub]
    rfl
  have her : eraseGo 2 0 (.mk [Node.leaf 0] none (some 0)) =
      (.mk [] none (some 0), false) := by
    rw [eraseGo_unfold, hfg]
    rw [dif_pos (by simp)]
    rw [if_pos (by rfl)]
    rfl
  rw [setErase, if_pos (by rw [hfind0]; rfl)]
  rw [her]
  simp only [Node.children_mk]
  rw [if_neg (by decide)]
  rfl

theorem run_ins0_del0 : run 2 [Op.ins 0, Op.del 0] =
    ⟨.mk [] none (some 0), 0, []⟩ := by
  have h0 : run 2 [Op.ins 0, Op.del 0] = step 2 (run 2 [Op.ins 0]) (Op.del 0) := rfl
  rw [h0, run_ins0, step_del, erase_zero]

theorem arityLitSub_leaf_false (B : Nat) (hB : 1 ≤ B) (x : Int) :
    arityLitSub B (Node.leaf x) = false := by
  rw [show Node.leaf x = Node.mk [] (some x) (some x) from rfl, arityLitSub_unfold]
  simp
  omega

theorem mxLit_stale_false : mxLit (.mk [] none (some 0)) = false := by
  rw [mxLit_unfold]
  simp

/-- `lower_bound` at the `Set` level: `none` exactly when every element is
below `x`; otherwise an iterator to the first element `≥ x`; and the
`begin()` fast path for targets below the minimum. -/
theorem setLB_spec {B : Nat} (hB : 2 ≤ B) {s : BSet} (hs : Inv B s) (x : Int) :
    (setLB s x = none ↔ ∀ y ∈ setElems s, y < x) ∧
    (∀ y, (setElems s).find? (fun z => decide (x ≤ z)) = some y →
      ∃ p, setLB s x = some p ∧ derefAt s.head p = some y) ∧
    (∀ mn, (setElems s).head? = some mn → x < mn → setLB s x = some (BSet.begin s)) := by
  obtain ⟨⟨hh, hr⟩, hsz, hbp⟩ := hs
  by_cases hsz0 : s.sz = 0
  · have hel : setElems s = [] := by
      rw [hsz] at hsz0
      exact List.length_eq_zero.mp hsz0
    rw [setLB, if_pos hsz0]
    refine ⟨⟨fun _ => ?_, fun _ => rfl⟩, ?_, ?_⟩
    · rw [hel]
      simp
    · intro y hy
      rw [hel] at hy
      cases hy
    · intro mn hmn _
      rw [hel] at hmn
      cases hmn
  · rcases hr.elim_cases with ⟨m0, he, _⟩ |
      ⟨cs, m, h, he, _, hne, _, _, hall, hsort, hmx⟩
    · exfalso
      apply hsz0
      rw [hsz]
      unfold setElems
      rw [he]
      simp
    · have hel : setElems s = flatE cs := by
        unfold setElems
        rw [he, elems_mk_of_ne _ _ _ hne]
      have hio := iterOK_root hr (by rw [he]; simpa using hne)
      have hderef : derefAt s.head s.beginPath = (setElems s).head? := by
        rw [hbp]
        exact iterOK_deref_leftmost hio
      have helne : setElems s ≠ [] := by
        intro h0
        apply hsz0
        rw [hsz, h0]
        rfl
      obtain ⟨mn, rest, hmr⟩ : ∃ mn rest, setElems s = mn :: rest := by
        cases hel2 : setElems s with
        | nil => exact absurd hel2 helne
        | cons a r => exact ⟨a, r, rfl⟩
      have hmn : (setElems s).head? = some mn := by
        rw [hmr]
        rfl
      rw [setLB, if_neg hsz0]
      by_cases hfast : x < mn
      · rw [if_pos (by rw [hderef, hmn]; simpa using hfast)]
        refine ⟨?_, ?_, ?_⟩
        · constructor
          · intro h0
            cases h0
          · intro hallv
            exfalso
            have hmm : mn ∈ setElems s := by
              rw [hmr]
              simp
            have := hallv mn hmm
            omega
        · intro y hy
          rw [hmr, List.find?_cons_of_pos _ (by simpa using le_of_lt hfast)] at hy
          injection hy with hy
          subst hy
          exact ⟨s.beginPath, rfl, by rw [hderef, hmn]⟩
        · intro mn2 hmn2 _
          rfl
      · rw [if_neg (by rw [hderef, hmn]; simpa using hfast)]
        rw [he]
        obtain ⟨hnone, hsome⟩ := lbGo_core (B := B) (x := x) h none (some m) hne hall hsort
        rw [hel] at hmr ⊢
        refine ⟨?_, ?_, ?_⟩
        · constructor
          · intro h0 y hy
            by_contra hylt
            have hex : ∃ z ∈ flatE cs, (fun z => decide (x ≤ z)) z = true :=
              ⟨y, hy, by simpa using by omega⟩
            cases hf : (flatE cs).find? (fun z => decide (x ≤ z)) with
            | none =>
              rw [List.find?_eq_none] at hf
              obtain ⟨z, hz1, hz2⟩ := hex
              exact absurd hz2 (by simpa using hf z hz1)
            | some z =>
              obtain ⟨p, hp, _⟩ := hsome z hf
              rw [hp] at h0
              cases h0
          · intro hallv
            apply hnone
            rw [List.find?_eq_none]
            intro z hz
            have := hallv z hz
            simp
            omega
        · intro y hy
          obtain ⟨p, hp, hd⟩ := hsome y hy
          exact ⟨p, hp, hd⟩
        · intro mn2 hmn2 hlt
          exfalso
          rw [hmr] at hmn2
          injection hmn2 with hmn2
          rw [hmn2] at hfast
          exact hfast hlt

/-! ## The claims -/

/-- Claim C1: round-trip membership — after any sequence of public
operations, `find(x)` returns a non-end iterator exactly when `x` has been
inserted and not subsequently erased; that iterator dereferences to a value
comparing equal to `x`; and when `x` is not live (in particular right after
`erase(x)`), `find(x)` is the end sentinel (`none`), never a failure. -/
theorem claim_C1 (B : Nat) (hB : 2 ≤ B) (ops : List Op) (x : Int) :
    ((setFind (run B ops) x).isSome = true ↔ aliveIn x ops = true) ∧
    (∀ p, setFind (run B ops) x = some p → derefAt (run B ops).head p = some x) ∧
    (aliveIn x ops = false → setFind (run B ops) x = none) := by
  obtain ⟨hInv, hE⟩ := run_inv hB ops
  obtain ⟨hiff, hderef⟩ := setFind_spec hInv x
  have hmem : x ∈ setElems (run B ops) ↔ aliveIn x ops = true := by
    rw [hE]
    exact aliveIn_iff_mem x ops
  refine ⟨hiff.trans hmem, hderef, ?_⟩
  intro hdead
  cases hf : setFind (run B ops) x with
  | none => rfl
  | some p =>
    exfalso
    have halive := (hiff.trans hmem).mp (by rw [hf]; rfl)
    rw [halive] at hdead
    cases hdead

theorem claim_C1_witness :
    2 ≤ 2 ∧
    (((setFind (run 2 [Op.ins 5]) 5).isSome = true ↔ aliveIn 5 [Op.ins 5] = true) ∧
    (∀ p, setFind (run 2 [Op.ins 5]) 5 = some p →
      derefAt (run 2 [Op.ins 5]).head p = some 5) ∧
    (aliveIn 5 [Op.ins 5] = false → setFind (run 2 [Op.ins 5]) 5 = none)) :=
  ⟨by decide, claim_C1 2 (by decide) [Op.ins 5] 5⟩

/-- Claim C2: sorted traversal — after any sequence of inserts and erases,
iterating from `begin()` to `end()` yields exactly the stored element list
(each element once), and that sequence is strictly increasing. -/
theorem claim_C2 (B : Nat) (hB : 2 ≤ B) (ops : List Op) :
    traverseList (run B ops) = setElems (run B ops) ∧
    List.Pairwise (· < ·) (traverseList (run B ops)) := by
  have hInv := (run_inv hB ops).1
  have ht := traverseList_eq hInv
  refine ⟨ht, ?_⟩
  rw [ht]
  exact run_sorted hB ops

theorem claim_C2_witness :
    2 ≤ 2 ∧
    (traverseList (run 2 [Op.ins 5]) = setElems (run 2 [Op.ins 5]) ∧
    List.Pairwise (· < ·) (traverseList (run 2 [Op.ins 5]))) :=
  ⟨by decide, claim_C2 2 (by decide) [Op.ins 5]⟩

/-- Claim C3: size accounting — after any operation sequence, `size()` equals
the number of distinct live elements (the model list's length: inserted and
not erased); inserting an absent element increments it by exactly one, and
erasing a present element decrements it by exactly one. -/
theorem claim_C3 (B : Nat) (hB : 2 ≤ B) (ops : List Op) :
    (run B ops).sz = (modelRun ops).length ∧
    (∀ x, x ∉ setElems (run B ops) →
      (setInsert B x (run B ops)).sz = (run B ops).sz + 1) ∧
    (∀ x, x ∈ setElems (run B ops) →
      (setErase B x (run B ops)).sz + 1 = (run B ops).sz) := by
  obtain ⟨hInv, hE⟩ := run_inv hB ops
  have hsz := hInv.2.1
  refine ⟨by rw [hsz, hE], ?_, ?_⟩
  · intro x hx
    obtain ⟨hI2, hE2⟩ := setInsert_spec hB hInv x
    rw [hI2.2.1, hE2, sIns_length hx, hsz]
  · intro x hx
    obtain ⟨hI2, hE2⟩ := setErase_spec hB hInv x
    rw [hI2.2.1, hE2, sDel_length_of_mem hx, hsz]

theorem claim_C3_witness :
    2 ≤ 2 ∧
    ((run 2 [Op.ins 5]).sz = (modelRun [Op.ins 5]).length ∧
    (∀ x, x ∉ setElems (run 2 [Op.ins 5]) →
      (setInsert 2 x (run 2 [Op.ins 5])).sz = (run 2 [Op.ins 5]).sz + 1) ∧
    (∀ x, x ∈ setElems (run 2 [Op.ins 5]) →
      (setErase 2 x (run 2 [Op.ins 5])).sz + 1 = (run 2 [Op.ins 5]).sz)) :=
  ⟨by decide, claim_C3 2 (by decide) [Op.ins 5]⟩

/-- Claim C4: `lower_bound` correctness — for any reachable state, the result
is the end sentinel exactly when every stored element is below `x`; whenever
some element is `≥ x`, it returns an iterator to the smallest such element
(the first hit of the sorted element list); and for `x` below the minimum it
returns `begin()` directly. -/
theorem claim_C4 (B : Nat) (hB : 2 ≤ B) (ops : List Op) (x : Int) :
    (setLB (run B ops) x = none ↔ ∀ y ∈ setElems (run B ops), y < x) ∧
    (∀ y, (setElems (run B ops)).find? (fun z => decide (x ≤ z)) = some y →
      ∃ p, setLB (run B ops) x = some p ∧ derefAt (run B ops).head p = some y) ∧
    (∀ mn, (setElems (run B ops)).head? = some mn → x < mn →
      setLB (run B ops) x = some (BSet.begin (run B ops))) :=
  setLB_spec hB (run_inv hB ops).1 x

theorem claim_C4_witness :
    2 ≤ 2 ∧
    ((setLB (run 2 [Op.ins 5]) 3 = none ↔ ∀ y ∈ setElems (run 2 [Op.ins 5]), y < 3) ∧
    (∀ y, (setElems (run 2 [Op.ins 5])).find? (fun z => decide ((3:Int) ≤ z)) = some y →
      ∃ p, setLB (run 2 [Op.ins 5]) 3 = some p ∧
        derefAt (run 2 [Op.ins 5]).head p = some y) ∧
    (∀ mn, (setElems (run 2 [Op.ins 5])).head? = some mn → 3 < mn →
      setLB (run 2 [Op.ins 5]) 3 = some (BSet.begin (run 2 [Op.ins 5])))) :=
  ⟨by decide, claim_C4 2 (by decide) [Op.ins 5] 3⟩

/-- Claim C5 (amended): after every public operation sequence, and after a
copy, every node satisfies the amended I1 (internal non-root nodes have
between `B` and `2B` children; the root has at most `2B` and never exactly
one internal child — leaves, which store one element and no children, are
exempt), I2 (all leaves at equal depth), and the amended I4 (every node whose
subtree is nonempty caches its true maximum; the cache of an emptied root is
a stale leftover).  The literal reading — leaf arity in `[B, 2B]`, caches
exact even for empty subtrees — is refuted by `claim_C5_counterexample`. -/
theorem claim_C5 (B : Nat) (hB : 2 ≤ B) (ops : List Op) :
    (arityAm B (run B ops).head = true ∧ depthsEq (run B ops).head = true ∧
      mxAm (run B ops).head = true) ∧
    (arityAm B (setCopy B (run B ops)).head = true ∧
      depthsEq (setCopy B (run B ops)).head = true ∧
      mxAm (setCopy B (run B ops)).head = true) := by
  obtain ⟨⟨hh, hr⟩, _, _⟩ := (run_inv hB ops).1
  obtain ⟨⟨hh2, hr2⟩, _, _⟩ := (setCopy_spec hB (run_inv hB ops).1).1
  exact ⟨checkers_of_root hB hr, checkers_of_root hB hr2⟩

theorem claim_C5_witness :
    2 ≤ 2 ∧
    ((arityAm 2 (run 2 [Op.ins 5]).head = true ∧ depthsEq (run 2 [Op.ins 5]).head = true ∧
      mxAm (run 2 [Op.ins 5]).head = true) ∧
    (arityAm 2 (setCopy 2 (run 2 [Op.ins 5])).head = true ∧
      depthsEq (setCopy 2 (run 2 [Op.ins 5])).head = true ∧
      mxAm (setCopy 2 (run 2 [Op.ins 5])).head = true)) :=
  ⟨by decide, claim_C5 2 (by decide) [Op.ins 5]⟩

/-- Claim C5, literal-reading counterexample: with `B = 2`, after
`insert(0); insert(1)` the tree's leaves have `0 < B` children, so the
literal "every non-root node has between `B` and `2B` children" fails; and
after `insert(0); erase(0)` the emptied root still caches maximum `0` while
its subtree holds no element, so the literal "every node's cached maximum
equals the true subtree maximum" fails. -/
theorem claim_C5_counterexample :
    arityLit 2 (run 2 [Op.ins 0, Op.ins 1]).head = false ∧
    mxLit (run 2 [Op.ins 0, Op.del 0]).head = false := by
  constructor
  · rw [run_ins0_ins1]
    show arityLit 2 (.mk [Node.leaf 0, Node.leaf 1] none (some 1)) = false
    rw [arityLit, Node.children_mk]
    rw [List.all_cons, arityLitSub_leaf_false 2 (by omega) 0]
    simp
  · rw [run_ins0_del0]
    show mxLit (.mk [] none (some 0)) = false
    exact mxLit_stale_false

/-- Claim C6: idempotence — inserting the same element twice leaves the set
structurally identical to inserting it once (the second call exits through
the `find` guard), and erasing an absent element leaves the set structurally
unchanged. -/
theorem claim_C6 (B : Nat) (hB : 2 ≤ B) (ops : List Op) (x : Int) :
    setInsert B x (setInsert B x (run B ops)) = setInsert B x (run B ops) ∧
    (x ∉ setElems (run B ops) → setErase B x (run B ops) = run B ops) := by
  have hInv := (run_inv hB ops).1
  obtain ⟨hI2, hE2⟩ := setInsert_spec hB hInv x
  refine ⟨setInsert_mem_noop hI2 ?_, fun hx => setErase_not_mem_noop hInv hx⟩
  rw [hE2, mem_sIns]
  exact Or.inl rfl

theorem claim_C6_witness :
    2 ≤ 2 ∧
    (setInsert 2 5 (setInsert 2 5 (run 2 [Op.ins 5])) = setInsert 2 5 (run 2 [Op.ins 5]) ∧
    (5 ∉ setElems (run 2 [Op.ins 5]) → setErase 2 5 (run 2 [Op.ins 5]) = run 2 [Op.ins 5])) :=
  ⟨by decide, claim_C6 2 (by decide) [Op.ins 5] 5⟩

/-- Claim C7: the fuse step of underflow repair — at a node with fewer than
`B` children whose chosen adjacent sibling has exactly `B` children, all of
the node's children move into the sibling preserving element order (appended
after the left sibling's children; placed in front of the right sibling's),
the survivor's cache is refreshed (`recalc`), the emptied node's slot is
removed from the parent's child list (one fewer child), and the `merge` loop
continues at the parent (flag `false`). -/
theorem claim_C7 (B : Nat) (A2 : List Node) (nb c : Node) (D : List Node)
    (d m : Option Int) (hc : c.children.length < B)
    (hnb : nb.children.length = B) :
    (mergeStep B (.mk ((A2 ++ [nb]) ++ c :: D) d m) (A2.length + 1) =
      (.mk (A2 ++ recalc (.mk (nb.children ++ c.children) nb.data nb.mx) :: D) d m,
        false) ∧
      (A2 ++ recalc (.mk (nb.children ++ c.children) nb.data nb.mx) :: D).length + 1 =
        ((A2 ++ [nb]) ++ c :: D).length) ∧
    (mergeStep B (.mk (c :: nb :: D) d m) 0 =
      (.mk (recalc (.mk (c.children ++ nb.children) c.data c.mx) :: D) d m, false) ∧
      (recalc (.mk (c.children ++ nb.children) c.data c.mx) :: D).length + 1 =
        (c :: nb :: D).length) := by
  have hle : ¬ B < nb.children.length := by omega
  refine ⟨⟨mergeStep_left_fuse A2 nb c D d m hle, ?_⟩,
    ⟨mergeStep_right_fuse c nb D d m hle, ?_⟩⟩
  · simp only [List.length_append, List.length_cons, List.length_nil]
    omega
  · simp only [List.length_cons]

theorem claim_C7_witness :
    (Node.mk [Node.leaf 2] none (some 2)).children.length < 2 ∧
    (Node.mk [Node.leaf 0, Node.leaf 1] none (some 1)).children.length = 2 ∧
    ((mergeStep 2 (.mk ((([] : List Node) ++ [Node.mk [Node.leaf 0, Node.leaf 1] none (some 1)]) ++
        Node.mk [Node.leaf 2] none (some 2) :: ([] : List Node)) none none) (List.length ([] : List Node) + 1) =
      (.mk (([] : List Node) ++ recalc (.mk ((Node.mk [Node.leaf 0, Node.leaf 1] none (some 1)).children ++
          (Node.mk [Node.leaf 2] none (some 2)).children)
          (Node.mk [Node.leaf 0, Node.leaf 1] none (some 1)).data
          (Node.mk [Node.leaf 0, Node.leaf 1] none (some 1)).mx) :: ([] : List Node)) none none,
        false) ∧
      (([] : List Node) ++ recalc (.mk ((Node.mk [Node.leaf 0, Node.leaf 1] none (some 1)).children ++
          (Node.mk [Node.leaf 2] none (some 2)).children)
          (Node.mk [Node.leaf 0, Node.leaf 1] none (some 1)).data
          (Node.mk [Node.leaf 0, Node.leaf 1] none (some 1)).mx) :: ([] : List Node)).length + 1 =
        (([] ++ [Node.mk [Node.leaf 0, Node.leaf 1] none (some 1)]) ++
          Node.mk [Node.leaf 2] none (some 2) :: ([] : List Node)).length) ∧
    (mergeStep 2 (.mk (Node.mk [Node.leaf 2] none (some 2) ::
        Node.mk [Node.leaf 0, Node.leaf 1] none (some 1) :: ([] : List Node)) none none) 0 =
      (.mk (recalc (.mk ((Node.mk [Node.leaf 2] none (some 2)).children ++
          (Node.mk [Node.leaf 0, Node.leaf 1] none (some 1)).children)
          (Node.mk [Node.leaf 2] none (some 2)).data
          (Node.mk [Node.leaf 2] none (some 2)).mx) :: ([] : List Node)) none none, false) ∧
      (recalc (.mk ((Node.mk [Node.leaf 2] none (some 2)).children ++
          (Node.mk [Node.leaf 0, Node.leaf 1] none (some 1)).children)
          (Node.mk [Node.leaf 2] none (some 2)).data
          (Node.mk [Node.leaf 2] none (some 2)).mx) :: ([] : List Node)).length + 1 =
        (Node.mk [Node.leaf 2] none (some 2) ::
          Node.mk [Node.leaf 0, Node.leaf 1] none (some 1) :: ([] : List Node)).length)) :=
  ⟨by decide, by decide,
    claim_C7 2 [] (Node.mk [Node.leaf 0, Node.leaf 1] none (some 1))
      (Node.mk [Node.leaf 2] none (some 2)) [] none none (by decide) (by decide)⟩

/-- Claim C8: iterator bidirectionality — on any reachable set, decrementing
an incremented reachable iterator returns the original position, incrementing
a decremented one returns the original position, and on a non-empty set
`--end()` reaches the rightmost leaf, which dereferences to the maximum (the
last element of the sorted element list). -/
theorem claim_C8 (B : Nat) (hB : 2 ≤ B) (ops : List Op) :
    (∀ p q, p ∈ leafPaths (run B ops).head → succGo (run B ops).head p = some q →
      predIter (run B ops).head q = some p) ∧
    (∀ p q, p ∈ leafPaths (run B ops).head → predIter (run B ops).head p = some q →
      succGo (run B ops).head q = some p) ∧
    (setElems (run B ops) ≠ [] →
      predIter (run B ops).head [] = some (rightmostPath (run B ops).head) ∧
      derefAt (run B ops).head (rightmostPath (run B ops).head) =
        (setElems (run B ops)).getLast?) := by
  obtain ⟨⟨hh, hr⟩, hsz, hbp⟩ := (run_inv hB ops).1
  rcases hr.elim_cases with ⟨m0, he, _⟩ | ⟨cs, m, h, he, _, hne, _, _, hall, _, _⟩
  · refine ⟨?_, ?_, ?_⟩
    · intro p q hp hsq
      exfalso
      rw [he, leafPaths_nil] at hp
      simp at hp
      subst hp
      rw [succGo_nil] at hsq
      cases hsq
    · intro p q hp hpq
      exfalso
      rw [he, leafPaths_nil] at hp
      simp at hp
      subst hp
      rw [he] at hpq
      have hnone : predIter (.mk ([] : List Node) none m0) [] = none := rfl
      rw [hnone] at hpq
      cases hpq
    · intro hne2
      exfalso
      apply hne2
      unfold setElems
      rw [he]
      simp
  · have hio := iterOK_root hr (by rw [he]; simpa using hne)
    refine ⟨?_, ?_, ?_⟩
    · intro p q hp hsq
      obtain ⟨hqm, hpred⟩ := iter_succ_pred hio p q hp hsq
      obtain ⟨_, _, _, _, _, _, _, i8⟩ := hio
      obtain ⟨y, hy⟩ := i8 q hqm
      rw [predIter_leaf hy, hpred]
    · intro p q hp hpq
      obtain ⟨y, hy⟩ := hio.2.2.2.2.2.2.2 p hp
      rw [predIter_leaf hy] at hpq
      exact (iter_pred_succ hio p q hp hpq).2
    · intro hne2
      refine ⟨?_, ?_⟩
      · rw [he]
        exact predIter_end hne
      · exact iterOK_deref_rightmost hio

theorem claim_C8_witness :
    2 ≤ 2 ∧
    ((∀ p q, p ∈ leafPaths (run 2 [Op.ins 5]).head →
      succGo (run 2 [Op.ins 5]).head p = some q →
      predIter (run 2 [Op.ins 5]).head q = some p) ∧
    (∀ p q, p ∈ leafPaths (run 2 [Op.ins 5]).head →
      predIter (run 2 [Op.ins 5]).head p = some q →
      succGo (run 2 [Op.ins 5]).head q = some p) ∧
    (setElems (run 2 [Op.ins 5]) ≠ [] →
      predIter (run 2 [Op.ins 5]).head [] = some (rightmostPath (run 2 [Op.ins 5]).head) ∧
      derefAt (run 2 [Op.ins 5]).head (rightmostPath (run 2 [Op.ins 5]).head) =
        (setElems (run 2 [Op.ins 5])).getLast?)) :=
  ⟨by decide, claim_C8 2 (by decide) [Op.ins 5]⟩

/-- Claim C9: empty-set iterator edge case — after default construction
`begin() == end()`, and whenever a run leaves the set empty (e.g. after
erasing the last element), the cached `begin` iterator is the root sentinel
and traversal visits no elements. -/
theorem claim_C9 (B : Nat) (hB : 2 ≤ B) (ops : List Op) :
    BSet.begin BSet.init = BSet.endP BSet.init ∧
    (setElems (run B ops) = [] →
      BSet.begin (run B ops) = BSet.endP (run B ops) ∧
      traverseList (run B ops) = []) := by
  refine ⟨rfl, ?_⟩
  intro hel
  obtain ⟨⟨hh, hr⟩, hsz, hbp⟩ := (run_inv hB ops).1
  rcases hr.elim_cases with ⟨m0, he, _⟩ | ⟨cs, m, h, he, _, hne, _, _, hall, _, _⟩
  · refine ⟨?_, ?_⟩
    · show (run B ops).beginPath = []
      rw [hbp, he]
      rfl
    · rw [traverseList_eq ⟨⟨hh, hr⟩, hsz, hbp⟩, hel]
  · exfalso
    apply flatE_ne_nil_sub hne hall
    have hel2 : setElems (run B ops) = flatE cs := by
      unfold setElems
      rw [he, elems_mk_of_ne _ _ _ hne]
    rw [← hel2, hel]

theorem claim_C9_witness :
    2 ≤ 2 ∧
    (BSet.begin BSet.init = BSet.endP BSet.init ∧
    (setElems (run 2 [Op.ins 0, Op.del 0]) = [] →
      BSet.begin (run 2 [Op.ins 0, Op.del 0]) = BSet.endP (run 2 [Op.ins 0, Op.del 0]) ∧
      traverseList (run 2 [Op.ins 0, Op.del 0]) = [])) :=
  ⟨by decide, claim_C9 2 (by decide) [Op.ins 0, Op.del 0]⟩

/-- Claim C10: self-assignment safety — assigning a set to itself (which
builds a complete temporary copy before replacing the target's root, size and
cached `begin`) leaves it with exactly the same elements and size, and still
well formed. -/
theorem claim_C10 (B : Nat) (hB : 2 ≤ B) (ops : List Op) :
    setElems (setAssign B (run B ops) (run B ops)) = setElems (run B ops) ∧
    (setAssign B (run B ops) (run B ops)).sz = (run B ops).sz ∧
    Inv B (setAssign B (run B ops) (run B ops)) := by
  obtain ⟨h1, h2, h3⟩ := setAssign_spec hB (run_inv hB ops).1
  exact ⟨h2, h3, h1⟩

theorem claim_C10_witness :
    2 ≤ 2 ∧
    (setElems (setAssign 2 (run 2 [Op.ins 5]) (run 2 [Op.ins 5])) =
      setElems (run 2 [Op.ins 5]) ∧
    (setAssign 2 (run 2 [Op.ins 5]) (run 2 [Op.ins 5])).sz = (run 2 [Op.ins 5]).sz ∧
    Inv 2 (setAssign 2 (run 2 [Op.ins 5]) (run 2 [Op.ins 5]))) :=
  ⟨by decide, claim_C10 2 (by decide) [Op.ins 5]⟩

end BT
